import Mathlib

/-!
Verification of the two mirror-synchronization programs
(`mirror-provider-local.py` and `mirror-provider.py`) of
`arpio/terraform-provider-build-utils`.

The Python sources are shallowly embedded: strings are Lean `String`
(lists of characters), Python dicts are association lists with
replace-or-append update, Python sets are duplicate-free lists, the S3
store is an association list from keys to objects, and the external
`dirhasher` procedure is an abstract deterministic function supplied in
an environment.  The two `main` drivers are embedded as pure functions
from the input list and destination store to the final store plus the
chronological list of store writes.
-/

namespace MirrorProv

/-- The custom S3 metadata header used to avoid re-uploading archives
(`DIRHASH_METADATA = 'dirhash'` in both sources). -/
def DIRHASH_METADATA : String := "dirhash"

/-! ### Python string primitives, on `List Char` -/

/-- Split the list at the first occurrence of `sep`: returns
`(before, after)`, or `none` when `sep` does not occur. -/
def splitFirst (sep : Char) : List Char → Option (List Char × List Char)
  | [] => none
  | c :: cs =>
    if c = sep then some ([], cs)
    else (splitFirst sep cs).map (fun p => (c :: p.1, p.2))

/-- Python `s.split(sep, maxsplit)`: split at most `n` times, the
remainder staying in the last piece. -/
def splitMax (sep : Char) : Nat → List Char → List (List Char)
  | 0, cs => [cs]
  | n + 1, cs =>
    match splitFirst sep cs with
    | none => [cs]
    | some (pre, post) => pre :: splitMax sep n post

/-- Python `s.split(sep)` with no limit. -/
def splitAll (sep : Char) : List Char → List (List Char)
  | [] => [[]]
  | c :: cs =>
    match splitAll sep cs with
    | [] => [[c]]
    | p :: ps => if c = sep then [] :: p :: ps else (c :: p) :: ps

/-- Last element of a split result (Python `parts[-1]`; a split result
is never empty, the `[]` case is unreachable). -/
def lastD : List (List Char) → List Char
  | [] => []
  | [x] => x
  | _ :: x :: xs => lastD (x :: xs)

/-- `os.path.basename`: everything after the last `'/'`. -/
def basenameChars : List Char → List Char
  | [] => []
  | c :: cs => if '/' ∈ cs then basenameChars cs else if c = '/' then cs else c :: cs

/-- Index of the last occurrence of `t`, if any (Python `s.rfind(t)`). -/
def lastIdxOf (t : Char) : List Char → Option Nat
  | [] => none
  | c :: cs =>
    match lastIdxOf t cs with
    | some i => some (i + 1)
    | none => if c = t then some 0 else none

/-- The root part of CPython `os.path.splitext`, applied to a base name:
cut at the last dot, except that a name consisting solely of leading
dots before that position has no extension. -/
def splitextRoot (cs : List Char) : List Char :=
  match lastIdxOf '.' cs with
  | none => cs
  | some i => if (cs.take i).any (· != '.') then cs.take i else cs

/-- Python `file_name.endswith('.zip')`. -/
def endsWithDotZip (cs : List Char) : Bool := ('.' :: 'z' :: 'i' :: 'p' :: []).isSuffixOf cs

/-! ### The `Archive` records and their parsers -/

namespace Local

/-- `Archive` of `mirror-provider-local.py`: a `NamedTuple` over the
local path and the four name components. -/
structure Archive where
  path : String
  file_name : String
  provider : String
  version : String
  os : String
  arch : String
deriving DecidableEq, Repr

/-- `Archive.parse` of `mirror-provider-local.py`: base name, `.zip`
extension check, `os.path.splitext`, split on `'_'` with `maxsplit=3`,
require exactly four non-empty parts. -/
def Archive.parse (archive_path : String) : Option Archive :=
  let file_name := basenameChars archive_path.data
  if endsWithDotZip file_name then
    let without_ext := splitextRoot file_name
    match splitMax '_' 3 without_ext with
    | [p, v, o, a] =>
      if p = [] ∨ v = [] ∨ o = [] ∨ a = [] then none
      else some ⟨archive_path, ⟨file_name⟩, ⟨p⟩, ⟨v⟩, ⟨o⟩, ⟨a⟩⟩
    | _ => none
  else none

end Local

namespace Remote

/-- `Archive` of `mirror-provider.py`: a `NamedTuple` over the source
object key and the four name components. -/
structure Archive where
  key : String
  file_name : String
  provider : String
  version : String
  os : String
  arch : String
deriving DecidableEq, Repr

/-- `Archive.parse` of `mirror-provider.py`: `key.split('/')[-1]`,
`.zip` extension check, `file_name[:-4]`, split on `'_'` with
`maxsplit=3`, require exactly four non-empty parts. -/
def Archive.parse (key : String) : Option Archive :=
  let file_name := lastD (splitAll '/' key.data)
  if endsWithDotZip file_name then
    let without_ext := file_name.take (file_name.length - 4)
    match splitMax '_' 3 without_ext with
    | [p, v, o, a] =>
      if p = [] ∨ v = [] ∨ o = [] ∨ a = [] then none
      else some ⟨key, ⟨file_name⟩, ⟨p⟩, ⟨v⟩, ⟨o⟩, ⟨a⟩⟩
    | _ => none
  else none

end Remote

/-! ### Python dicts and sets -/

/-- Python `d.get(k)` / `d[k]` on a dict modelled as an association
list with unique keys. -/
def dictGet {β : Type} (d : List (String × β)) (k : String) : Option β :=
  match d with
  | [] => none
  | (k', v) :: rest => if k' = k then some v else dictGet rest k

/-- Python `d[k] = v`: replace the binding in place, or append a new
binding. -/
def dictSet {β : Type} (d : List (String × β)) (k : String) (v : β) : List (String × β) :=
  match d with
  | [] => [(k, v)]
  | (k', v') :: rest => if k' = k then (k', v) :: rest else (k', v') :: dictSet rest k v

/-- Python `d[k] = f(d.get(k, dflt))` as used through `defaultdict`. -/
def dictUpd {β : Type} (d : List (String × β)) (k : String) (f : β → β) (dflt : β) :
    List (String × β) :=
  match d with
  | [] => [(k, f dflt)]
  | (k', v') :: rest => if k' = k then (k', f v') :: rest else (k', v') :: dictUpd rest k f dflt

/-- The keys of a dict, in insertion order. -/
def dictKeys {β : Type} (d : List (String × β)) : List String := d.map Prod.fst

/-- Python `s.add(a)` on a set modelled as a duplicate-free list. -/
def setAdd {α : Type} [DecidableEq α] (s : List α) (a : α) : List α :=
  if a ∈ s then s else s ++ [a]

/-! ### The object store -/

/-- A stored S3 object: its bytes and its user metadata map. -/
structure SObj where
  body : String
  metadata : List (String × String)
deriving DecidableEq, Repr

/-- An S3 bucket: keys mapped to objects. -/
def Store : Type := List (String × SObj)

instance : DecidableEq Store := by unfold Store; infer_instance

/-- A store write issued during a run: an `upload_file` of a local
archive, a `copy_from` between buckets, or a document `put`. -/
inductive Ev where
  | upload (key : String) (filename : String) (metadata : List (String × String))
  | copyFrom (dstKey : String) (srcKey : String) (metadata : List (String × String))
  | put (key : String) (body : String)
deriving DecidableEq, Repr

/-- The document `put`s among a run's writes, as `(key, body)` pairs. -/
def putsOf (evs : List Ev) : List (String × String) :=
  evs.filterMap fun e =>
    match e with
    | .put k b => some (k, b)
    | _ => none

/-- The artifact copies/uploads among a run's writes. -/
def copiesOf (evs : List Ev) : List Ev :=
  evs.filter fun e =>
    match e with
    | .put _ _ => false
    | _ => true

/-- The deterministic external world: `hashContent` is the `dirhasher`
digest of an archive's bytes, `fileContent` gives the bytes of a local
file by path. -/
structure Env where
  hashContent : String → String
  fileContent : String → String

/-- `dirhash(path)` of `mirror-provider-local.py`: run `dirhasher` over
the local file (successful-exit case; the failure case is modelled by
`dirhashRun` below). -/
def dirhashLocal (env : Env) (path : String) : String :=
  env.hashContent (env.fileContent path)

/-! ### `copy_archive`, both variants -/

namespace Local

/-- `copy_archive` of `mirror-provider-local.py`: always recompute the
dirhash of the local file; skip the upload only when the mirror object
exists with exactly that dirhash metadata; otherwise upload with fresh
metadata. Returns `(dirhash, copied)`, the updated store, and the
writes issued. -/
def copy_archive (env : Env) (archive_path : String) (store : Store) (key : String) :
    (String × Bool) × Store × List Ev :=
  let h1 := dirhashLocal env archive_path
  let copy_required :=
    match dictGet store key with
    | some o => decide ¬(dictGet o.metadata DIRHASH_METADATA = some h1)
    | none => true
  if copy_required then
    ((h1, true),
      dictSet store key ⟨env.fileContent archive_path, [(DIRHASH_METADATA, h1)]⟩,
      [.upload key archive_path [(DIRHASH_METADATA, h1)]])
  else ((h1, false), store, [])

end Local

namespace Remote

/-- `copy_archive` of `mirror-provider.py`: if the mirror object exists
and carries a *truthy* (non-empty) dirhash metadata value, return that
value without fingerprinting or copying; otherwise download and
fingerprint the release object and `copy_from` it with the source
metadata plus the fresh dirhash (`MetadataDirective='REPLACE'`). -/
def copy_archive (env : Env) (relStore : Store) (rel_key : String)
    (mstore : Store) (mirror_key : String) : (String × Bool) × Store × List Ev :=
  let cached :=
    match dictGet mstore mirror_key with
    | some o =>
      match dictGet o.metadata DIRHASH_METADATA with
      | some h => if h = "" then none else some h
      | none => none
    | none => none
  match cached with
  | some h => ((h, false), mstore, [])
  | none =>
    let rel_obj := (dictGet relStore rel_key).getD ⟨"", []⟩
    let h1 := env.hashContent rel_obj.body
    let metadata := dictSet rel_obj.metadata DIRHASH_METADATA h1
    ((h1, true), dictSet mstore mirror_key ⟨rel_obj.body, metadata⟩,
      [.copyFrom mirror_key rel_key metadata])

end Remote

/-! ### `object_exists` and the `dirhasher` subprocess -/

/-- Outcome of `obj.load()`: success, or a `ClientError` carrying its
error code. -/
inductive LoadResult where
  | ok (obj : SObj)
  | clientError (code : String)

/-- `object_exists` (identical in both sources): `'404'` means the
object does not exist; any other `ClientError` is re-raised. -/
def object_exists : LoadResult → Except String Bool
  | .ok _ => .ok true
  | .clientError code => if code = "404" then .ok false else .error code

/-- A finished `subprocess.run` invocation of `dirhasher`. -/
structure CompletedProcess where
  returncode : Int
  stdout : String

/-- Python `str.isspace` (the code points stripped by `str.strip()`). -/
def pyIsSpace (c : Char) : Bool :=
  let n := c.toNat
  (9 ≤ n && n ≤ 13) || (28 ≤ n && n ≤ 31) || n = 32 || n = 133 || n = 160 ||
    n = 5760 || (8192 ≤ n && n ≤ 8202) || n = 8232 || n = 8233 || n = 8239 ||
    n = 8287 || n = 12288

/-- Python `s.strip()`. -/
def pyStrip (s : String) : String :=
  ⟨((s.data.dropWhile pyIsSpace).reverse.dropWhile pyIsSpace).reverse⟩

/-- `dirhash` error handling (identical in both sources): non-zero exit
raises `MirrorError`, zero exit returns the trimmed stdout. -/
def dirhashRun (p : CompletedProcess) : Except String String :=
  if p.returncode ≠ 0 then .error ("dirhasher failed with code: " ++ toString p.returncode)
  else .ok (pyStrip p.stdout)

/-! ### `json.dumps(..., sort_keys=True, indent=2)` for the two
document shapes the programs emit -/

/-- Lower-case hexadecimal digit. -/
def hexDig (n : Nat) : Char :=
  if n < 10 then Char.ofNat (48 + n) else Char.ofNat (87 + n)

/-- Four-digit `\uXXXX` escape body. -/
def hex4 (n : Nat) : List Char :=
  [hexDig (n / 4096 % 16), hexDig (n / 256 % 16), hexDig (n / 16 % 16), hexDig (n % 16)]

/-- JSON string escaping as CPython's `json` with `ensure_ascii=True`:
printable ASCII except `"` and `\` kept, short escapes, `\uXXXX`
otherwise (surrogate pairs beyond the BMP). -/
def escChar (c : Char) : List Char :=
  let n := c.toNat
  if c = '"' then ['\\', '"']
  else if c = '\\' then ['\\', '\\']
  else if c = '\n' then ['\\', 'n']
  else if c = '\r' then ['\\', 'r']
  else if c = '\t' then ['\\', 't']
  else if n = 8 then ['\\', 'b']
  else if n = 12 then ['\\', 'f']
  else if n < 32 || 127 ≤ n then
    if n < 65536 then '\\' :: 'u' :: hex4 n
    else '\\' :: 'u' :: hex4 (55296 + (n - 65536) / 1024) ++
      '\\' :: 'u' :: hex4 (56320 + (n - 65536) % 1024)
  else [c]

/-- A JSON string literal. -/
def jstr (s : String) : String := "\"" ++ ⟨(s.data.map escChar).flatten⟩ ++ "\""

/-- Python `<` on single characters: code-point comparison. -/
def charLtB (c d : Char) : Bool := decide (c.toNat < d.toNat)

/-- Python `<` on strings as character lists: lexicographic by code
point, a proper prefix being smaller. -/
def listLtB : List Char → List Char → Bool
  | _, [] => false
  | [], _ :: _ => true
  | c :: cs, d :: ds =>
    if charLtB c d then true else if charLtB d c then false else listLtB cs ds

/-- Python `s <= t` on strings (`not (t < s)`). -/
def strLeB (a b : String) : Bool := !listLtB b.data a.data

/-- Python `<` on tuples of strings: lexicographic, comparing
components with the string order. -/
def listStrLtB : List String → List String → Bool
  | _, [] => false
  | [], _ :: _ => true
  | a :: as, b :: bs =>
    if listLtB a.data b.data then true
    else if listLtB b.data a.data then false
    else listStrLtB as bs

/-- Python `sorted` on strings (code-point lexicographic; all sorted
key lists are duplicate-free, so any correct sort coincides with it). -/
def sortStr (l : List String) : List String :=
  List.insertionSort (fun a b => strLeB a b = true) l

/-- One `"os_arch": {"hashes": [h], "url": u}` block of a version
document, at depth 2 of the indent-2 rendering. -/
def entryBlock (e : String × String × String) : String :=
  "    " ++ jstr e.1 ++ ": \x7b\n      \"hashes\": [\n        " ++ jstr e.2.1 ++
    "\n      ],\n      \"url\": " ++ jstr e.2.2 ++ "\n    \x7d"

/-- `json.dumps(version_data, sort_keys=True, indent=2)` where
`version_data = {'archives': {os_arch: {'hashes': [h], 'url': u}}}`,
the archives dict given as `(os_arch, (hash, url))` bindings. -/
def dumpVersionDoc (es : List (String × String × String)) : String :=
  let es' := List.insertionSort
    (fun x y : String × String × String => strLeB x.1 y.1 = true) es
  match es' with
  | [] => "\x7b\n  \"archives\": \x7b\x7d\n\x7d"
  | _ => "\x7b\n  \"archives\": \x7b\n" ++
      String.intercalate ",\n" (es'.map entryBlock) ++ "\n  \x7d\n\x7d"

/-- `json.dumps(index_data, sort_keys=True, indent=2)` where
`index_data = {'versions': {v: {}}}`. -/
def dumpIndexDoc (versions : List String) : String :=
  match sortStr versions with
  | [] => "\x7b\n  \"versions\": \x7b\x7d\n\x7d"
  | vs => "\x7b\n  \"versions\": \x7b\n" ++
      String.intercalate ",\n" (vs.map (fun v => "    " ++ jstr v ++ ": \x7b\x7d")) ++
      "\n  \x7d\n\x7d"

/-! ### Grouping and deterministic iteration -/

/-- The two-level `defaultdict(lambda: defaultdict(set))` structure. -/
def Groups (α : Type) : Type := List (String × List (String × List α))

/-- `provider_versions[archive.provider][archive.version].add(archive)`. -/
def addGroup {α : Type} [DecidableEq α] (provK verK : α → String)
    (g : Groups α) (a : α) : Groups α :=
  dictUpd g (provK a) (fun inner => dictUpd inner (verK a) (fun s => setAdd s a) []) []

/-- The discovery loop: parse every input, silently dropping
unparseable ones, and group by provider then version. -/
def buildGroups {α : Type} [DecidableEq α] (parse : String → Option α)
    (provK verK : α → String) (inputs : List String) : Groups α :=
  inputs.foldl
    (fun g s =>
      match parse s with
      | some a => addGroup provK verK g a
      | none => g)
    []

/-- The consumption order of the grouped structure: providers sorted,
versions sorted, archives sorted by their full named-tuple order
(supplied as the boolean comparator `le`). -/
def canonGroups {α : Type} (le : α → α → Bool)
    (g : Groups α) : List (String × List (String × List α)) :=
  (sortStr (dictKeys g)).map fun p =>
    let vers := (dictGet g p).getD []
    (p, (sortStr (dictKeys vers)).map fun v =>
      (v, List.insertionSort (fun a b => le a b = true) ((dictGet vers v).getD [])))

/-- The six fields of the local `Archive` named tuple, in declaration
order; Python compares named tuples lexicographically on these. -/
def Local.Archive.key6 (a : Local.Archive) : List String :=
  [a.path, a.file_name, a.provider, a.version, a.os, a.arch]

/-- Python `<=` on local `Archive` named tuples. -/
def Local.Archive.leB (x y : Local.Archive) : Bool :=
  !listStrLtB y.key6 x.key6

/-- The six fields of the remote `Archive` named tuple, in declaration
order. -/
def Remote.Archive.key6 (a : Remote.Archive) : List String :=
  [a.key, a.file_name, a.provider, a.version, a.os, a.arch]

/-- Python `<=` on remote `Archive` named tuples. -/
def Remote.Archive.leB (x y : Remote.Archive) : Bool :=
  !listStrLtB y.key6 x.key6

/-! ### The `main` drivers -/

namespace Local

/-- One iteration of the inner archive loop of `main` in
`mirror-provider-local.py`: copy the archive to `{out_pre}{file_name}`
and add the `version_data['archives']` entry keyed `{os}_{arch}`. -/
def archStep (env : Env) (out_pre : String)
    (acc : List (String × String × String) × Store × List Ev) (archive : Archive) :
    List (String × String × String) × Store × List Ev :=
  let key := out_pre ++ archive.file_name
  let r := copy_archive env archive.path acc.2.1 key
  (dictSet acc.1 (archive.os ++ "_" ++ archive.arch) (r.1.1, archive.file_name),
    r.2.1, acc.2.2 ++ r.2.2)

/-- The inner archive loop of `main` in `mirror-provider-local.py`. -/
def processArchives (env : Env) (out_pre : String) (archives : List Archive)
    (store : Store) : List (String × String × String) × Store × List Ev :=
  archives.foldl (archStep env out_pre) ([], store, [])

/-- One version of `main`: process its archives, then `put` the version
JSON at `{out_pre}{version}.json` unconditionally. -/
def processVersion (env : Env) (out_pre : String) (version : String)
    (archives : List Archive) (store : Store) : Store × List Ev :=
  let r := processArchives env out_pre archives store
  let body := dumpVersionDoc r.1
  let vkey := out_pre ++ version ++ ".json"
  (dictSet r.2.1 vkey ⟨body, []⟩, r.2.2 ++ [.put vkey body])

/-- One iteration of the version loop of `main`. -/
def verStep (env : Env) (out_pre : String) (acc : Store × List Ev)
    (pv : String × List Archive) : Store × List Ev :=
  let r2 := processVersion env out_pre pv.1 pv.2 acc.1
  (r2.1, acc.2 ++ r2.2)

/-- One provider of `main`: process each version in sorted order, then
`put` the index JSON at `{out_pre}index.json` unconditionally. -/
def processProvider (env : Env) (out_pre : String)
    (vers : List (String × List Archive)) (store : Store) : Store × List Ev :=
  let r := vers.foldl (verStep env out_pre) (store, [])
  let body := dumpIndexDoc (vers.map Prod.fst)
  let ikey := out_pre ++ "index.json"
  (dictSet r.1 ikey ⟨body, []⟩, r.2 ++ [.put ikey body])

/-- One iteration of the provider loop of `main`. -/
def provStep (env : Env) (out_pre : String) (acc : Store × List Ev)
    (pv : String × List (String × List Archive)) : Store × List Ev :=
  let r := processProvider env out_pre pv.2 acc.1
  (r.1, acc.2 ++ r.2)

/-- `main` of `mirror-provider-local.py` after argument parsing: group
the command-line archive paths, then process providers in sorted
order, threading the mirror-bucket store and collecting every write. -/
def sync (env : Env) (out_pre : String) (archive_paths : List String)
    (store : Store) : Store × List Ev :=
  (canonGroups Archive.leB
      (buildGroups Archive.parse (·.provider) (·.version) archive_paths)).foldl
    (provStep env out_pre) (store, [])

end Local

namespace Remote

/-- One iteration of the inner archive loop of `main` in
`mirror-provider.py`: copy the release object to
`{out_pre}{version}/{file_name}` and add the entry with the relative
url `{version}/{file_name}`. -/
def archStep (env : Env) (relStore : Store) (out_pre : String)
    (acc : List (String × String × String) × Store × List Ev) (archive : Archive) :
    List (String × String × String) × Store × List Ev :=
  let mkey := out_pre ++ archive.version ++ "/" ++ archive.file_name
  let r := copy_archive env relStore archive.key acc.2.1 mkey
  (dictSet acc.1 (archive.os ++ "_" ++ archive.arch)
      (r.1.1, archive.version ++ "/" ++ archive.file_name),
    r.2.1, acc.2.2 ++ r.2.2)

/-- The inner archive loop of `main` in `mirror-provider.py`. -/
def processArchives (env : Env) (relStore : Store) (out_pre : String)
    (archives : List Archive) (store : Store) :
    List (String × String × String) × Store × List Ev :=
  archives.foldl (archStep env relStore out_pre) ([], store, [])

/-- One version of the remote `main`: archives, then the unconditional
version-document `put`. -/
def processVersion (env : Env) (relStore : Store) (out_pre : String) (version : String)
    (archives : List Archive) (store : Store) : Store × List Ev :=
  let r := processArchives env relStore out_pre archives store
  let body := dumpVersionDoc r.1
  let vkey := out_pre ++ version ++ ".json"
  (dictSet r.2.1 vkey ⟨body, []⟩, r.2.2 ++ [.put vkey body])

/-- One iteration of the version loop of the remote `main`. -/
def verStep (env : Env) (relStore : Store) (out_pre : String) (acc : Store × List Ev)
    (pv : String × List Archive) : Store × List Ev :=
  let r2 := processVersion env relStore out_pre pv.1 pv.2 acc.1
  (r2.1, acc.2 ++ r2.2)

/-- One provider of the remote `main`: versions in sorted order, then
the unconditional index-document `put`. -/
def processProvider (env : Env) (relStore : Store) (out_pre : String)
    (vers : List (String × List Archive)) (store : Store) : Store × List Ev :=
  let r := vers.foldl (verStep env relStore out_pre) (store, [])
  let body := dumpIndexDoc (vers.map Prod.fst)
  let ikey := out_pre ++ "index.json"
  (dictSet r.1 ikey ⟨body, []⟩, r.2 ++ [.put ikey body])

/-- One iteration of the provider loop of the remote `main`. -/
def provStep (env : Env) (relStore : Store) (out_pre : String) (acc : Store × List Ev)
    (pv : String × List (String × List Archive)) : Store × List Ev :=
  let r := processProvider env relStore out_pre pv.2 acc.1
  (r.1, acc.2 ++ r.2)

/-- `main` of `mirror-provider.py` after argument parsing: group the
keys yielded by the release-bucket listing, then process providers in
sorted order against the mirror-bucket store. -/
def sync (env : Env) (relStore : Store) (out_pre : String) (listing : List String)
    (store : Store) : Store × List Ev :=
  (canonGroups Archive.leB
      (buildGroups Archive.parse (·.provider) (·.version) listing)).foldl
    (provStep env relStore out_pre) (store, [])

end Remote

/-- The field-for-field translation of a local archive record to a
remote one (`path` playing the role of `key`). -/
def convArchive (l : Local.Archive) : Remote.Archive :=
  ⟨l.path, l.file_name, l.provider, l.version, l.os, l.arch⟩

/-- The `dirhash` metadata value stored at `k`, when present. -/
def metaAt (s : Store) (k : String) : Option String :=
  (dictGet s k).bind (fun o => dictGet o.metadata DIRHASH_METADATA)

/-- The destination object at `k` exists and carries exactly the
fingerprint `h`. -/
def hasHash (s : Store) (k h : String) : Prop :=
  ∃ o, dictGet s k = some o ∧ dictGet o.metadata DIRHASH_METADATA = some h

/-- The destination object at `k` exists and carries a truthy
(non-empty) fingerprint. -/
def goodR (s : Store) (k : String) : Prop :=
  ∃ o h, dictGet s k = some o ∧ dictGet o.metadata DIRHASH_METADATA = some h ∧ h ≠ ""

/-- The version-document archives dict a local run builds for a list of
archives: per archive one `{os}_{arch}` binding carrying the freshly
computed fingerprint and the bare file name. -/
def Local.entriesOf (env : Env) (archives : List Archive) :
    List (String × String × String) :=
  archives.foldl
    (fun es a => dictSet es (a.os ++ "_" ++ a.arch) (dirhashLocal env a.path, a.file_name))
    []

/-- The full document-write list of a local run: per provider, one
version document per version in sorted order, then the index document —
a function of the inputs only, independent of the destination store. -/
def Local.docsOf (env : Env) (out_pre : String) (archive_paths : List String) :
    List (String × String) :=
  (canonGroups Archive.leB
      (buildGroups Archive.parse (·.provider) (·.version) archive_paths)).flatMap
    (fun pv =>
      pv.2.map (fun vd => (out_pre ++ vd.1 ++ ".json", dumpVersionDoc (entriesOf env vd.2))) ++
        [(out_pre ++ "index.json", dumpIndexDoc (pv.2.map Prod.fst))])

/-- The version-document archives dict a remote run builds, given the
fingerprint value recorded for each archive. -/
def Remote.entriesSpec (val : Archive → String) (archives : List Archive) :
    List (String × String × String) :=
  archives.foldl
    (fun es a => dictSet es (a.os ++ "_" ++ a.arch) (val a, a.version ++ "/" ++ a.file_name))
    []

/-- The document-write list of a remote run, given the per-archive
fingerprint values: the key structure and the index bodies depend only
on the canonical grouped input. -/
def Remote.docsSpec (out_pre : String)
    (c : List (String × List (String × List Archive))) (val : Archive → String) :
    List (String × String) :=
  c.flatMap
    (fun pv =>
      pv.2.map (fun vd => (out_pre ++ vd.1 ++ ".json", dumpVersionDoc (entriesSpec val vd.2))) ++
        [(out_pre ++ "index.json", dumpIndexDoc (pv.2.map Prod.fst))])

/-- The distinct keys of a list, first occurrences in order (the keys a
dict ends up with after setting each in turn). -/
def dedupKeys (ks : List String) : List String :=
  ks.foldl (fun acc k => if k ∈ acc then acc else acc ++ [k]) []

/-- Membership of an archive in the two-level grouped structure at a
given provider and version. -/
def memGroups {α : Type} (g : Groups α) (p v : String) (x : α) : Prop :=
  ∃ vers, dictGet g p = some vers ∧ ∃ s, dictGet vers v = some s ∧ x ∈ s

/-- Well-formedness of the grouped structure: unique keys at both
levels and duplicate-free archive sets. -/
def groupsWF {α : Type} (g : Groups α) : Prop :=
  (dictKeys g).Nodup ∧
    ∀ p vers, dictGet g p = some vers →
      (dictKeys vers).Nodup ∧ ∀ v s, dictGet vers v = some s → s.Nodup

/-- The version keys recorded under a provider. -/
def verKeys {α : Type} (g : Groups α) (p : String) : List String :=
  dictKeys ((dictGet g p).getD [])

/-- The archive set recorded under a provider and version. -/
def verSet {α : Type} (g : Groups α) (p v : String) : List α :=
  ((dictGet ((dictGet g p).getD []) v).getD [])

/-- All inputs that parse, in input order. -/
def allParsed {α : Type} (parse : String → Option α) (inputs : List String) : List α :=
  inputs.filterMap parse

/-- The fingerprint metadata value stored at `k`, the empty string when
absent (mirroring Python truthiness: absent and `''` coincide). -/
def metaVal (s : Store) (k : String) : String :=
  (metaAt s k).getD ""

/-- The document keys a remote run writes, per provider: one version
document per version then the index document. -/
def docsKeys (out_pre : String)
    (c : List (String × List (String × List Remote.Archive))) : List String :=
  c.flatMap (fun pv =>
    pv.2.map (fun vd => out_pre ++ vd.1 ++ ".json") ++ [out_pre ++ "index.json"])

/-! ## Lemmas about the string primitives -/

theorem splitFirst_of_not_mem {sep : Char} : ∀ {cs : List Char}, sep ∉ cs →
    splitFirst sep cs = none
  | [], _ => rfl
  | c :: cs, h => by
    have hc : ¬c = sep := fun he => h (he ▸ List.mem_cons_self c cs)
    have ht : sep ∉ cs := fun hm => h (List.mem_cons_of_mem c hm)
    simp [splitFirst, hc, splitFirst_of_not_mem ht]

theorem splitFirst_eq_some {sep : Char} : ∀ {cs a b : List Char},
    splitFirst sep cs = some (a, b) → cs = a ++ sep :: b ∧ sep ∉ a
  | [], a, b, h => by simp [splitFirst] at h
  | c :: cs, a, b, h => by
    by_cases hc : c = sep
    · rw [splitFirst, if_pos hc] at h
      injection h with h'
      injection h' with h1 h2
      subst h1
      subst h2
      subst hc
      simp
    · rw [splitFirst, if_neg hc] at h
      rcases ho : splitFirst sep cs with _ | ⟨⟨a', b'⟩⟩
      · rw [ho] at h
        simp at h
      · rw [ho] at h
        simp only [Option.map_some'] at h
        injection h with h'
        injection h' with h1 h2
        obtain ⟨hcs, hna⟩ := splitFirst_eq_some ho
        subst h1
        subst h2
        constructor
        · simp [hcs]
        · intro hm
          rcases List.mem_cons.mp hm with h1 | h2
          · exact hc h1.symm
          · exact hna h2

theorem splitFirst_append {sep : Char} : ∀ {a : List Char}, sep ∉ a → ∀ (b : List Char),
    splitFirst sep (a ++ sep :: b) = some (a, b)
  | [], _, b => by simp [splitFirst]
  | c :: a, h, b => by
    have hc : ¬c = sep := fun he => h (he ▸ List.mem_cons_self c a)
    have ht : sep ∉ a := fun hm => h (List.mem_cons_of_mem c hm)
    simp [splitFirst, hc, splitFirst_append ht b]

theorem splitMax_of_not_mem {sep : Char} {cs : List Char} (h : sep ∉ cs) :
    ∀ n, splitMax sep n cs = [cs]
  | 0 => rfl
  | n + 1 => by simp [splitMax, splitFirst_of_not_mem h]

theorem splitMax3_append {p v o a : List Char}
    (hp : '_' ∉ p) (hv : '_' ∉ v) (ho : '_' ∉ o) :
    splitMax '_' 3 (p ++ '_' :: (v ++ '_' :: (o ++ '_' :: a))) = [p, v, o, a] := by
  simp [splitMax, splitFirst_append hp, splitFirst_append hv, splitFirst_append ho]

theorem splitMax3_eq {cs p v o a : List Char} (h : splitMax '_' 3 cs = [p, v, o, a]) :
    cs = p ++ '_' :: (v ++ '_' :: (o ++ '_' :: a)) ∧ '_' ∉ p ∧ '_' ∉ v ∧ '_' ∉ o := by
  rcases h1 : splitFirst '_' cs with _ | ⟨x1, r1⟩
  · simp [splitMax, h1] at h
  rcases h2 : splitFirst '_' r1 with _ | ⟨x2, r2⟩
  · simp [splitMax, h1, h2] at h
  rcases h3 : splitFirst '_' r2 with _ | ⟨x3, r3⟩
  · simp [splitMax, h1, h2, h3] at h
  simp [splitMax, h1, h2, h3] at h
  obtain ⟨hx1, hx2, hx3, hr⟩ := h
  obtain ⟨e1, n1⟩ := splitFirst_eq_some h1
  obtain ⟨e2, n2⟩ := splitFirst_eq_some h2
  obtain ⟨e3, n3⟩ := splitFirst_eq_some h3
  subst hx1; subst hx2; subst hx3; subst hr
  exact ⟨by rw [e1, e2, e3], n1, n2, n3⟩

theorem basenameChars_of_not_mem : ∀ {cs : List Char}, '/' ∉ cs → basenameChars cs = cs
  | [], _ => rfl
  | c :: cs, h => by
    have hc : ¬c = '/' := fun he => h (he ▸ List.mem_cons_self c cs)
    have ht : '/' ∉ cs := fun hm => h (List.mem_cons_of_mem c hm)
    simp [basenameChars, hc, ht]

theorem splitAll_ne_nil {sep : Char} : ∀ {cs : List Char}, splitAll sep cs ≠ []
  | [] => by simp [splitAll]
  | c :: cs => by
    rcases h : splitAll sep cs with _ | ⟨p, ps⟩
    · exact absurd h splitAll_ne_nil
    · by_cases hc : c = sep <;> simp [splitAll, h, hc]

theorem splitAll_of_not_mem {sep : Char} : ∀ {cs : List Char}, sep ∉ cs →
    splitAll sep cs = [cs]
  | [], _ => rfl
  | c :: cs, h => by
    have hc : ¬c = sep := fun he => h (he ▸ List.mem_cons_self c cs)
    have ht : sep ∉ cs := fun hm => h (List.mem_cons_of_mem c hm)
    simp [splitAll, splitAll_of_not_mem ht, hc]

theorem splitAll_length_of_mem {sep : Char} : ∀ {cs : List Char}, sep ∈ cs →
    2 ≤ (splitAll sep cs).length
  | [], h => by simp at h
  | c :: cs, h => by
    rcases hS : splitAll sep cs with _ | ⟨p, ps⟩
    · exact absurd hS splitAll_ne_nil
    by_cases hc : c = sep
    · simp [splitAll, hS, hc]
    · have hm : sep ∈ cs := by
        rcases List.mem_cons.mp h with h1 | h2
        · exact absurd h1.symm hc
        · exact h2
      have := splitAll_length_of_mem hm
      rw [hS] at this
      simp at this
      simp [splitAll, hS, hc]
      omega

theorem lastD_eq_basename : ∀ cs : List Char, lastD (splitAll '/' cs) = basenameChars cs
  | [] => rfl
  | c :: cs => by
    have ih := lastD_eq_basename cs
    rcases hS : splitAll '/' cs with _ | ⟨p, ps⟩
    · exact absurd hS splitAll_ne_nil
    by_cases hc : c = '/'
    · rw [hS] at ih
      by_cases hm : '/' ∈ cs
      · simp [splitAll, hS, hc, basenameChars, hm, lastD, ih]
      · have := splitAll_of_not_mem hm
        rw [hS] at this
        obtain ⟨hp, hps⟩ : cs = p ∧ ps = [] := by
          simpa using this.symm
        subst hp; subst hps
        simp [splitAll, hS, hc, basenameChars, hm, lastD]
    · by_cases hm : '/' ∈ cs
      · have hlen := splitAll_length_of_mem hm
        rw [hS] at hlen
        rcases ps with _ | ⟨q, qs⟩
        · simp at hlen
        rw [hS] at ih
        simp [splitAll, hS, hc, basenameChars, hm, lastD] at ih ⊢
        exact ih
      · have := splitAll_of_not_mem hm
        rw [hS] at this
        obtain ⟨hp, hps⟩ : cs = p ∧ ps = [] := by
          simpa using this.symm
        subst hp; subst hps
        simp [splitAll, hS, hc, basenameChars, hm, lastD]

theorem lastIdxOf_append_zip : ∀ xs : List Char,
    lastIdxOf '.' (xs ++ ['.', 'z', 'i', 'p']) = some xs.length
  | [] => rfl
  | c :: xs => by
    have := lastIdxOf_append_zip xs
    simp [lastIdxOf, this]

theorem splitextRoot_append_zip_any {xs : List Char} (h : xs.any (· != '.') = true) :
    splitextRoot (xs ++ ['.', 'z', 'i', 'p']) = xs := by
  have ht : (xs ++ ['.', 'z', 'i', 'p']).take xs.length = xs := List.take_left xs _
  simp [splitextRoot, lastIdxOf_append_zip, ht, h]

theorem splitextRoot_append_zip_dots {xs : List Char} (h : ¬xs.any (· != '.') = true) :
    splitextRoot (xs ++ ['.', 'z', 'i', 'p']) = xs ++ ['.', 'z', 'i', 'p'] := by
  have ht : (xs ++ ['.', 'z', 'i', 'p']).take xs.length = xs := List.take_left xs _
  simp [splitextRoot, lastIdxOf_append_zip, ht, h]

theorem all_dots_no_underscore {xs : List Char} (h : ¬xs.any (· != '.') = true) :
    '_' ∉ xs := by
  intro hm
  exact h (List.any_eq_true.mpr ⟨'_', hm, rfl⟩)

theorem endsWithDotZip_append (xs : List Char) :
    endsWithDotZip (xs ++ ['.', 'z', 'i', 'p']) = true := by
  unfold endsWithDotZip
  exact List.isSuffixOf_iff_suffix.mpr ⟨xs, rfl⟩

theorem endsWithDotZip_iff {cs : List Char} :
    endsWithDotZip cs = true ↔ ∃ xs, cs = xs ++ ['.', 'z', 'i', 'p'] := by
  unfold endsWithDotZip
  rw [List.isSuffixOf_iff_suffix]
  constructor
  · rintro ⟨t, ht⟩
    exact ⟨t, ht.symm⟩
  · rintro ⟨xs, hxs⟩
    exact ⟨xs, hxs.symm⟩

theorem ne_empty_iff_data {s : String} : s ≠ "" ↔ s.data ≠ [] := by
  constructor
  · intro h he
    exact h (String.ext he)
  · intro h he
    exact h (by simp [he])

/-! ## Dictionary, set and event-list lemmas -/

theorem dictGet_dictSet_self {β : Type} : ∀ (d : List (String × β)) (k : String) (v : β),
    dictGet (dictSet d k v) k = some v
  | [], k, v => by simp [dictGet, dictSet]
  | (k', v') :: rest, k, v => by
    by_cases h : k' = k
    · simp [dictGet, dictSet, h]
    · simp [dictGet, dictSet, h, dictGet_dictSet_self rest k v]

theorem dictGet_dictSet_ne {β : Type} : ∀ (d : List (String × β)) {k k' : String} (v : β),
    k ≠ k' → dictGet (dictSet d k v) k' = dictGet d k'
  | [], k, k', v, h => by simp [dictGet, dictSet, h]
  | (k0, v0) :: rest, k, k', v, h => by
    by_cases h0 : k0 = k
    · subst h0
      simp [dictGet, dictSet, h]
    · by_cases h1 : k0 = k'
      · have h2 : ¬k' = k := Ne.symm h
        subst h1
        simp [dictGet, dictSet, h2]
      · simp [dictGet, dictSet, h0, h1, dictGet_dictSet_ne rest v h]

theorem dictKeys_dictSet {β : Type} : ∀ (d : List (String × β)) (k : String) (v : β),
    dictKeys (dictSet d k v) =
      if k ∈ dictKeys d then dictKeys d else dictKeys d ++ [k]
  | [], k, v => by simp [dictKeys, dictSet]
  | (k0, v0) :: rest, k, v => by
    by_cases h0 : k0 = k
    · simp [dictKeys, dictSet, h0]
    · have hne : ¬k = k0 := fun he => h0 he.symm
      have ih := dictKeys_dictSet rest k v
      simp only [dictKeys] at ih
      simp only [dictKeys, dictSet, if_neg h0, List.map_cons, List.mem_cons]
      rw [ih]
      by_cases hm : k ∈ List.map Prod.fst rest <;> simp [hm, hne]

theorem nodup_dictKeys_dictSet {β : Type} {d : List (String × β)} {k : String} {v : β}
    (h : (dictKeys d).Nodup) : (dictKeys (dictSet d k v)).Nodup := by
  rw [dictKeys_dictSet]
  by_cases hm : k ∈ dictKeys d
  · simpa [hm]
  · simpa [hm, List.nodup_append] using h

theorem dictGet_dictUpd_self {β : Type} :
    ∀ (d : List (String × β)) (k : String) (f : β → β) (dflt : β),
    dictGet (dictUpd d k f dflt) k = some (f ((dictGet d k).getD dflt))
  | [], k, f, dflt => by simp [dictGet, dictUpd]
  | (k0, v0) :: rest, k, f, dflt => by
    by_cases h0 : k0 = k
    · simp [dictGet, dictUpd, h0]
    · simp [dictGet, dictUpd, h0, dictGet_dictUpd_self rest k f dflt]

theorem dictGet_dictUpd_ne {β : Type} :
    ∀ (d : List (String × β)) {k k' : String} (f : β → β) (dflt : β),
    k ≠ k' → dictGet (dictUpd d k f dflt) k' = dictGet d k'
  | [], k, k', f, dflt, h => by simp [dictGet, dictUpd, h]
  | (k0, v0) :: rest, k, k', f, dflt, h => by
    by_cases h0 : k0 = k
    · subst h0
      simp [dictGet, dictUpd, h]
    · by_cases h1 : k0 = k'
      · have h2 : ¬k' = k := Ne.symm h
        subst h1
        simp [dictGet, dictUpd, h2]
      · simp [dictGet, dictUpd, h0, h1, dictGet_dictUpd_ne rest f dflt h]

theorem dictKeys_dictUpd {β : Type} :
    ∀ (d : List (String × β)) (k : String) (f : β → β) (dflt : β),
    dictKeys (dictUpd d k f dflt) =
      if k ∈ dictKeys d then dictKeys d else dictKeys d ++ [k]
  | [], k, f, dflt => by simp [dictKeys, dictUpd]
  | (k0, v0) :: rest, k, f, dflt => by
    by_cases h0 : k0 = k
    · simp [dictKeys, dictUpd, h0]
    · have hne : ¬k = k0 := fun he => h0 he.symm
      have ih := dictKeys_dictUpd rest k f dflt
      simp only [dictKeys] at ih
      simp only [dictKeys, dictUpd, if_neg h0, List.map_cons, List.mem_cons]
      rw [ih]
      by_cases hm : k ∈ List.map Prod.fst rest <;> simp [hm, hne]

theorem nodup_dictKeys_dictUpd {β : Type} {d : List (String × β)} {k : String}
    {f : β → β} {dflt : β} (h : (dictKeys d).Nodup) :
    (dictKeys (dictUpd d k f dflt)).Nodup := by
  rw [dictKeys_dictUpd]
  by_cases hm : k ∈ dictKeys d
  · simpa [hm]
  · simpa [hm, List.nodup_append] using h

theorem mem_dictKeys {β : Type} : ∀ {d : List (String × β)} {k : String},
    k ∈ dictKeys d ↔ ∃ v, dictGet d k = some v := by
  intro d
  induction d with
  | nil => simp [dictKeys, dictGet]
  | cons kv rest ih =>
    intro k
    by_cases h : kv.1 = k
    · subst h
      simp [dictKeys, dictGet]
    · have hne : ¬k = kv.1 := fun he => h he.symm
      simp [dictKeys, dictGet, h, hne] at ih ⊢
      exact ih

theorem mem_setAdd {α : Type} [DecidableEq α] {s : List α} {a x : α} :
    x ∈ setAdd s a ↔ x ∈ s ∨ x = a := by
  unfold setAdd
  by_cases h : a ∈ s
  · simp [h]
    intro he
    exact he ▸ h
  · simp [h]

theorem nodup_setAdd {α : Type} [DecidableEq α] {s : List α} (h : s.Nodup) (a : α) :
    (setAdd s a).Nodup := by
  unfold setAdd
  by_cases hm : a ∈ s
  · simpa [hm]
  · simpa [hm, List.nodup_append]

theorem putsOf_append (a b : List Ev) : putsOf (a ++ b) = putsOf a ++ putsOf b :=
  List.filterMap_append a b _

theorem copiesOf_append (a b : List Ev) : copiesOf (a ++ b) = copiesOf a ++ copiesOf b := by
  simp [copiesOf]

/-! ## Facts about parsed archives and output keys -/

theorem Local.parse_zip {x : String} {a : Archive} (h : Archive.parse x = some a) :
    ∃ xs, a.file_name.data = xs ++ ['.', 'z', 'i', 'p'] := by
  simp only [Archive.parse] at h
  split at h
  · rename_i hz
    split at h
    · split at h
      · exact absurd h (by simp)
      · injection h with h1
        subst h1
        exact Iff.mp endsWithDotZip_iff hz
    · exact absurd h (by simp)
  · exact absurd h (by simp)

theorem Remote.parse_zipR {x : String} {a : Archive} (h : Archive.parse x = some a) :
    ∃ xs, a.file_name.data = xs ++ ['.', 'z', 'i', 'p'] := by
  simp only [Archive.parse] at h
  split at h
  · rename_i hz
    split at h
    · split at h
      · exact absurd h (by simp)
      · injection h with h1
        subst h1
        exact Iff.mp endsWithDotZip_iff hz
    · exact absurd h (by simp)
  · exact absurd h (by simp)

theorem zip_key_ne_json {pre f t : String}
    (hf : ∃ xs, f.data = xs ++ ['.', 'z', 'i', 'p'])
    (ht : ∃ ys, t.data = ys ++ ['.', 'j', 's', 'o', 'n']) : pre ++ f ≠ pre ++ t := by
  intro h
  obtain ⟨xs, hxs⟩ := hf
  obtain ⟨ys, hys⟩ := ht
  have hd := congrArg String.data h
  simp only [String.data_append] at hd
  have h2 := List.append_cancel_left hd
  rw [hxs, hys] at h2
  have h3 := congrArg List.getLast? h2
  simp [List.getLast?_append] at h3

theorem version_json_data (v : String) :
    (v ++ ".json").data = v.data ++ ['.', 'j', 's', 'o', 'n'] :=
  String.data_append v ".json"

theorem index_json_data :
    ("index.json" : String).data = "index".data ++ ['.', 'j', 's', 'o', 'n'] := by
  rfl

/-! ## String append cancellation -/

theorem strAppend_cancel {pre a b : String} (h : pre ++ a = pre ++ b) : a = b := by
  have hd := congrArg String.data h
  simp only [String.data_append] at hd
  exact String.ext (List.append_cancel_left hd)

/-! ## Local run lemmas -/

theorem Local.copy_archive_hash (env : Env) (p : String) (st : Store) (k : String) :
    (Local.copy_archive env p st k).1.1 = dirhashLocal env p := by
  rcases hg : dictGet st k with _ | o
  · simp [Local.copy_archive, hg]
  · by_cases hm : dictGet o.metadata DIRHASH_METADATA = some (dirhashLocal env p) <;>
      simp [Local.copy_archive, hg, hm]

theorem Local.copy_archive_puts (env : Env) (p : String) (st : Store) (k : String) :
    putsOf (Local.copy_archive env p st k).2.2 = [] := by
  rcases hg : dictGet st k with _ | o
  · simp [Local.copy_archive, hg, putsOf]
  · by_cases hm : dictGet o.metadata DIRHASH_METADATA = some (dirhashLocal env p) <;>
      simp [Local.copy_archive, hg, hm, putsOf]

theorem Local.copy_archive_skip (env : Env) (p : String) (st : Store) (k : String)
    (h : hasHash st k (dirhashLocal env p)) :
    Local.copy_archive env p st k = ((dirhashLocal env p, false), st, []) := by
  obtain ⟨o, hg, hm⟩ := h
  unfold Local.copy_archive
  simp [hg, hm]

theorem Local.copy_archive_self (env : Env) (p : String) (st : Store) (k : String) :
    hasHash (Local.copy_archive env p st k).2.1 k (dirhashLocal env p) := by
  have hbase : hasHash
      (dictSet st k ⟨env.fileContent p, [(DIRHASH_METADATA, dirhashLocal env p)]⟩) k
      (dirhashLocal env p) :=
    ⟨_, dictGet_dictSet_self st k _, by simp [dictGet]⟩
  rcases hg : dictGet st k with _ | o
  · have : (Local.copy_archive env p st k).2.1 =
        dictSet st k ⟨env.fileContent p, [(DIRHASH_METADATA, dirhashLocal env p)]⟩ := by
      simp [Local.copy_archive, hg]
    rw [this]
    exact hbase
  · by_cases hm : dictGet o.metadata DIRHASH_METADATA = some (dirhashLocal env p)
    · rw [Local.copy_archive_skip env p st k ⟨o, hg, hm⟩]
      exact ⟨o, hg, hm⟩
    · have : (Local.copy_archive env p st k).2.1 =
          dictSet st k ⟨env.fileContent p, [(DIRHASH_METADATA, dirhashLocal env p)]⟩ := by
        simp [Local.copy_archive, hg, hm]
      rw [this]
      exact hbase

theorem Local.copy_archive_frame (env : Env) (p : String) (st : Store) {k k' : String}
    (h : k' ≠ k) : dictGet (Local.copy_archive env p st k).2.1 k' = dictGet st k' := by
  rcases hg : dictGet st k with _ | o
  · have : (Local.copy_archive env p st k).2.1 =
        dictSet st k ⟨env.fileContent p, [(DIRHASH_METADATA, dirhashLocal env p)]⟩ := by
      simp [Local.copy_archive, hg]
    rw [this]
    exact dictGet_dictSet_ne st _ (Ne.symm h)
  · by_cases hm : dictGet o.metadata DIRHASH_METADATA = some (dirhashLocal env p)
    · rw [Local.copy_archive_skip env p st k ⟨o, hg, hm⟩]
    · have : (Local.copy_archive env p st k).2.1 =
          dictSet st k ⟨env.fileContent p, [(DIRHASH_METADATA, dirhashLocal env p)]⟩ := by
        simp [Local.copy_archive, hg, hm]
      rw [this]
      exact dictGet_dictSet_ne st _ (Ne.symm h)

theorem Local.foldArch_entries (env : Env) (pre : String) (archs : List Local.Archive) :
    ∀ (es : List (String × String × String)) (st : Store) (evs : List Ev),
    (archs.foldl (Local.archStep env pre) (es, st, evs)).1 =
      archs.foldl
        (fun es a => dictSet es (a.os ++ "_" ++ a.arch) (dirhashLocal env a.path, a.file_name))
        es := by
  induction archs with
  | nil => intro es st evs; rfl
  | cons a archs ih =>
    intro es st evs
    simp only [List.foldl_cons, Local.archStep]
    rw [Local.copy_archive_hash]
    exact ih _ _ _

theorem Local.foldArch_puts (env : Env) (pre : String) (archs : List Local.Archive) :
    ∀ (es : List (String × String × String)) (st : Store) (evs : List Ev),
    putsOf (archs.foldl (Local.archStep env pre) (es, st, evs)).2.2 = putsOf evs := by
  induction archs with
  | nil => intro es st evs; rfl
  | cons a archs ih =>
    intro es st evs
    simp only [List.foldl_cons, Local.archStep]
    rw [ih, putsOf_append, Local.copy_archive_puts]
    simp

theorem Local.foldArch_copies (env : Env) (pre : String) (archs : List Local.Archive) :
    ∀ (es : List (String × String × String)) (st : Store) (evs : List Ev),
    (∀ a ∈ archs, hasHash st (pre ++ a.file_name) (dirhashLocal env a.path)) →
    archs.foldl (Local.archStep env pre) (es, st, evs) =
      (archs.foldl
        (fun es a => dictSet es (a.os ++ "_" ++ a.arch) (dirhashLocal env a.path, a.file_name))
        es, st, evs) := by
  induction archs with
  | nil => intro es st evs _; rfl
  | cons a archs ih =>
    intro es st evs hgood
    simp only [List.foldl_cons, Local.archStep]
    rw [Local.copy_archive_skip env a.path st (pre ++ a.file_name)
      (hgood a (List.mem_cons_self a archs))]
    simp only [List.append_nil]
    exact ih _ _ _ (fun b hb => hgood b (List.mem_cons_of_mem a hb))

theorem Local.foldArch_frame (env : Env) (pre : String) (archs : List Local.Archive) :
    ∀ (es : List (String × String × String)) (st : Store) (evs : List Ev) (k : String),
    k ∉ archs.map (fun a => pre ++ a.file_name) →
    dictGet (archs.foldl (Local.archStep env pre) (es, st, evs)).2.1 k = dictGet st k := by
  induction archs with
  | nil => intro es st evs k _; rfl
  | cons a archs ih =>
    intro es st evs k hk
    simp only [List.map_cons, List.mem_cons, not_or] at hk
    simp only [List.foldl_cons, Local.archStep]
    rw [ih _ _ _ _ hk.2, Local.copy_archive_frame env a.path st hk.1]

theorem Local.foldArch_good (env : Env) (pre : String) (archs : List Local.Archive)
    (allA : List Local.Archive) (hsub : ∀ a ∈ archs, a ∈ allA)
    (HH : ∀ a b, a ∈ allA → b ∈ allA → a.file_name = b.file_name →
      dirhashLocal env a.path = dirhashLocal env b.path) :
    ∀ (es : List (String × String × String)) (st : Store) (evs : List Ev) (a : Local.Archive),
    a ∈ archs →
    hasHash (archs.foldl (Local.archStep env pre) (es, st, evs)).2.1
      (pre ++ a.file_name) (dirhashLocal env a.path) := by
  induction archs with
  | nil => intro es st evs a ha; simp at ha
  | cons a0 archs ih =>
    intro es st evs a ha
    have hsub' : ∀ b ∈ archs, b ∈ allA := fun b hb => hsub b (List.mem_cons_of_mem a0 hb)
    simp only [List.foldl_cons, Local.archStep]
    rcases List.mem_cons.mp ha with rfl | hmem
    · by_cases hk : (pre ++ a.file_name) ∈ archs.map (fun b => pre ++ b.file_name)
      · obtain ⟨b, hb, hbk⟩ := List.mem_map.mp hk
        have hfn : b.file_name = a.file_name := strAppend_cancel hbk
        have hhash : dirhashLocal env b.path = dirhashLocal env a.path :=
          HH b a (hsub' b hb) (hsub a (List.mem_cons_self a archs)) hfn
        have hres := ih hsub'
          (dictSet es (a.os ++ "_" ++ a.arch)
            ((Local.copy_archive env a.path st (pre ++ a.file_name)).1.1, a.file_name))
          ((Local.copy_archive env a.path st (pre ++ a.file_name)).2.1)
          (evs ++ (Local.copy_archive env a.path st (pre ++ a.file_name)).2.2) b hb
        rw [hbk, hhash] at hres
        exact hres
      · have hframe := Local.foldArch_frame env pre archs
          (dictSet es (a.os ++ "_" ++ a.arch)
            ((Local.copy_archive env a.path st (pre ++ a.file_name)).1.1, a.file_name))
          ((Local.copy_archive env a.path st (pre ++ a.file_name)).2.1)
          (evs ++ (Local.copy_archive env a.path st (pre ++ a.file_name)).2.2)
          (pre ++ a.file_name) hk
        unfold hasHash
        rw [hframe]
        exact Local.copy_archive_self env a.path st (pre ++ a.file_name)
    · exact ih hsub' _ _ _ a hmem

/-! ## Grouping membership lemmas -/

theorem memGroups_nil {α : Type} (p v : String) (x : α) : ¬memGroups ([] : Groups α) p v x := by
  rintro ⟨vers, hv, _⟩
  simp [dictGet] at hv

theorem memGroups_addGroup {α : Type} [DecidableEq α] (provK verK : α → String)
    (g : Groups α) (a : α) (p v : String) (x : α) :
    memGroups (addGroup provK verK g a) p v x ↔
      memGroups g p v x ∨ (x = a ∧ provK a = p ∧ verK a = v) := by
  unfold memGroups
  by_cases hp : provK a = p
  case neg =>
    rw [show dictGet (addGroup provK verK g a) p = dictGet g p from by
      unfold addGroup; exact dictGet_dictUpd_ne _ _ _ hp]
    constructor
    · exact fun h => Or.inl h
    · rintro (h | ⟨_, hpp, _⟩)
      · exact h
      · exact absurd hpp hp
  case pos =>
    subst hp
    rw [show dictGet (addGroup provK verK g a) (provK a) =
        some (dictUpd ((dictGet g (provK a)).getD []) (verK a) (fun s => setAdd s a) []) from by
      unfold addGroup; exact dictGet_dictUpd_self _ _ _ _]
    simp only [Option.some.injEq]
    constructor
    · rintro ⟨vers, hv, s, hs, hx⟩
      subst hv
      by_cases hv2 : verK a = v
      · subst hv2
        rw [dictGet_dictUpd_self] at hs
        injection hs with hs'
        subst hs'
        rcases (mem_setAdd).mp hx with h1 | h1
        · rcases hgg : dictGet g (provK a) with _ | vers0
          · rw [hgg] at h1
            simp [dictGet] at h1
          · rw [hgg] at h1
            simp only [Option.getD_some] at h1
            rcases hio : dictGet vers0 (verK a) with _ | s0
            · rw [hio] at h1
              simp at h1
            · rw [hio] at h1
              simp only [Option.getD_some] at h1
              exact Or.inl ⟨vers0, rfl, s0, hio, h1⟩
        · exact Or.inr ⟨h1, by trivial, by trivial⟩
      · rw [dictGet_dictUpd_ne _ _ _ hv2] at hs
        rcases hgg : dictGet g (provK a) with _ | vers0
        · rw [hgg] at hs
          simp [dictGet] at hs
        · rw [hgg] at hs
          simp only [Option.getD_some] at hs
          exact Or.inl ⟨vers0, rfl, s, hs, hx⟩
    · rintro (⟨vers0, hv0, s, hs, hx⟩ | ⟨hxa, _, hvv⟩)
      · refine ⟨_, rfl, ?_⟩
        by_cases hv2 : verK a = v
        · subst hv2
          rw [dictGet_dictUpd_self]
          refine ⟨_, rfl, ?_⟩
          rw [hv0]
          simp only [Option.getD_some]
          rw [hs]
          simp only [Option.getD_some]
          exact (mem_setAdd).mpr (Or.inl hx)
        · rw [dictGet_dictUpd_ne _ _ _ hv2, hv0]
          simp only [Option.getD_some]
          exact ⟨s, hs, hx⟩
      · subst hxa
        subst hvv
        refine ⟨_, rfl, ?_⟩
        rw [dictGet_dictUpd_self]
        exact ⟨_, rfl, (mem_setAdd).mpr (Or.inr rfl)⟩

theorem dictKeys_addGroup {α : Type} [DecidableEq α] (provK verK : α → String)
    (g : Groups α) (a : α) {p : String} :
    p ∈ dictKeys (addGroup provK verK g a) ↔ p ∈ dictKeys g ∨ p = provK a := by
  unfold addGroup
  rw [dictKeys_dictUpd]
  by_cases hm : provK a ∈ dictKeys g
  · simp [hm]
    intro he
    exact he ▸ hm
  · simp [hm, or_comm]

theorem verKeys_addGroup {α : Type} [DecidableEq α] (provK verK : α → String)
    (g : Groups α) (a : α) {p v : String} :
    v ∈ verKeys (addGroup provK verK g a) p ↔
      v ∈ verKeys g p ∨ (p = provK a ∧ v = verK a) := by
  unfold verKeys addGroup
  by_cases hp : provK a = p
  · subst hp
    rw [dictGet_dictUpd_self]
    simp only [Option.getD_some]
    rw [dictKeys_dictUpd]
    by_cases hm : verK a ∈ dictKeys ((dictGet g (provK a)).getD [])
    · simp [hm]
      intro he
      exact he ▸ hm
    · simp [hm, or_comm]
  · rw [dictGet_dictUpd_ne _ _ _ hp]
    constructor
    · exact fun h => Or.inl h
    · rintro (h | ⟨hpp, _⟩)
      · exact h
      · exact absurd hpp.symm hp

theorem groupsWF_addGroup {α : Type} [DecidableEq α] (provK verK : α → String)
    {g : Groups α} (hwf : groupsWF g) (a : α) : groupsWF (addGroup provK verK g a) := by
  obtain ⟨hk, hrest⟩ := hwf
  refine ⟨by unfold addGroup; exact nodup_dictKeys_dictUpd hk, ?_⟩
  intro p vers hv
  by_cases hp : provK a = p
  · subst hp
    unfold addGroup at hv
    rw [dictGet_dictUpd_self] at hv
    injection hv with hv'
    rcases hg : dictGet g (provK a) with _ | vers0
    · rw [hg] at hv'
      simp only [Option.getD_none] at hv'
      subst hv'
      constructor
      · exact nodup_dictKeys_dictUpd (by simp [dictKeys])
      · intro v s hs
        by_cases hvv : verK a = v
        · subst hvv
          rw [dictGet_dictUpd_self] at hs
          injection hs with hs'
          subst hs'
          simp [dictGet, setAdd]
        · rw [dictGet_dictUpd_ne _ _ _ hvv] at hs
          simp [dictGet] at hs
    · rw [hg] at hv'
      simp only [Option.getD_some] at hv'
      subst hv'
      obtain ⟨hik, his⟩ := hrest (provK a) vers0 hg
      constructor
      · exact nodup_dictKeys_dictUpd hik
      · intro v s hs
        by_cases hvv : verK a = v
        · subst hvv
          rw [dictGet_dictUpd_self] at hs
          injection hs with hs'
          subst hs'
          rcases hsv : dictGet vers0 (verK a) with _ | s0
          · simp [hsv]
            exact nodup_setAdd (by simp) a
          · simp only [hsv, Option.getD_some]
            exact nodup_setAdd (his (verK a) s0 hsv) a
        · rw [dictGet_dictUpd_ne _ _ _ hvv] at hs
          exact his v s hs
  · unfold addGroup at hv
    rw [dictGet_dictUpd_ne _ _ _ hp] at hv
    exact hrest p vers hv

theorem memGroups_buildGroups {α : Type} [DecidableEq α] (parse : String → Option α)
    (provK verK : α → String) (inputs : List String) (p v : String) (x : α) :
    ∀ g : Groups α,
    memGroups (inputs.foldl
      (fun g s => match parse s with | some a => addGroup provK verK g a | none => g) g)
      p v x ↔
      memGroups g p v x ∨
        ((∃ i ∈ inputs, parse i = some x) ∧ provK x = p ∧ verK x = v) := by
  induction inputs with
  | nil => intro g; simp
  | cons i inputs ih =>
    intro g
    simp only [List.foldl_cons]
    rcases hp : parse i with _ | a
    · rw [ih g]
      constructor
      · rintro (h | ⟨⟨j, hj, hjx⟩, h2, h3⟩)
        · exact Or.inl h
        · exact Or.inr ⟨⟨j, List.mem_cons_of_mem i hj, hjx⟩, h2, h3⟩
      · rintro (h | ⟨⟨j, hj, hjx⟩, h2, h3⟩)
        · exact Or.inl h
        · rcases List.mem_cons.mp hj with rfl | hj2
          · rw [hp] at hjx
            exact absurd hjx (by simp)
          · exact Or.inr ⟨⟨j, hj2, hjx⟩, h2, h3⟩
    · rw [ih (addGroup provK verK g a)]
      rw [memGroups_addGroup]
      constructor
      · rintro ((h | ⟨hxa, h2, h3⟩) | ⟨⟨j, hj, hjx⟩, h2, h3⟩)
        · exact Or.inl h
        · subst hxa
          exact Or.inr ⟨⟨i, List.mem_cons_self i inputs, hp⟩, h2, h3⟩
        · exact Or.inr ⟨⟨j, List.mem_cons_of_mem i hj, hjx⟩, h2, h3⟩
      · rintro (h | ⟨⟨j, hj, hjx⟩, h2, h3⟩)
        · exact Or.inl (Or.inl h)
        · rcases List.mem_cons.mp hj with rfl | hj2
          · rw [hp] at hjx
            injection hjx with hax
            exact Or.inl (Or.inr ⟨hax.symm, by rw [hax]; exact h2, by rw [hax]; exact h3⟩)
          · exact Or.inr ⟨⟨j, hj2, hjx⟩, h2, h3⟩

theorem dictKeys_buildGroups {α : Type} [DecidableEq α] (parse : String → Option α)
    (provK verK : α → String) (inputs : List String) (p : String) :
    ∀ g : Groups α,
    (p ∈ dictKeys (inputs.foldl
      (fun g s => match parse s with | some a => addGroup provK verK g a | none => g) g) ↔
      p ∈ dictKeys g ∨ ∃ i ∈ inputs, ∃ x, parse i = some x ∧ provK x = p) := by
  induction inputs with
  | nil => intro g; simp
  | cons i inputs ih =>
    intro g
    simp only [List.foldl_cons]
    rcases hp : parse i with _ | a
    · rw [ih g]
      constructor
      · rintro (h | ⟨j, hj, hx⟩)
        · exact Or.inl h
        · exact Or.inr ⟨j, List.mem_cons_of_mem i hj, hx⟩
      · rintro (h | ⟨j, hj, y, hjy, hyp⟩)
        · exact Or.inl h
        · rcases List.mem_cons.mp hj with rfl | hj2
          · rw [hp] at hjy
            exact absurd hjy (by simp)
          · exact Or.inr ⟨j, hj2, y, hjy, hyp⟩
    · rw [ih (addGroup provK verK g a)]
      rw [dictKeys_addGroup]
      constructor
      · rintro ((h | h) | ⟨j, hj, y, hjy, hyp⟩)
        · exact Or.inl h
        · exact Or.inr ⟨i, List.mem_cons_self i inputs, a, hp, h.symm⟩
        · exact Or.inr ⟨j, List.mem_cons_of_mem i hj, y, hjy, hyp⟩
      · rintro (h | ⟨j, hj, y, hjy, hyp⟩)
        · exact Or.inl (Or.inl h)
        · rcases List.mem_cons.mp hj with rfl | hj2
          · rw [hp] at hjy
            injection hjy with hay
            exact Or.inl (Or.inr (by rw [hay]; exact hyp.symm))
          · exact Or.inr ⟨j, hj2, y, hjy, hyp⟩

theorem verKeys_buildGroups {α : Type} [DecidableEq α] (parse : String → Option α)
    (provK verK : α → String) (inputs : List String) (p v : String) :
    ∀ g : Groups α,
    (v ∈ verKeys (inputs.foldl
      (fun g s => match parse s with | some a => addGroup provK verK g a | none => g) g) p ↔
      v ∈ verKeys g p ∨ ∃ i ∈ inputs, ∃ x, parse i = some x ∧ provK x = p ∧ verK x = v) := by
  induction inputs with
  | nil => intro g; simp
  | cons i inputs ih =>
    intro g
    simp only [List.foldl_cons]
    rcases hp : parse i with _ | a
    · rw [ih g]
      constructor
      · rintro (h | ⟨j, hj, hx⟩)
        · exact Or.inl h
        · exact Or.inr ⟨j, List.mem_cons_of_mem i hj, hx⟩
      · rintro (h | ⟨j, hj, y, hjy, hyp⟩)
        · exact Or.inl h
        · rcases List.mem_cons.mp hj with rfl | hj2
          · rw [hp] at hjy
            exact absurd hjy (by simp)
          · exact Or.inr ⟨j, hj2, y, hjy, hyp⟩
    · rw [ih (addGroup provK verK g a)]
      rw [verKeys_addGroup]
      constructor
      · rintro ((h | ⟨h1, h2⟩) | ⟨j, hj, y, hjy, hyp⟩)
        · exact Or.inl h
        · exact Or.inr ⟨i, List.mem_cons_self i inputs, a, hp, h1.symm, h2.symm⟩
        · exact Or.inr ⟨j, List.mem_cons_of_mem i hj, y, hjy, hyp⟩
      · rintro (h | ⟨j, hj, y, hjy, hyp1, hyp2⟩)
        · exact Or.inl (Or.inl h)
        · rcases List.mem_cons.mp hj with rfl | hj2
          · rw [hp] at hjy
            injection hjy with hay
            subst hay
            exact Or.inl (Or.inr ⟨hyp1.symm, hyp2.symm⟩)
          · exact Or.inr ⟨j, hj2, y, hjy, hyp1, hyp2⟩

theorem groupsWF_buildGroups {α : Type} [DecidableEq α] (parse : String → Option α)
    (provK verK : α → String) (inputs : List String) :
    groupsWF (buildGroups parse provK verK inputs) := by
  unfold buildGroups
  have base : groupsWF ([] : Groups α) := by
    refine ⟨by simp [dictKeys], ?_⟩
    intro p vers hv
    simp [dictGet] at hv
  generalize hg : ([] : Groups α) = g
  rw [hg] at base
  clear hg
  induction inputs generalizing g with
  | nil => exact base
  | cons i inputs ih =>
    simp only [List.foldl_cons]
    rcases hp : parse i with _ | a
    · exact ih g base
    · exact ih (addGroup provK verK g a) (groupsWF_addGroup provK verK base a)

/-! ## Canonical structure membership -/

theorem canonGroups_mem {α : Type} (le : α → α → Bool) (g : Groups α)
    {pv : String × List (String × List α)} (hpv : pv ∈ canonGroups le g)
    {vd : String × List α} (hvd : vd ∈ pv.2) {a : α} (ha : a ∈ vd.2) :
    memGroups g pv.1 vd.1 a := by
  unfold canonGroups at hpv
  obtain ⟨p, hp, hpe⟩ := List.mem_map.mp hpv
  subst hpe
  simp only at hvd ha ⊢
  obtain ⟨v, hv, hve⟩ := List.mem_map.mp hvd
  subst hve
  simp only at ha ⊢
  rw [List.mem_insertionSort] at ha
  have hpk : p ∈ dictKeys g := by
    have := (List.mem_insertionSort _).mp hp
    unfold sortStr at hp
    exact (List.mem_insertionSort _).mp hp
  obtain ⟨vers, hvers⟩ := mem_dictKeys.mp hpk
  refine ⟨vers, hvers, ?_⟩
  rcases hsv : dictGet vers v with _ | s
  · rw [hvers] at ha
    simp only [Option.getD_some] at ha
    rw [hsv] at ha
    simp at ha
  · refine ⟨s, rfl, ?_⟩
    rw [hvers] at ha
    simp only [Option.getD_some] at ha
    rw [hsv] at ha
    simpa using ha

/-! ## Local run document-write lemmas -/

theorem Local.processVersion_puts (env : Env) (pre v : String)
    (archs : List Local.Archive) (st : Store) :
    putsOf (Local.processVersion env pre v archs st).2 =
      [(pre ++ v ++ ".json", dumpVersionDoc (Local.entriesOf env archs))] := by
  simp only [Local.processVersion, Local.processArchives]
  rw [putsOf_append, Local.foldArch_puts, Local.foldArch_entries]
  rfl

theorem Local.foldVers_puts (env : Env) (pre : String)
    (vers : List (String × List Local.Archive)) :
    ∀ (st : Store) (evs : List Ev),
    putsOf (vers.foldl (Local.verStep env pre) (st, evs)).2 =
      putsOf evs ++
        vers.map (fun pv =>
          (pre ++ pv.1 ++ ".json", dumpVersionDoc (Local.entriesOf env pv.2))) := by
  induction vers with
  | nil => intro st evs; simp
  | cons pv vers ih =>
    intro st evs
    simp only [List.foldl_cons, Local.verStep]
    rw [ih, putsOf_append, Local.processVersion_puts]
    simp

theorem Local.processProvider_puts (env : Env) (pre : String)
    (vers : List (String × List Local.Archive)) (st : Store) :
    putsOf (Local.processProvider env pre vers st).2 =
      vers.map (fun pv =>
        (pre ++ pv.1 ++ ".json", dumpVersionDoc (Local.entriesOf env pv.2))) ++
        [(pre ++ "index.json", dumpIndexDoc (vers.map Prod.fst))] := by
  simp only [Local.processProvider]
  rw [putsOf_append, Local.foldVers_puts]
  rfl

theorem Local.foldProv_puts (env : Env) (pre : String)
    (c : List (String × List (String × List Local.Archive))) :
    ∀ (st : Store) (evs : List Ev),
    putsOf (c.foldl (Local.provStep env pre) (st, evs)).2 =
      putsOf evs ++
        c.flatMap (fun pv =>
          pv.2.map (fun vd =>
            (pre ++ vd.1 ++ ".json", dumpVersionDoc (Local.entriesOf env vd.2))) ++
            [(pre ++ "index.json", dumpIndexDoc (pv.2.map Prod.fst))]) := by
  induction c with
  | nil => intro st evs; simp
  | cons pv c ih =>
    intro st evs
    simp only [List.foldl_cons, Local.provStep]
    rw [ih, putsOf_append, Local.processProvider_puts]
    simp

theorem Local.sync_puts (env : Env) (pre : String) (paths : List String) (st : Store) :
    putsOf (Local.sync env pre paths st).2 = Local.docsOf env pre paths := by
  unfold Local.sync Local.docsOf
  rw [Local.foldProv_puts]
  rfl

/-! ## Local run store-state lemmas -/

theorem Local.zipKey_ne_verDoc {pre f v : String}
    (hf : ∃ xs, f.data = xs ++ ['.', 'z', 'i', 'p']) : pre ++ f ≠ pre ++ v ++ ".json" := by
  rw [String.append_assoc]
  exact zip_key_ne_json hf ⟨v.data, version_json_data v⟩

theorem Local.zipKey_ne_indexDoc {pre f : String}
    (hf : ∃ xs, f.data = xs ++ ['.', 'z', 'i', 'p']) : pre ++ f ≠ pre ++ "index.json" := by
  exact zip_key_ne_json hf ⟨"index".data, rfl⟩

theorem Local.processVersion_good (env : Env) (pre : String)
    (allA : List Local.Archive)
    (HH : ∀ a b, a ∈ allA → b ∈ allA → a.file_name = b.file_name →
      dirhashLocal env a.path = dirhashLocal env b.path)
    (HZ : ∀ b ∈ allA, ∃ xs, b.file_name.data = xs ++ ['.', 'z', 'i', 'p'])
    (v : String) (archs : List Local.Archive) (hsub : ∀ a ∈ archs, a ∈ allA)
    (st : Store) (A : List Local.Archive) (hA : ∀ a ∈ A, a ∈ allA)
    (hGood : ∀ a ∈ A, hasHash st (pre ++ a.file_name) (dirhashLocal env a.path)) :
    ∀ a, (a ∈ A ∨ a ∈ archs) →
    hasHash (Local.processVersion env pre v archs st).1
      (pre ++ a.file_name) (dirhashLocal env a.path) := by
  intro a ha
  have haA : a ∈ allA := ha.elim (hA a) (hsub a)
  have hkne : pre ++ a.file_name ≠ pre ++ v ++ ".json" := Local.zipKey_ne_verDoc (HZ a haA)
  simp only [Local.processVersion, Local.processArchives]
  unfold hasHash
  rw [dictGet_dictSet_ne _ _ (Ne.symm hkne)]
  rcases ha with hmem | hmem
  · by_cases hk : (pre ++ a.file_name) ∈ archs.map (fun b => pre ++ b.file_name)
    · obtain ⟨b, hb, hbk⟩ := List.mem_map.mp hk
      have hfn : b.file_name = a.file_name := strAppend_cancel hbk
      have hhash : dirhashLocal env b.path = dirhashLocal env a.path :=
        HH b a (hsub b hb) haA hfn
      have hres := Local.foldArch_good env pre archs allA hsub HH [] st [] b hb
      unfold hasHash at hres
      rw [hbk, hhash] at hres
      exact hres
    · rw [Local.foldArch_frame env pre archs _ _ _ _ hk]
      exact hGood a hmem
  · have hres := Local.foldArch_good env pre archs allA hsub HH [] st [] a hmem
    exact hres

theorem Local.foldVers_good (env : Env) (pre : String) (allA : List Local.Archive)
    (HH : ∀ a b, a ∈ allA → b ∈ allA → a.file_name = b.file_name →
      dirhashLocal env a.path = dirhashLocal env b.path)
    (HZ : ∀ b ∈ allA, ∃ xs, b.file_name.data = xs ++ ['.', 'z', 'i', 'p'])
    (vers : List (String × List Local.Archive)) :
    ∀ (st : Store) (evs : List Ev) (A : List Local.Archive),
    (∀ a ∈ A, a ∈ allA) → (∀ pv ∈ vers, ∀ a ∈ pv.2, a ∈ allA) →
    (∀ a ∈ A, hasHash st (pre ++ a.file_name) (dirhashLocal env a.path)) →
    ∀ a, (a ∈ A ∨ ∃ pv ∈ vers, a ∈ pv.2) →
    hasHash (vers.foldl (Local.verStep env pre) (st, evs)).1
      (pre ++ a.file_name) (dirhashLocal env a.path) := by
  induction vers with
  | nil =>
    intro st evs A hA _ hGood a ha
    rcases ha with h | ⟨pv, hpv, _⟩
    · exact hGood a h
    · simp at hpv
  | cons pv vers ih =>
    intro st evs A hA hvers hGood a ha
    simp only [List.foldl_cons, Local.verStep]
    have hsub : ∀ b ∈ pv.2, b ∈ allA := hvers pv (List.mem_cons_self pv vers)
    have hvers' : ∀ qv ∈ vers, ∀ b ∈ qv.2, b ∈ allA :=
      fun qv hqv => hvers qv (List.mem_cons_of_mem pv hqv)
    have hA' : ∀ b ∈ A ++ pv.2, b ∈ allA := by
      intro b hb
      rcases List.mem_append.mp hb with h | h
      · exact hA b h
      · exact hsub b h
    have hGood' : ∀ b ∈ A ++ pv.2,
        hasHash (Local.processVersion env pre pv.1 pv.2 st).1
          (pre ++ b.file_name) (dirhashLocal env b.path) := by
      intro b hb
      exact Local.processVersion_good env pre allA HH HZ pv.1 pv.2 hsub st A hA hGood b
        (by rcases List.mem_append.mp hb with h | h
            · exact Or.inl h
            · exact Or.inr h)
    refine ih _ _ (A ++ pv.2) hA' hvers' hGood' a ?_
    rcases ha with h | ⟨qv, hqv, hq⟩
    · exact Or.inl (List.mem_append.mpr (Or.inl h))
    · rcases List.mem_cons.mp hqv with rfl | hqv2
      · exact Or.inl (List.mem_append.mpr (Or.inr hq))
      · exact Or.inr ⟨qv, hqv2, hq⟩

theorem Local.processProvider_good (env : Env) (pre : String) (allA : List Local.Archive)
    (HH : ∀ a b, a ∈ allA → b ∈ allA → a.file_name = b.file_name →
      dirhashLocal env a.path = dirhashLocal env b.path)
    (HZ : ∀ b ∈ allA, ∃ xs, b.file_name.data = xs ++ ['.', 'z', 'i', 'p'])
    (vers : List (String × List Local.Archive))
    (st : Store) (A : List Local.Archive)
    (hA : ∀ a ∈ A, a ∈ allA) (hvers : ∀ pv ∈ vers, ∀ a ∈ pv.2, a ∈ allA)
    (hGood : ∀ a ∈ A, hasHash st (pre ++ a.file_name) (dirhashLocal env a.path)) :
    ∀ a, (a ∈ A ∨ ∃ pv ∈ vers, a ∈ pv.2) →
    hasHash (Local.processProvider env pre vers st).1
      (pre ++ a.file_name) (dirhashLocal env a.path) := by
  intro a ha
  have haA : a ∈ allA := by
    rcases ha with h | ⟨pv, hpv, hq⟩
    · exact hA a h
    · exact hvers pv hpv a hq
  have hkne : pre ++ a.file_name ≠ pre ++ "index.json" := Local.zipKey_ne_indexDoc (HZ a haA)
  simp only [Local.processProvider]
  unfold hasHash
  rw [dictGet_dictSet_ne _ _ (Ne.symm hkne)]
  exact Local.foldVers_good env pre allA HH HZ vers st [] A hA hvers hGood a ha

theorem Local.foldProv_good (env : Env) (pre : String) (allA : List Local.Archive)
    (HH : ∀ a b, a ∈ allA → b ∈ allA → a.file_name = b.file_name →
      dirhashLocal env a.path = dirhashLocal env b.path)
    (HZ : ∀ b ∈ allA, ∃ xs, b.file_name.data = xs ++ ['.', 'z', 'i', 'p'])
    (c : List (String × List (String × List Local.Archive))) :
    ∀ (st : Store) (evs : List Ev) (A : List Local.Archive),
    (∀ a ∈ A, a ∈ allA) → (∀ pv ∈ c, ∀ vd ∈ pv.2, ∀ a ∈ vd.2, a ∈ allA) →
    (∀ a ∈ A, hasHash st (pre ++ a.file_name) (dirhashLocal env a.path)) →
    ∀ a, (a ∈ A ∨ ∃ pv ∈ c, ∃ vd ∈ pv.2, a ∈ vd.2) →
    hasHash (c.foldl (Local.provStep env pre) (st, evs)).1
      (pre ++ a.file_name) (dirhashLocal env a.path) := by
  induction c with
  | nil =>
    intro st evs A hA _ hGood a ha
    rcases ha with h | ⟨pv, hpv, _⟩
    · exact hGood a h
    · simp at hpv
  | cons pv c ih =>
    intro st evs A hA hc hGood a ha
    simp only [List.foldl_cons, Local.provStep]
    have hsub : ∀ vd ∈ pv.2, ∀ b ∈ vd.2, b ∈ allA := hc pv (List.mem_cons_self pv c)
    have hc' : ∀ qv ∈ c, ∀ vd ∈ qv.2, ∀ b ∈ vd.2, b ∈ allA :=
      fun qv hqv => hc qv (List.mem_cons_of_mem pv hqv)
    have hA' : ∀ b ∈ A ++ pv.2.flatMap (fun vd => vd.2), b ∈ allA := by
      intro b hb
      rcases List.mem_append.mp hb with h | h
      · exact hA b h
      · obtain ⟨vd, hvd, hbv⟩ := List.mem_flatMap.mp h
        exact hsub vd hvd b hbv
    have hGood' : ∀ b ∈ A ++ pv.2.flatMap (fun vd => vd.2),
        hasHash (Local.processProvider env pre pv.2 st).1
          (pre ++ b.file_name) (dirhashLocal env b.path) := by
      intro b hb
      refine Local.processProvider_good env pre allA HH HZ pv.2 st A hA hsub hGood b ?_
      rcases List.mem_append.mp hb with h | h
      · exact Or.inl h
      · obtain ⟨vd, hvd, hbv⟩ := List.mem_flatMap.mp h
        exact Or.inr ⟨vd, hvd, hbv⟩
    refine ih _ _ (A ++ pv.2.flatMap (fun vd => vd.2)) hA' hc' hGood' a ?_
    rcases ha with h | ⟨qv, hqv, vd, hvd, hq⟩
    · exact Or.inl (List.mem_append.mpr (Or.inl h))
    · rcases List.mem_cons.mp hqv with rfl | hqv2
      · exact Or.inl (List.mem_append.mpr (Or.inr (List.mem_flatMap.mpr ⟨vd, hvd, hq⟩)))
      · exact Or.inr ⟨qv, hqv2, vd, hvd, hq⟩

theorem Local.sync_good (env : Env) (pre : String) (paths : List String) (st : Store)
    (HH : ∀ a b, a ∈ allParsed Local.Archive.parse paths →
      b ∈ allParsed Local.Archive.parse paths → a.file_name = b.file_name →
      dirhashLocal env a.path = dirhashLocal env b.path) :
    ∀ pv ∈ canonGroups Local.Archive.leB
        (buildGroups Local.Archive.parse (·.provider) (·.version) paths),
    ∀ vd ∈ pv.2, ∀ a ∈ vd.2,
    hasHash (Local.sync env pre paths st).1 (pre ++ a.file_name) (dirhashLocal env a.path) := by
  intro pv hpv vd hvd a ha
  have hmemAll : ∀ qv ∈ canonGroups Local.Archive.leB
      (buildGroups Local.Archive.parse (·.provider) (·.version) paths),
      ∀ wd ∈ qv.2, ∀ b ∈ wd.2, b ∈ allParsed Local.Archive.parse paths := by
    intro qv hqv wd hwd b hb
    have hm := canonGroups_mem Local.Archive.leB _ hqv hwd hb
    have := (memGroups_buildGroups Local.Archive.parse (·.provider) (·.version)
      paths qv.1 wd.1 b []).mp hm
    rcases this with h | ⟨⟨i, hi, hib⟩, _, _⟩
    · exact absurd h (memGroups_nil _ _ _)
    · exact List.mem_filterMap.mpr ⟨i, hi, hib⟩
  have HZ : ∀ b ∈ allParsed Local.Archive.parse paths,
      ∃ xs, b.file_name.data = xs ++ ['.', 'z', 'i', 'p'] := by
    intro b hb
    obtain ⟨i, _, hib⟩ := List.mem_filterMap.mp hb
    exact Local.parse_zip hib
  unfold Local.sync
  exact Local.foldProv_good env pre (allParsed Local.Archive.parse paths) HH HZ _ st [] []
    (by simp) hmemAll (by simp) a (Or.inr ⟨pv, hpv, vd, hvd, ha⟩)

/-! ## Local second-run lemmas: no copies when fingerprints match -/

theorem Local.processVersion_nocopy (env : Env) (pre v : String)
    (archs : List Local.Archive) (st : Store)
    (hGood : ∀ a ∈ archs, hasHash st (pre ++ a.file_name) (dirhashLocal env a.path)) :
    copiesOf (Local.processVersion env pre v archs st).2 = [] ∧
    ∀ k, k ≠ pre ++ v ++ ".json" →
      dictGet (Local.processVersion env pre v archs st).1 k = dictGet st k := by
  simp only [Local.processVersion, Local.processArchives]
  rw [Local.foldArch_copies env pre archs [] st [] hGood]
  constructor
  · rfl
  · intro k hk
    exact dictGet_dictSet_ne _ _ (Ne.symm hk)

theorem Local.foldVers_nocopy (env : Env) (pre : String) (allA : List Local.Archive)
    (HZ : ∀ b ∈ allA, ∃ xs, b.file_name.data = xs ++ ['.', 'z', 'i', 'p'])
    (vers : List (String × List Local.Archive)) :
    ∀ (st : Store) (evs : List Ev),
    (∀ pv ∈ vers, ∀ a ∈ pv.2, a ∈ allA) →
    (∀ pv ∈ vers, ∀ a ∈ pv.2, hasHash st (pre ++ a.file_name) (dirhashLocal env a.path)) →
    copiesOf (vers.foldl (Local.verStep env pre) (st, evs)).2 = copiesOf evs ∧
    ∀ k, (∃ xs, k.data = (pre.data ++ xs) ++ ['.', 'z', 'i', 'p']) →
      dictGet (vers.foldl (Local.verStep env pre) (st, evs)).1 k = dictGet st k := by
  induction vers with
  | nil => intro st evs _ _; exact ⟨rfl, fun k _ => rfl⟩
  | cons pv vers ih =>
    intro st evs hsub hGood
    simp only [List.foldl_cons, Local.verStep]
    have hsub0 : ∀ a ∈ pv.2, a ∈ allA := hsub pv (List.mem_cons_self pv vers)
    have hn0 := Local.processVersion_nocopy env pre pv.1 pv.2 st
      (fun a ha => hGood pv (List.mem_cons_self pv vers) a ha)
    have hzipne : ∀ k : String, (∃ xs, k.data = (pre.data ++ xs) ++ ['.', 'z', 'i', 'p']) →
        k ≠ pre ++ pv.1 ++ ".json" := by
      intro k ⟨xs, hxs⟩ hcon
      have hd := congrArg String.data hcon
      rw [hxs] at hd
      simp only [String.data_append] at hd
      have hd2 : pre.data ++ (xs ++ ['.', 'z', 'i', 'p']) =
          pre.data ++ (pv.1.data ++ ['.', 'j', 's', 'o', 'n']) := by
        simpa [List.append_assoc] using hd
      have h2 := List.append_cancel_left hd2
      have h3 := congrArg List.getLast? h2
      simp [List.getLast?_append] at h3
    have ihr := ih ((Local.processVersion env pre pv.1 pv.2 st).1)
      (evs ++ (Local.processVersion env pre pv.1 pv.2 st).2)
      (fun qv hqv => hsub qv (List.mem_cons_of_mem pv hqv))
      (fun qv hqv a ha => by
        unfold hasHash
        rw [hn0.2 (pre ++ a.file_name)
          (by
            obtain ⟨xs, hxs⟩ := HZ a (hsub qv (List.mem_cons_of_mem pv hqv) a ha)
            exact hzipne (pre ++ a.file_name)
              ⟨xs, by simp [String.data_append, hxs]⟩)]
        exact hGood qv (List.mem_cons_of_mem pv hqv) a ha)
    refine ⟨?_, ?_⟩
    · rw [ihr.1, copiesOf_append, hn0.1]
      simp
    · intro k hk
      rw [ihr.2 k hk, hn0.2 k (hzipne k hk)]

theorem Local.processProvider_nocopy (env : Env) (pre : String) (allA : List Local.Archive)
    (HZ : ∀ b ∈ allA, ∃ xs, b.file_name.data = xs ++ ['.', 'z', 'i', 'p'])
    (vers : List (String × List Local.Archive)) (st : Store)
    (hsub : ∀ pv ∈ vers, ∀ a ∈ pv.2, a ∈ allA)
    (hGood : ∀ pv ∈ vers, ∀ a ∈ pv.2,
      hasHash st (pre ++ a.file_name) (dirhashLocal env a.path)) :
    copiesOf (Local.processProvider env pre vers st).2 = [] ∧
    ∀ k, (∃ xs, k.data = (pre.data ++ xs) ++ ['.', 'z', 'i', 'p']) →
      dictGet (Local.processProvider env pre vers st).1 k = dictGet st k := by
  simp only [Local.processProvider]
  have hfv := Local.foldVers_nocopy env pre allA HZ vers st [] hsub hGood
  constructor
  · rw [copiesOf_append, hfv.1]
    rfl
  · intro k hk
    have hkne : k ≠ pre ++ "index.json" := by
      obtain ⟨xs, hxs⟩ := hk
      intro hcon
      have hd := congrArg String.data hcon
      rw [hxs] at hd
      simp only [String.data_append] at hd
      have hd2 : pre.data ++ (xs ++ ['.', 'z', 'i', 'p']) =
          pre.data ++ ['i', 'n', 'd', 'e', 'x', '.', 'j', 's', 'o', 'n'] := by
        simpa [List.append_assoc] using hd
      have h2 := List.append_cancel_left hd2
      have h3 := congrArg List.getLast? h2
      simp [List.getLast?_append] at h3
    rw [dictGet_dictSet_ne _ _ (Ne.symm hkne), hfv.2 k hk]

theorem Local.foldProv_nocopy (env : Env) (pre : String) (allA : List Local.Archive)
    (HZ : ∀ b ∈ allA, ∃ xs, b.file_name.data = xs ++ ['.', 'z', 'i', 'p'])
    (c : List (String × List (String × List Local.Archive))) :
    ∀ (st : Store) (evs : List Ev),
    (∀ pv ∈ c, ∀ vd ∈ pv.2, ∀ a ∈ vd.2, a ∈ allA) →
    (∀ pv ∈ c, ∀ vd ∈ pv.2, ∀ a ∈ vd.2,
      hasHash st (pre ++ a.file_name) (dirhashLocal env a.path)) →
    copiesOf (c.foldl (Local.provStep env pre) (st, evs)).2 = copiesOf evs := by
  induction c with
  | nil => intro st evs _ _; rfl
  | cons pv c ih =>
    intro st evs hsub hGood
    simp only [List.foldl_cons, Local.provStep]
    have hsub0 : ∀ vd ∈ pv.2, ∀ a ∈ vd.2, a ∈ allA := hsub pv (List.mem_cons_self pv c)
    have hn0 := Local.processProvider_nocopy env pre allA HZ pv.2 st hsub0
      (fun vd hvd a ha => hGood pv (List.mem_cons_self pv c) vd hvd a ha)
    rw [ih _ _ (fun qv hqv => hsub qv (List.mem_cons_of_mem pv hqv))
      (fun qv hqv vd hvd a ha => by
        unfold hasHash
        rw [hn0.2 (pre ++ a.file_name)
          (by
            obtain ⟨xs, hxs⟩ := HZ a (hsub qv (List.mem_cons_of_mem pv hqv) vd hvd a ha)
            exact ⟨xs, by simp [String.data_append, hxs]⟩)]
        exact hGood qv (List.mem_cons_of_mem pv hqv) vd hvd a ha)]
    rw [copiesOf_append, hn0.1]
    simp

theorem Local.sync_nocopy (env : Env) (pre : String) (paths : List String) (st : Store)
    (hGood : ∀ pv ∈ canonGroups Local.Archive.leB
        (buildGroups Local.Archive.parse (·.provider) (·.version) paths),
      ∀ vd ∈ pv.2, ∀ a ∈ vd.2,
      hasHash st (pre ++ a.file_name) (dirhashLocal env a.path)) :
    copiesOf (Local.sync env pre paths st).2 = [] := by
  have hmemAll : ∀ qv ∈ canonGroups Local.Archive.leB
      (buildGroups Local.Archive.parse (·.provider) (·.version) paths),
      ∀ wd ∈ qv.2, ∀ b ∈ wd.2, b ∈ allParsed Local.Archive.parse paths := by
    intro qv hqv wd hwd b hb
    have hm := canonGroups_mem Local.Archive.leB _ hqv hwd hb
    have := (memGroups_buildGroups Local.Archive.parse (·.provider) (·.version)
      paths qv.1 wd.1 b []).mp hm
    rcases this with h | ⟨⟨i, hi, hib⟩, _, _⟩
    · exact absurd h (memGroups_nil _ _ _)
    · exact List.mem_filterMap.mpr ⟨i, hi, hib⟩
  have HZ : ∀ b ∈ allParsed Local.Archive.parse paths,
      ∃ xs, b.file_name.data = xs ++ ['.', 'z', 'i', 'p'] := by
    intro b hb
    obtain ⟨i, _, hib⟩ := List.mem_filterMap.mp hb
    exact Local.parse_zip hib
  unfold Local.sync
  exact Local.foldProv_nocopy env pre (allParsed Local.Archive.parse paths) HZ _ st []
    hmemAll hGood

/-! ## Remote `copy_archive` lemmas -/

theorem Remote.copy_archive_skipR (env : Env) (relStore : Store) (rk : String)
    (st : Store) (k : String) (h : goodR st k) :
    Remote.copy_archive env relStore rk st k = ((metaVal st k, false), st, []) := by
  obtain ⟨o, hv, hg, hm, hne⟩ := h
  unfold Remote.copy_archive
  simp [hg, hm, hne, metaVal, metaAt]

theorem Remote.copy_archive_val (env : Env) (relStore : Store) (rk : String)
    (st : Store) (k : String) :
    (Remote.copy_archive env relStore rk st k).1.1 =
      metaVal (Remote.copy_archive env relStore rk st k).2.1 k := by
  by_cases h : goodR st k
  · rw [Remote.copy_archive_skipR env relStore rk st k h]
  · unfold Remote.copy_archive
    rcases hg : dictGet st k with _ | o
    · simp [hg, metaVal, metaAt, dictGet_dictSet_self, dictGet]
    · rcases hm : dictGet o.metadata DIRHASH_METADATA with _ | hv
      · simp [hg, hm, metaVal, metaAt, dictGet_dictSet_self, dictGet]
      · have hve : hv = "" := by
          by_contra hne
          exact h ⟨o, hv, hg, hm, hne⟩
        subst hve
        simp [hg, hm, metaVal, metaAt, dictGet_dictSet_self, dictGet]

theorem Remote.copy_archive_stable (env : Env) (relStore : Store) (rk : String)
    (st : Store) (k k' : String) (h : goodR st k) :
    dictGet (Remote.copy_archive env relStore rk st k').2.1 k = dictGet st k := by
  by_cases hkk : k' = k
  · subst hkk
    rw [Remote.copy_archive_skipR env relStore rk st k' h]
  · by_cases h2 : goodR st k'
    · rw [Remote.copy_archive_skipR env relStore rk st k' h2]
    · unfold Remote.copy_archive
      rcases hg : dictGet st k' with _ | o
      · simpa [hg] using dictGet_dictSet_ne st _ hkk
      · rcases hm : dictGet o.metadata DIRHASH_METADATA with _ | hv
        · simpa [hg, hm] using dictGet_dictSet_ne st _ hkk
        · have hve : hv = "" := by
            by_contra hne
            exact h2 ⟨o, hv, hg, hm, hne⟩
          subst hve
          simpa [hg, hm] using dictGet_dictSet_ne st _ hkk

theorem Remote.copy_archive_frameR (env : Env) (relStore : Store) (rk : String)
    (st : Store) {k k' : String} (h : k' ≠ k) :
    dictGet (Remote.copy_archive env relStore rk st k).2.1 k' = dictGet st k' := by
  by_cases h2 : goodR st k
  · rw [Remote.copy_archive_skipR env relStore rk st k h2]
  · unfold Remote.copy_archive
    rcases hg : dictGet st k with _ | o
    · simpa [hg] using dictGet_dictSet_ne st _ (Ne.symm h)
    · rcases hm : dictGet o.metadata DIRHASH_METADATA with _ | hv
      · simpa [hg, hm] using dictGet_dictSet_ne st _ (Ne.symm h)
      · have hve : hv = "" := by
          by_contra hne
          exact h2 ⟨o, hv, hg, hm, hne⟩
        subst hve
        simpa [hg, hm] using dictGet_dictSet_ne st _ (Ne.symm h)

theorem Remote.copy_archive_good (env : Env) (relStore : Store) (rk : String)
    (st : Store) (k : String) (HR : ∀ b, env.hashContent b ≠ "") :
    goodR (Remote.copy_archive env relStore rk st k).2.1 k := by
  by_cases h : goodR st k
  · rw [Remote.copy_archive_skipR env relStore rk st k h]
    exact h
  · have hgood : goodR (dictSet st k
        ⟨((dictGet relStore rk).getD ⟨"", []⟩).body,
          dictSet ((dictGet relStore rk).getD ⟨"", []⟩).metadata DIRHASH_METADATA
            (env.hashContent ((dictGet relStore rk).getD ⟨"", []⟩).body)⟩) k := by
      refine ⟨_, env.hashContent ((dictGet relStore rk).getD ⟨"", []⟩).body,
        dictGet_dictSet_self st k _, ?_, HR _⟩
      exact dictGet_dictSet_self _ _ _
    unfold Remote.copy_archive
    rcases hg : dictGet st k with _ | o
    · simpa [hg] using hgood
    · rcases hm : dictGet o.metadata DIRHASH_METADATA with _ | hv
      · simpa [hg, hm] using hgood
      · have hve : hv = "" := by
          by_contra hne
          exact h ⟨o, hv, hg, hm, hne⟩
        subst hve
        simpa [hg, hm] using hgood

theorem Remote.copy_archive_putsR (env : Env) (relStore : Store) (rk : String)
    (st : Store) (k : String) :
    putsOf (Remote.copy_archive env relStore rk st k).2.2 = [] := by
  by_cases h : goodR st k
  · rw [Remote.copy_archive_skipR env relStore rk st k h]
    rfl
  · unfold Remote.copy_archive
    rcases hg : dictGet st k with _ | o
    · simp [hg, putsOf]
    · rcases hm : dictGet o.metadata DIRHASH_METADATA with _ | hv
      · simp [hg, hm, putsOf]
      · have hve : hv = "" := by
          by_contra hne
          exact h ⟨o, hv, hg, hm, hne⟩
        subst hve
        simp [hg, hm, putsOf]

theorem goodR_congr {s s' : Store} {k : String}
    (he : dictGet s' k = dictGet s k) (h : goodR s k) : goodR s' k := by
  obtain ⟨o, hv, hg, hm, hne⟩ := h
  exact ⟨o, hv, by rw [he]; exact hg, hm, hne⟩

/-! ## Remote archive-loop lemmas -/

theorem Remote.foldArch_stable (env : Env) (relStore : Store) (pre : String)
    (archs : List Remote.Archive) :
    ∀ (es : List (String × String × String)) (st : Store) (evs : List Ev) (k : String),
    goodR st k →
    dictGet (archs.foldl (Remote.archStep env relStore pre) (es, st, evs)).2.1 k =
      dictGet st k := by
  induction archs with
  | nil => intro es st evs k _; rfl
  | cons a archs ih =>
    intro es st evs k hk
    simp only [List.foldl_cons, Remote.archStep]
    have hstep := Remote.copy_archive_stable env relStore a.key st k
      (pre ++ a.version ++ "/" ++ a.file_name) hk
    rw [ih _ _ _ k (goodR_congr hstep hk), hstep]

theorem Remote.foldArch_goodR (env : Env) (relStore : Store) (pre : String)
    (HR : ∀ b, env.hashContent b ≠ "") (archs : List Remote.Archive) :
    ∀ (es : List (String × String × String)) (st : Store) (evs : List Ev)
      (a : Remote.Archive), a ∈ archs →
    goodR (archs.foldl (Remote.archStep env relStore pre) (es, st, evs)).2.1
      (pre ++ a.version ++ "/" ++ a.file_name) := by
  induction archs with
  | nil => intro es st evs a ha; simp at ha
  | cons a0 archs ih =>
    intro es st evs a ha
    simp only [List.foldl_cons, Remote.archStep]
    rcases List.mem_cons.mp ha with rfl | hmem
    · have hg0 := Remote.copy_archive_good env relStore a.key st
        (pre ++ a.version ++ "/" ++ a.file_name) HR
      exact goodR_congr (Remote.foldArch_stable env relStore pre archs _ _ _ _ hg0) hg0
    · exact ih _ _ _ a hmem

theorem entriesFold_congr {α : Type} (keyF urlF : α → String) (val val' : α → String) :
    ∀ (archs : List α) (es : List (String × String × String)),
    (∀ a ∈ archs, val a = val' a) →
    archs.foldl (fun es2 a => dictSet es2 (keyF a) (val a, urlF a)) es =
      archs.foldl (fun es2 a => dictSet es2 (keyF a) (val' a, urlF a)) es := by
  intro archs
  induction archs with
  | nil => intro es _; rfl
  | cons a archs ih =>
    intro es hv
    simp only [List.foldl_cons]
    rw [hv a (List.mem_cons_self a archs)]
    exact ih _ (fun b hb => hv b (List.mem_cons_of_mem a hb))

theorem metaVal_congr {s s' : Store} {k : String}
    (he : dictGet s' k = dictGet s k) : metaVal s' k = metaVal s k := by
  unfold metaVal metaAt
  rw [he]

theorem Remote.foldArch_entries_ex (env : Env) (relStore : Store) (pre : String)
    (HR : ∀ b, env.hashContent b ≠ "") (archs : List Remote.Archive)
    (hnd : archs.Nodup) :
    ∀ (es : List (String × String × String)) (st : Store) (evs : List Ev),
    ∃ val : Remote.Archive → String,
      (archs.foldl (Remote.archStep env relStore pre) (es, st, evs)).1 =
        archs.foldl
          (fun es2 a => dictSet es2 (a.os ++ "_" ++ a.arch)
            (val a, a.version ++ "/" ++ a.file_name)) es ∧
      ∀ a ∈ archs,
        val a = metaVal (archs.foldl (Remote.archStep env relStore pre) (es, st, evs)).2.1
          (pre ++ a.version ++ "/" ++ a.file_name) := by
  induction archs with
  | nil => intro es st evs; exact ⟨fun _ => "", rfl, by simp⟩
  | cons a archs ih =>
    intro es st evs
    have hnd' : archs.Nodup := (List.nodup_cons.mp hnd).2
    have hna : a ∉ archs := (List.nodup_cons.mp hnd).1
    obtain ⟨val', hes', hval'⟩ := ih hnd'
      (dictSet es (a.os ++ "_" ++ a.arch)
        ((Remote.copy_archive env relStore a.key st
            (pre ++ a.version ++ "/" ++ a.file_name)).1.1,
          a.version ++ "/" ++ a.file_name))
      ((Remote.copy_archive env relStore a.key st
          (pre ++ a.version ++ "/" ++ a.file_name)).2.1)
      (evs ++ (Remote.copy_archive env relStore a.key st
          (pre ++ a.version ++ "/" ++ a.file_name)).2.2)
    refine ⟨fun x => if x = a
        then (Remote.copy_archive env relStore a.key st
          (pre ++ a.version ++ "/" ++ a.file_name)).1.1
        else val' x, ?_, ?_⟩
    · simp only [List.foldl_cons, Remote.archStep, if_pos rfl]
      rw [hes']
      exact entriesFold_congr _ _ _ _ archs _
        (fun b hb => by
          have hne : ¬b = a := fun he => hna (he ▸ hb)
          simp [hne])
    · intro x hx
      simp only [List.foldl_cons, Remote.archStep]
      rcases List.mem_cons.mp hx with rfl | hmem
      · simp only [if_pos rfl]
        have hg0 := Remote.copy_archive_good env relStore x.key st
          (pre ++ x.version ++ "/" ++ x.file_name) HR
        have hstab := Remote.foldArch_stable env relStore pre archs
          (dictSet es (x.os ++ "_" ++ x.arch)
            ((Remote.copy_archive env relStore x.key st
                (pre ++ x.version ++ "/" ++ x.file_name)).1.1,
              x.version ++ "/" ++ x.file_name))
          ((Remote.copy_archive env relStore x.key st
              (pre ++ x.version ++ "/" ++ x.file_name)).2.1)
          (evs ++ (Remote.copy_archive env relStore x.key st
              (pre ++ x.version ++ "/" ++ x.file_name)).2.2)
          (pre ++ x.version ++ "/" ++ x.file_name) hg0
        rw [metaVal_congr hstab]
        exact Remote.copy_archive_val env relStore x.key st
          (pre ++ x.version ++ "/" ++ x.file_name)
      · have hne : ¬x = a := fun he => hna (he ▸ hmem)
        simp only [if_neg hne]
        exact hval' x hmem

theorem Remote.foldArch_putsR (env : Env) (relStore : Store) (pre : String)
    (archs : List Remote.Archive) :
    ∀ (es : List (String × String × String)) (st : Store) (evs : List Ev),
    putsOf (archs.foldl (Remote.archStep env relStore pre) (es, st, evs)).2.2 =
      putsOf evs := by
  induction archs with
  | nil => intro es st evs; rfl
  | cons a archs ih =>
    intro es st evs
    simp only [List.foldl_cons, Remote.archStep]
    rw [ih, putsOf_append, Remote.copy_archive_putsR]
    simp

theorem Remote.foldArch_keys (env : Env) (relStore : Store) (pre : String)
    (archs : List Remote.Archive) :
    ∀ (es : List (String × String × String)) (st : Store) (evs : List Ev),
    dictKeys (archs.foldl (Remote.archStep env relStore pre) (es, st, evs)).1 =
      archs.foldl
        (fun ks a => if (a.os ++ "_" ++ a.arch) ∈ ks then ks else ks ++ [a.os ++ "_" ++ a.arch])
        (dictKeys es) := by
  induction archs with
  | nil => intro es st evs; rfl
  | cons a archs ih =>
    intro es st evs
    simp only [List.foldl_cons, Remote.archStep]
    rw [ih, dictKeys_dictSet]

theorem Remote.foldArch_nocopy (env : Env) (relStore : Store) (pre : String)
    (archs : List Remote.Archive) :
    ∀ (es : List (String × String × String)) (st : Store) (evs : List Ev),
    (∀ a ∈ archs, goodR st (pre ++ a.version ++ "/" ++ a.file_name)) →
    archs.foldl (Remote.archStep env relStore pre) (es, st, evs) =
      (archs.foldl
        (fun es2 a => dictSet es2 (a.os ++ "_" ++ a.arch)
          (metaVal st (pre ++ a.version ++ "/" ++ a.file_name),
            a.version ++ "/" ++ a.file_name)) es, st, evs) := by
  induction archs with
  | nil => intro es st evs _; rfl
  | cons a archs ih =>
    intro es st evs hGood
    simp only [List.foldl_cons, Remote.archStep]
    rw [Remote.copy_archive_skipR env relStore a.key st
      (pre ++ a.version ++ "/" ++ a.file_name) (hGood a (List.mem_cons_self a archs))]
    simp only [List.append_nil]
    exact ih _ _ _ (fun b hb => hGood b (List.mem_cons_of_mem a hb))

/-! ## Output-key shape lemmas -/

theorem zipShape_ne_verDoc {pre k v : String}
    (hk : ∃ xs, k.data = (pre.data ++ xs) ++ ['.', 'z', 'i', 'p']) :
    k ≠ pre ++ v ++ ".json" := by
  obtain ⟨xs, hxs⟩ := hk
  intro hcon
  have hd := congrArg String.data hcon
  rw [hxs] at hd
  simp only [String.data_append] at hd
  have hd2 : pre.data ++ (xs ++ ['.', 'z', 'i', 'p']) =
      pre.data ++ (v.data ++ ['.', 'j', 's', 'o', 'n']) := by
    simpa [List.append_assoc] using hd
  have h2 := List.append_cancel_left hd2
  have h3 := congrArg List.getLast? h2
  simp [List.getLast?_append] at h3

theorem zipShape_ne_indexDoc {pre k : String}
    (hk : ∃ xs, k.data = (pre.data ++ xs) ++ ['.', 'z', 'i', 'p']) :
    k ≠ pre ++ "index.json" := by
  obtain ⟨xs, hxs⟩ := hk
  intro hcon
  have hd := congrArg String.data hcon
  rw [hxs] at hd
  simp only [String.data_append] at hd
  have hd2 : pre.data ++ (xs ++ ['.', 'z', 'i', 'p']) =
      pre.data ++ ['i', 'n', 'd', 'e', 'x', '.', 'j', 's', 'o', 'n'] := by
    simpa [List.append_assoc] using hd
  have h2 := List.append_cancel_left hd2
  have h3 := congrArg List.getLast? h2
  simp [List.getLast?_append] at h3

theorem Remote.mkey_shape (pre : String) {a : Remote.Archive}
    (hf : ∃ xs, a.file_name.data = xs ++ ['.', 'z', 'i', 'p']) :
    ∃ xs, (pre ++ a.version ++ "/" ++ a.file_name).data =
      (pre.data ++ xs) ++ ['.', 'z', 'i', 'p'] := by
  obtain ⟨xs, hxs⟩ := hf
  refine ⟨a.version.data ++ '/' :: xs, ?_⟩
  simp only [String.data_append, hxs]
  simp [List.append_assoc]

/-! ## Duplicate-freeness of the canonical grouped structure -/

theorem canonGroups_wf {α : Type} (le : α → α → Bool) (g : Groups α) (hwf : groupsWF g) :
    ((canonGroups le g).map Prod.fst).Nodup ∧
      ∀ pv ∈ canonGroups le g,
        (pv.2.map Prod.fst).Nodup ∧ ∀ vd ∈ pv.2, vd.2.Nodup := by
  obtain ⟨hkeys, hrest⟩ := hwf
  constructor
  · have hfst : (canonGroups le g).map Prod.fst = sortStr (dictKeys g) := by
      unfold canonGroups
      rw [List.map_map]
      show List.map id (sortStr (dictKeys g)) = sortStr (dictKeys g)
      exact List.map_id _
    rw [hfst]
    exact ((List.perm_insertionSort _ _).nodup_iff).mpr hkeys
  · intro pv hpv
    unfold canonGroups at hpv
    obtain ⟨p, hp, hpe⟩ := List.mem_map.mp hpv
    subst hpe
    have hpk : p ∈ dictKeys g := (List.mem_insertionSort _).mp hp
    obtain ⟨vers, hvers⟩ := mem_dictKeys.mp hpk
    obtain ⟨hvkeys, hsets⟩ := hrest p vers hvers
    simp only [hvers, Option.getD_some]
    constructor
    · rw [List.map_map]
      have hfst : (Prod.fst ∘ fun v =>
          (v, List.insertionSort (fun a b => le a b = true) ((dictGet vers v).getD []))) =
          id := rfl
      rw [hfst, List.map_id]
      exact ((List.perm_insertionSort _ _).nodup_iff).mpr hvkeys
    · intro vd hvd
      obtain ⟨v, hv, hve⟩ := List.mem_map.mp hvd
      subst hve
      simp only
      have hvk : v ∈ dictKeys vers := (List.mem_insertionSort _).mp hv
      obtain ⟨s, hs⟩ := mem_dictKeys.mp hvk
      rw [hs, Option.getD_some]
      exact ((List.perm_insertionSort _ _).nodup_iff).mpr (hsets v s hs)

/-! ## Remote run store-state lemmas -/

theorem Remote.processVersion_stable (env : Env) (relStore : Store) (pre v : String)
    (archs : List Remote.Archive) (st : Store) (k : String)
    (hk : ∃ xs, k.data = (pre.data ++ xs) ++ ['.', 'z', 'i', 'p'])
    (hg : goodR st k) :
    dictGet (Remote.processVersion env relStore pre v archs st).1 k = dictGet st k := by
  simp only [Remote.processVersion, Remote.processArchives]
  rw [dictGet_dictSet_ne _ _ (Ne.symm (zipShape_ne_verDoc hk))]
  exact Remote.foldArch_stable env relStore pre archs _ _ _ k hg

theorem Remote.processVersion_goodR (env : Env) (relStore : Store) (pre : String)
    (HR : ∀ b, env.hashContent b ≠ "") (v : String) (archs : List Remote.Archive)
    (st : Store) (a : Remote.Archive) (ha : a ∈ archs)
    (hfz : ∃ xs, a.file_name.data = xs ++ ['.', 'z', 'i', 'p']) :
    goodR (Remote.processVersion env relStore pre v archs st).1
      (pre ++ a.version ++ "/" ++ a.file_name) := by
  simp only [Remote.processVersion, Remote.processArchives]
  refine goodR_congr ?_ (Remote.foldArch_goodR env relStore pre HR archs [] st [] a ha)
  exact dictGet_dictSet_ne _ _ (Ne.symm (zipShape_ne_verDoc (Remote.mkey_shape pre hfz)))

theorem Remote.foldVers_stable (env : Env) (relStore : Store) (pre : String)
    (vers : List (String × List Remote.Archive)) :
    ∀ (st : Store) (evs : List Ev) (k : String),
    (∃ xs, k.data = (pre.data ++ xs) ++ ['.', 'z', 'i', 'p']) → goodR st k →
    dictGet (vers.foldl (Remote.verStep env relStore pre) (st, evs)).1 k = dictGet st k := by
  induction vers with
  | nil => intro st evs k _ _; rfl
  | cons pv vers ih =>
    intro st evs k hk hg
    simp only [List.foldl_cons, Remote.verStep]
    have h0 := Remote.processVersion_stable env relStore pre pv.1 pv.2 st k hk hg
    rw [ih _ _ k hk (goodR_congr h0 hg), h0]

theorem Remote.foldVers_goodR (env : Env) (relStore : Store) (pre : String)
    (HR : ∀ b, env.hashContent b ≠ "") (vers : List (String × List Remote.Archive)) :
    ∀ (st : Store) (evs : List Ev),
    (∀ pv ∈ vers, ∀ a ∈ pv.2, ∃ xs, a.file_name.data = xs ++ ['.', 'z', 'i', 'p']) →
    ∀ pv ∈ vers, ∀ a ∈ pv.2,
    goodR (vers.foldl (Remote.verStep env relStore pre) (st, evs)).1
      (pre ++ a.version ++ "/" ++ a.file_name) := by
  induction vers with
  | nil => intro st evs _ pv hpv; simp at hpv
  | cons qv vers ih =>
    intro st evs HZ pv hpv a ha
    simp only [List.foldl_cons, Remote.verStep]
    rcases List.mem_cons.mp hpv with rfl | hmem
    · have hfz := HZ pv (List.mem_cons_self pv vers) a ha
      have hg0 := Remote.processVersion_goodR env relStore pre HR pv.1 pv.2 st a ha hfz
      have hst := Remote.foldVers_stable env relStore pre vers
        ((Remote.processVersion env relStore pre pv.1 pv.2 st).1)
        (evs ++ (Remote.processVersion env relStore pre pv.1 pv.2 st).2)
        (pre ++ a.version ++ "/" ++ a.file_name)
        (Remote.mkey_shape pre hfz) hg0
      exact goodR_congr hst hg0
    · exact ih _ _ (fun rv hrv => HZ rv (List.mem_cons_of_mem qv hrv)) pv hmem a ha

theorem Remote.processProvider_stable (env : Env) (relStore : Store) (pre : String)
    (vers : List (String × List Remote.Archive)) (st : Store) (k : String)
    (hk : ∃ xs, k.data = (pre.data ++ xs) ++ ['.', 'z', 'i', 'p'])
    (hg : goodR st k) :
    dictGet (Remote.processProvider env relStore pre vers st).1 k = dictGet st k := by
  simp only [Remote.processProvider]
  rw [dictGet_dictSet_ne _ _ (Ne.symm (zipShape_ne_indexDoc hk))]
  exact Remote.foldVers_stable env relStore pre vers st [] k hk hg

theorem Remote.processProvider_goodR (env : Env) (relStore : Store) (pre : String)
    (HR : ∀ b, env.hashContent b ≠ "") (vers : List (String × List Remote.Archive))
    (st : Store)
    (HZ : ∀ pv ∈ vers, ∀ a ∈ pv.2, ∃ xs, a.file_name.data = xs ++ ['.', 'z', 'i', 'p'])
    (pv : String × List Remote.Archive) (hpv : pv ∈ vers)
    (a : Remote.Archive) (ha : a ∈ pv.2) :
    goodR (Remote.processProvider env relStore pre vers st).1
      (pre ++ a.version ++ "/" ++ a.file_name) := by
  simp only [Remote.processProvider]
  refine goodR_congr (dictGet_dictSet_ne _ _
    (Ne.symm (zipShape_ne_indexDoc (Remote.mkey_shape pre (HZ pv hpv a ha))))) ?_
  exact Remote.foldVers_goodR env relStore pre HR vers st [] HZ pv hpv a ha

theorem Remote.foldProv_stable (env : Env) (relStore : Store) (pre : String)
    (c : List (String × List (String × List Remote.Archive))) :
    ∀ (st : Store) (evs : List Ev) (k : String),
    (∃ xs, k.data = (pre.data ++ xs) ++ ['.', 'z', 'i', 'p']) → goodR st k →
    dictGet (c.foldl (Remote.provStep env relStore pre) (st, evs)).1 k = dictGet st k := by
  induction c with
  | nil => intro st evs k _ _; rfl
  | cons pv c ih =>
    intro st evs k hk hg
    simp only [List.foldl_cons, Remote.provStep]
    have h0 := Remote.processProvider_stable env relStore pre pv.2 st k hk hg
    rw [ih _ _ k hk (goodR_congr h0 hg), h0]

theorem Remote.foldProv_goodR (env : Env) (relStore : Store) (pre : String)
    (HR : ∀ b, env.hashContent b ≠ "")
    (c : List (String × List (String × List Remote.Archive))) :
    ∀ (st : Store) (evs : List Ev),
    (∀ pv ∈ c, ∀ vd ∈ pv.2, ∀ a ∈ vd.2,
      ∃ xs, a.file_name.data = xs ++ ['.', 'z', 'i', 'p']) →
    ∀ pv ∈ c, ∀ vd ∈ pv.2, ∀ a ∈ vd.2,
    goodR (c.foldl (Remote.provStep env relStore pre) (st, evs)).1
      (pre ++ a.version ++ "/" ++ a.file_name) := by
  induction c with
  | nil => intro st evs _ pv hpv; simp at hpv
  | cons qv c ih =>
    intro st evs HZ pv hpv vd hvd a ha
    simp only [List.foldl_cons, Remote.provStep]
    rcases List.mem_cons.mp hpv with rfl | hmem
    · have hfz := HZ pv (List.mem_cons_self pv c) vd hvd a ha
      have hg0 := Remote.processProvider_goodR env relStore pre HR pv.2 st
        (fun wd hwd b hb => HZ pv (List.mem_cons_self pv c) wd hwd b hb) vd hvd a ha
      have hst := Remote.foldProv_stable env relStore pre c
        ((Remote.processProvider env relStore pre pv.2 st).1)
        (evs ++ (Remote.processProvider env relStore pre pv.2 st).2)
        (pre ++ a.version ++ "/" ++ a.file_name)
        (Remote.mkey_shape pre hfz) hg0
      exact goodR_congr hst hg0
    · exact ih _ _ (fun rv hrv => HZ rv (List.mem_cons_of_mem qv hrv)) pv hmem vd hvd a ha

theorem Remote.sync_stable (env : Env) (relStore : Store) (pre : String)
    (listing : List String) (st : Store) (k : String)
    (hk : ∃ xs, k.data = (pre.data ++ xs) ++ ['.', 'z', 'i', 'p'])
    (hg : goodR st k) :
    dictGet (Remote.sync env relStore pre listing st).1 k = dictGet st k := by
  unfold Remote.sync
  exact Remote.foldProv_stable env relStore pre _ st [] k hk hg

theorem Remote.canon_allParsed (listing : List String)
    {pv : String × List (String × List Remote.Archive)}
    (hpv : pv ∈ canonGroups Remote.Archive.leB
      (buildGroups Remote.Archive.parse (·.provider) (·.version) listing))
    {vd : String × List Remote.Archive} (hvd : vd ∈ pv.2)
    {a : Remote.Archive} (ha : a ∈ vd.2) :
    a ∈ allParsed Remote.Archive.parse listing := by
  have hm := canonGroups_mem Remote.Archive.leB _ hpv hvd ha
  have hchar := (memGroups_buildGroups Remote.Archive.parse (·.provider) (·.version)
    listing pv.1 vd.1 a []).mp hm
  rcases hchar with h | ⟨⟨i, hi, hib⟩, _, _⟩
  · exact absurd h (memGroups_nil _ _ _)
  · exact List.mem_filterMap.mpr ⟨i, hi, hib⟩

theorem Remote.canon_zip (listing : List String)
    {pv : String × List (String × List Remote.Archive)}
    (hpv : pv ∈ canonGroups Remote.Archive.leB
      (buildGroups Remote.Archive.parse (·.provider) (·.version) listing))
    {vd : String × List Remote.Archive} (hvd : vd ∈ pv.2)
    {a : Remote.Archive} (ha : a ∈ vd.2) :
    ∃ xs, a.file_name.data = xs ++ ['.', 'z', 'i', 'p'] := by
  obtain ⟨i, _, hib⟩ :=
    List.mem_filterMap.mp (Remote.canon_allParsed listing hpv hvd ha)
  exact Remote.parse_zipR hib

theorem Remote.sync_goodR (env : Env) (relStore : Store) (pre : String)
    (listing : List String) (st : Store)
    (HR : ∀ b, env.hashContent b ≠ "") :
    ∀ pv ∈ canonGroups Remote.Archive.leB
        (buildGroups Remote.Archive.parse (·.provider) (·.version) listing),
    ∀ vd ∈ pv.2, ∀ a ∈ vd.2,
    goodR (Remote.sync env relStore pre listing st).1
      (pre ++ a.version ++ "/" ++ a.file_name) := by
  intro pv hpv vd hvd a ha
  unfold Remote.sync
  exact Remote.foldProv_goodR env relStore pre HR _ st []
    (fun qv hqv wd hwd b hb => Remote.canon_zip listing hqv hwd hb) pv hpv vd hvd a ha

/-! ## Remote second-run lemmas: no copies when fingerprints are cached -/

theorem Remote.processVersion_copies (env : Env) (relStore : Store) (pre v : String)
    (archs : List Remote.Archive) (st : Store)
    (hGood : ∀ a ∈ archs, goodR st (pre ++ a.version ++ "/" ++ a.file_name)) :
    copiesOf (Remote.processVersion env relStore pre v archs st).2 = [] := by
  simp only [Remote.processVersion, Remote.processArchives]
  rw [Remote.foldArch_nocopy env relStore pre archs [] st [] hGood]
  rfl

theorem Remote.foldVers_copies (env : Env) (relStore : Store) (pre : String)
    (vers : List (String × List Remote.Archive)) :
    ∀ (st : Store) (evs : List Ev),
    (∀ pv ∈ vers, ∀ a ∈ pv.2, ∃ xs, a.file_name.data = xs ++ ['.', 'z', 'i', 'p']) →
    (∀ pv ∈ vers, ∀ a ∈ pv.2, goodR st (pre ++ a.version ++ "/" ++ a.file_name)) →
    copiesOf (vers.foldl (Remote.verStep env relStore pre) (st, evs)).2 = copiesOf evs := by
  induction vers with
  | nil => intro st evs _ _; rfl
  | cons pv vers ih =>
    intro st evs HZ hGood
    simp only [List.foldl_cons, Remote.verStep]
    have h0 := Remote.processVersion_copies env relStore pre pv.1 pv.2 st
      (fun a ha => hGood pv (List.mem_cons_self pv vers) a ha)
    rw [ih _ _ (fun qv hqv => HZ qv (List.mem_cons_of_mem pv hqv))
      (fun qv hqv a ha =>
        goodR_congr
          (Remote.processVersion_stable env relStore pre pv.1 pv.2 st _
            (Remote.mkey_shape pre (HZ qv (List.mem_cons_of_mem pv hqv) a ha))
            (hGood qv (List.mem_cons_of_mem pv hqv) a ha))
          (hGood qv (List.mem_cons_of_mem pv hqv) a ha))]
    rw [copiesOf_append, h0]
    simp

theorem Remote.processProvider_copies (env : Env) (relStore : Store) (pre : String)
    (vers : List (String × List Remote.Archive)) (st : Store)
    (HZ : ∀ pv ∈ vers, ∀ a ∈ pv.2, ∃ xs, a.file_name.data = xs ++ ['.', 'z', 'i', 'p'])
    (hGood : ∀ pv ∈ vers, ∀ a ∈ pv.2, goodR st (pre ++ a.version ++ "/" ++ a.file_name)) :
    copiesOf (Remote.processProvider env relStore pre vers st).2 = [] := by
  simp only [Remote.processProvider]
  rw [copiesOf_append, Remote.foldVers_copies env relStore pre vers st [] HZ hGood]
  rfl

theorem Remote.foldProv_copies (env : Env) (relStore : Store) (pre : String)
    (c : List (String × List (String × List Remote.Archive))) :
    ∀ (st : Store) (evs : List Ev),
    (∀ pv ∈ c, ∀ vd ∈ pv.2, ∀ a ∈ vd.2,
      ∃ xs, a.file_name.data = xs ++ ['.', 'z', 'i', 'p']) →
    (∀ pv ∈ c, ∀ vd ∈ pv.2, ∀ a ∈ vd.2,
      goodR st (pre ++ a.version ++ "/" ++ a.file_name)) →
    copiesOf (c.foldl (Remote.provStep env relStore pre) (st, evs)).2 = copiesOf evs := by
  induction c with
  | nil => intro st evs _ _; rfl
  | cons pv c ih =>
    intro st evs HZ hGood
    simp only [List.foldl_cons, Remote.provStep]
    have h0 := Remote.processProvider_copies env relStore pre pv.2 st
      (fun vd hvd a ha => HZ pv (List.mem_cons_self pv c) vd hvd a ha)
      (fun vd hvd a ha => hGood pv (List.mem_cons_self pv c) vd hvd a ha)
    rw [ih _ _ (fun qv hqv => HZ qv (List.mem_cons_of_mem pv hqv))
      (fun qv hqv vd hvd a ha =>
        goodR_congr
          (Remote.processProvider_stable env relStore pre pv.2 st _
            (Remote.mkey_shape pre (HZ qv (List.mem_cons_of_mem pv hqv) vd hvd a ha))
            (hGood qv (List.mem_cons_of_mem pv hqv) vd hvd a ha))
          (hGood qv (List.mem_cons_of_mem pv hqv) vd hvd a ha))]
    rw [copiesOf_append, h0]
    simp

theorem Remote.sync_nocopyR (env : Env) (relStore : Store) (pre : String)
    (listing : List String) (st : Store)
    (hGood : ∀ pv ∈ canonGroups Remote.Archive.leB
        (buildGroups Remote.Archive.parse (·.provider) (·.version) listing),
      ∀ vd ∈ pv.2, ∀ a ∈ vd.2,
      goodR st (pre ++ a.version ++ "/" ++ a.file_name)) :
    copiesOf (Remote.sync env relStore pre listing st).2 = [] := by
  unfold Remote.sync
  exact Remote.foldProv_copies env relStore pre _ st []
    (fun qv hqv wd hwd b hb => Remote.canon_zip listing hqv hwd hb) hGood

/-! ## Remote document characterization under non-empty fingerprints -/

theorem entriesSpec_congr (val val' : Remote.Archive → String)
    (archs : List Remote.Archive) (h : ∀ a ∈ archs, val a = val' a) :
    Remote.entriesSpec val archs = Remote.entriesSpec val' archs := by
  unfold Remote.entriesSpec
  exact entriesFold_congr (fun a => a.os ++ "_" ++ a.arch)
    (fun a => a.version ++ "/" ++ a.file_name) val val' archs [] h

theorem docsSpec_congr (pre : String)
    (c : List (String × List (String × List Remote.Archive)))
    (val val' : Remote.Archive → String)
    (h : ∀ pv ∈ c, ∀ vd ∈ pv.2, ∀ a ∈ vd.2, val a = val' a) :
    Remote.docsSpec pre c val = Remote.docsSpec pre c val' := by
  induction c with
  | nil => rfl
  | cons pv c ih =>
    simp only [Remote.docsSpec, List.flatMap_cons] at ih ⊢
    rw [ih (fun qv hqv => h qv (List.mem_cons_of_mem pv hqv))]
    congr 2
    apply List.map_congr_left
    intro vd hvd
    rw [entriesSpec_congr _ _ _ (fun a ha => h pv (List.mem_cons_self pv c) vd hvd a ha)]

theorem Remote.processVersion_puts_ex (env : Env) (relStore : Store) (pre : String)
    (HR : ∀ b, env.hashContent b ≠ "") (v : String) (archs : List Remote.Archive)
    (hnd : archs.Nodup) (st : Store) :
    ∃ val : Remote.Archive → String,
      putsOf (Remote.processVersion env relStore pre v archs st).2 =
        [(pre ++ v ++ ".json", dumpVersionDoc (Remote.entriesSpec val archs))] ∧
      ∀ a ∈ archs, (∃ xs, a.file_name.data = xs ++ ['.', 'z', 'i', 'p']) →
        val a = metaVal (Remote.processVersion env relStore pre v archs st).1
          (pre ++ a.version ++ "/" ++ a.file_name) := by
  obtain ⟨val, hes, hval⟩ :=
    Remote.foldArch_entries_ex env relStore pre HR archs hnd [] st []
  refine ⟨val, ?_, ?_⟩
  · simp only [Remote.processVersion, Remote.processArchives]
    rw [putsOf_append, Remote.foldArch_putsR, hes]
    rfl
  · intro a ha hfz
    simp only [Remote.processVersion, Remote.processArchives]
    rw [metaVal_congr (dictGet_dictSet_ne _ _
      (Ne.symm (zipShape_ne_verDoc (Remote.mkey_shape pre hfz))))]
    exact hval a ha

theorem Remote.foldVers_puts_ex (env : Env) (relStore : Store) (pre : String)
    (HR : ∀ b, env.hashContent b ≠ "") (vers : List (String × List Remote.Archive)) :
    ∀ (st : Store) (evs : List Ev),
    (∀ pv ∈ vers, pv.2.Nodup) →
    (∀ pv ∈ vers, ∀ a ∈ pv.2, ∃ xs, a.file_name.data = xs ++ ['.', 'z', 'i', 'p']) →
    ∃ val : Remote.Archive → String,
      putsOf (vers.foldl (Remote.verStep env relStore pre) (st, evs)).2 =
        putsOf evs ++ vers.map (fun pv =>
          (pre ++ pv.1 ++ ".json", dumpVersionDoc (Remote.entriesSpec val pv.2))) ∧
      ∀ pv ∈ vers, ∀ a ∈ pv.2,
        val a = metaVal (vers.foldl (Remote.verStep env relStore pre) (st, evs)).1
          (pre ++ a.version ++ "/" ++ a.file_name) := by
  induction vers with
  | nil =>
    intro st evs _ _
    exact ⟨fun _ => "", by simp, by simp⟩
  | cons pv vers ih =>
    intro st evs hnd HZ
    simp only [List.foldl_cons, Remote.verStep]
    have hnd0 : pv.2.Nodup := hnd pv (List.mem_cons_self pv vers)
    have HZ0 : ∀ a ∈ pv.2, ∃ xs, a.file_name.data = xs ++ ['.', 'z', 'i', 'p'] :=
      HZ pv (List.mem_cons_self pv vers)
    obtain ⟨val0, hp0, hv0⟩ :=
      Remote.processVersion_puts_ex env relStore pre HR pv.1 pv.2 hnd0 st
    obtain ⟨val1, hp1, hv1⟩ := ih
      ((Remote.processVersion env relStore pre pv.1 pv.2 st).1)
      (evs ++ (Remote.processVersion env relStore pre pv.1 pv.2 st).2)
      (fun qv hqv => hnd qv (List.mem_cons_of_mem pv hqv))
      (fun qv hqv => HZ qv (List.mem_cons_of_mem pv hqv))
    have hstab : ∀ a ∈ pv.2,
        metaVal (vers.foldl (Remote.verStep env relStore pre)
          ((Remote.processVersion env relStore pre pv.1 pv.2 st).1,
            evs ++ (Remote.processVersion env relStore pre pv.1 pv.2 st).2)).1
          (pre ++ a.version ++ "/" ++ a.file_name) =
        metaVal (Remote.processVersion env relStore pre pv.1 pv.2 st).1
          (pre ++ a.version ++ "/" ++ a.file_name) := by
      intro a ha
      have hg := Remote.processVersion_goodR env relStore pre HR pv.1 pv.2 st a ha
        (HZ0 a ha)
      exact metaVal_congr (Remote.foldVers_stable env relStore pre vers
        ((Remote.processVersion env relStore pre pv.1 pv.2 st).1)
        (evs ++ (Remote.processVersion env relStore pre pv.1 pv.2 st).2)
        (pre ++ a.version ++ "/" ++ a.file_name)
        (Remote.mkey_shape pre (HZ0 a ha)) hg)
    refine ⟨fun x => if x ∈ pv.2 then val0 x else val1 x, ?_, ?_⟩
    · rw [hp1, putsOf_append, hp0]
      simp only [List.map_cons, List.append_assoc, List.singleton_append]
      congr 1
      congr 1
      · have hcongr : Remote.entriesSpec val0 pv.2 =
            Remote.entriesSpec (fun x => if x ∈ pv.2 then val0 x else val1 x) pv.2 :=
          entriesSpec_congr _ _ _ (fun a ha => by simp [ha])
        rw [hcongr]
      · apply List.map_congr_left
        intro qv hqv
        have hcongr : Remote.entriesSpec val1 qv.2 =
            Remote.entriesSpec (fun x => if x ∈ pv.2 then val0 x else val1 x) qv.2 := by
          apply entriesSpec_congr
          intro a ha
          by_cases hmem : a ∈ pv.2
          · simp only [if_pos hmem]
            exact (hv1 qv hqv a ha).trans
              ((hstab a hmem).trans (hv0 a hmem (HZ0 a hmem)).symm)
          · simp [hmem]
        rw [hcongr]
    · intro qv hqv a ha
      rcases List.mem_cons.mp hqv with rfl | hmem
      · simp only [if_pos ha]
        exact (hv0 a ha (HZ0 a ha)).trans (hstab a ha).symm
      · by_cases hmem2 : a ∈ pv.2
        · simp only [if_pos hmem2]
          exact (hv0 a hmem2 (HZ0 a hmem2)).trans (hstab a hmem2).symm
        · simp only [if_neg hmem2]
          exact hv1 qv hmem a ha

theorem docsSpec_cons (pre : String) (pv : String × List (String × List Remote.Archive))
    (c : List (String × List (String × List Remote.Archive)))
    (val : Remote.Archive → String) :
    Remote.docsSpec pre (pv :: c) val =
      (pv.2.map (fun vd =>
        (pre ++ vd.1 ++ ".json", dumpVersionDoc (Remote.entriesSpec val vd.2))) ++
        [(pre ++ "index.json", dumpIndexDoc (pv.2.map Prod.fst))]) ++
        Remote.docsSpec pre c val := by
  simp [Remote.docsSpec]

theorem Remote.processProvider_puts_ex (env : Env) (relStore : Store) (pre : String)
    (HR : ∀ b, env.hashContent b ≠ "") (vers : List (String × List Remote.Archive))
    (st : Store) (hnd : ∀ pv ∈ vers, pv.2.Nodup)
    (HZ : ∀ pv ∈ vers, ∀ a ∈ pv.2, ∃ xs, a.file_name.data = xs ++ ['.', 'z', 'i', 'p']) :
    ∃ val : Remote.Archive → String,
      putsOf (Remote.processProvider env relStore pre vers st).2 =
        vers.map (fun pv =>
          (pre ++ pv.1 ++ ".json", dumpVersionDoc (Remote.entriesSpec val pv.2))) ++
          [(pre ++ "index.json", dumpIndexDoc (vers.map Prod.fst))] ∧
      ∀ pv ∈ vers, ∀ a ∈ pv.2,
        val a = metaVal (Remote.processProvider env relStore pre vers st).1
          (pre ++ a.version ++ "/" ++ a.file_name) := by
  obtain ⟨val, hp, hv⟩ := Remote.foldVers_puts_ex env relStore pre HR vers st [] hnd HZ
  refine ⟨val, ?_, ?_⟩
  · simp only [Remote.processProvider]
    rw [putsOf_append, hp]
    rfl
  · intro pv hpv a ha
    simp only [Remote.processProvider]
    rw [metaVal_congr (dictGet_dictSet_ne _ _
      (Ne.symm (zipShape_ne_indexDoc (Remote.mkey_shape pre (HZ pv hpv a ha)))))]
    exact hv pv hpv a ha

theorem Remote.foldProv_puts_ex (env : Env) (relStore : Store) (pre : String)
    (HR : ∀ b, env.hashContent b ≠ "")
    (c : List (String × List (String × List Remote.Archive))) :
    ∀ (st : Store) (evs : List Ev),
    (∀ pv ∈ c, ∀ vd ∈ pv.2, vd.2.Nodup) →
    (∀ pv ∈ c, ∀ vd ∈ pv.2, ∀ a ∈ vd.2,
      ∃ xs, a.file_name.data = xs ++ ['.', 'z', 'i', 'p']) →
    ∃ val : Remote.Archive → String,
      putsOf (c.foldl (Remote.provStep env relStore pre) (st, evs)).2 =
        putsOf evs ++ Remote.docsSpec pre c val ∧
      ∀ pv ∈ c, ∀ vd ∈ pv.2, ∀ a ∈ vd.2,
        val a = metaVal (c.foldl (Remote.provStep env relStore pre) (st, evs)).1
          (pre ++ a.version ++ "/" ++ a.file_name) := by
  induction c with
  | nil =>
    intro st evs _ _
    exact ⟨fun _ => "", by simp [Remote.docsSpec], by simp⟩
  | cons pv c ih =>
    intro st evs hnd HZ
    simp only [List.foldl_cons, Remote.provStep]
    have hnd0 : ∀ vd ∈ pv.2, vd.2.Nodup := hnd pv (List.mem_cons_self pv c)
    have HZ0 : ∀ vd ∈ pv.2, ∀ a ∈ vd.2,
        ∃ xs, a.file_name.data = xs ++ ['.', 'z', 'i', 'p'] :=
      HZ pv (List.mem_cons_self pv c)
    obtain ⟨val0, hp0, hv0⟩ :=
      Remote.processProvider_puts_ex env relStore pre HR pv.2 st hnd0 HZ0
    obtain ⟨val1, hp1, hv1⟩ := ih
      ((Remote.processProvider env relStore pre pv.2 st).1)
      (evs ++ (Remote.processProvider env relStore pre pv.2 st).2)
      (fun qv hqv => hnd qv (List.mem_cons_of_mem pv hqv))
      (fun qv hqv => HZ qv (List.mem_cons_of_mem pv hqv))
    have hstab : ∀ vd ∈ pv.2, ∀ a ∈ vd.2,
        metaVal (c.foldl (Remote.provStep env relStore pre)
          ((Remote.processProvider env relStore pre pv.2 st).1,
            evs ++ (Remote.processProvider env relStore pre pv.2 st).2)).1
          (pre ++ a.version ++ "/" ++ a.file_name) =
        metaVal (Remote.processProvider env relStore pre pv.2 st).1
          (pre ++ a.version ++ "/" ++ a.file_name) := by
      intro vd hvd a ha
      have hg := Remote.processProvider_goodR env relStore pre HR pv.2 st HZ0 vd hvd a ha
      exact metaVal_congr (Remote.foldProv_stable env relStore pre c
        ((Remote.processProvider env relStore pre pv.2 st).1)
        (evs ++ (Remote.processProvider env relStore pre pv.2 st).2)
        (pre ++ a.version ++ "/" ++ a.file_name)
        (Remote.mkey_shape pre (HZ0 vd hvd a ha)) hg)
    have hcvals : ∀ qv ∈ c, ∀ vd ∈ qv.2, ∀ a ∈ vd.2,
        val1 a = if a ∈ pv.2.flatMap (fun vd => vd.2) then val0 a else val1 a := by
      intro qv hqv vd hvd a ha
      by_cases hmem : a ∈ pv.2.flatMap (fun vd => vd.2)
      · simp only [if_pos hmem]
        obtain ⟨wd, hwd, haw⟩ := List.mem_flatMap.mp hmem
        exact (hv1 qv hqv vd hvd a ha).trans
          ((hstab wd hwd a haw).trans (hv0 wd hwd a haw).symm)
      · simp [hmem]
    have hmapcongr : pv.2.map (fun vd =>
          (pre ++ vd.1 ++ ".json", dumpVersionDoc (Remote.entriesSpec val0 vd.2))) =
        pv.2.map (fun vd =>
          (pre ++ vd.1 ++ ".json", dumpVersionDoc (Remote.entriesSpec
            (fun x => if x ∈ pv.2.flatMap (fun vd => vd.2) then val0 x else val1 x)
            vd.2))) := by
      apply List.map_congr_left
      intro vd hvd
      have hcongr : Remote.entriesSpec val0 vd.2 =
          Remote.entriesSpec
            (fun x => if x ∈ pv.2.flatMap (fun vd => vd.2) then val0 x else val1 x)
            vd.2 :=
        entriesSpec_congr _ _ _ (fun a ha => by
          have hx : a ∈ pv.2.flatMap (fun vd => vd.2) := List.mem_flatMap.mpr ⟨vd, hvd, ha⟩
          simp [hx])
      rw [hcongr]
    refine ⟨fun x => if x ∈ pv.2.flatMap (fun vd => vd.2) then val0 x else val1 x, ?_, ?_⟩
    · rw [hp1, putsOf_append, hp0, docsSpec_cons,
        docsSpec_congr pre c val1 _ hcvals, hmapcongr]
      simp [List.append_assoc]
    · intro qv hqv vd hvd a ha
      rcases List.mem_cons.mp hqv with rfl | hmem
      · have hx : a ∈ qv.2.flatMap (fun vd => vd.2) := List.mem_flatMap.mpr ⟨vd, hvd, ha⟩
        simp only [if_pos hx]
        exact (hv0 vd hvd a ha).trans (hstab vd hvd a ha).symm
      · by_cases hmem2 : a ∈ pv.2.flatMap (fun vd => vd.2)
        · simp only [if_pos hmem2]
          obtain ⟨wd, hwd, haw⟩ := List.mem_flatMap.mp hmem2
          exact (hv0 wd hwd a haw).trans (hstab wd hwd a haw).symm
        · simp only [if_neg hmem2]
          exact hv1 qv hmem vd hvd a ha

theorem Remote.sync_puts_spec (env : Env) (relStore : Store) (pre : String)
    (listing : List String) (st : Store) (HR : ∀ b, env.hashContent b ≠ "") :
    putsOf (Remote.sync env relStore pre listing st).2 =
      Remote.docsSpec pre
        (canonGroups Remote.Archive.leB
          (buildGroups Remote.Archive.parse (·.provider) (·.version) listing))
        (fun a => metaVal (Remote.sync env relStore pre listing st).1
          (pre ++ a.version ++ "/" ++ a.file_name)) := by
  have hwf := canonGroups_wf Remote.Archive.leB
    (buildGroups Remote.Archive.parse (·.provider) (·.version) listing)
    (groupsWF_buildGroups Remote.Archive.parse (·.provider) (·.version) listing)
  obtain ⟨val, hp, hv⟩ := Remote.foldProv_puts_ex env relStore pre HR
    (canonGroups Remote.Archive.leB
      (buildGroups Remote.Archive.parse (·.provider) (·.version) listing))
    st []
    (fun pv hpv vd hvd => (hwf.2 pv hpv).2 vd hvd)
    (fun pv hpv vd hvd a ha => Remote.canon_zip listing hpv hvd ha)
  unfold Remote.sync
  rw [hp]
  exact docsSpec_congr pre _ val _ hv

/-! ## Remote document structure, independent of fingerprint values -/

theorem flatMap_congr_mem {α β : Type} (l : List α) (f g : α → List β)
    (h : ∀ x ∈ l, f x = g x) : l.flatMap f = l.flatMap g := by
  induction l with
  | nil => rfl
  | cons x l ih =>
    simp only [List.flatMap_cons]
    rw [h x (List.mem_cons_self x l), ih (fun y hy => h y (List.mem_cons_of_mem x hy))]

theorem foldKeys_eq_dedup {α : Type} (f : α → String) (l : List α) :
    l.foldl (fun ks a => if f a ∈ ks then ks else ks ++ [f a]) [] =
      dedupKeys (l.map f) := by
  unfold dedupKeys
  rw [List.foldl_map]

theorem Remote.processVersion_puts_abs (env : Env) (relStore : Store) (pre v : String)
    (archs : List Remote.Archive) (st : Store) :
    ∃ es : List (String × String × String),
      putsOf (Remote.processVersion env relStore pre v archs st).2 =
        [(pre ++ v ++ ".json", dumpVersionDoc es)] ∧
      dictKeys es = dedupKeys (archs.map (fun a => a.os ++ "_" ++ a.arch)) := by
  refine ⟨(Remote.processArchives env relStore pre archs st).1, ?_, ?_⟩
  · simp only [Remote.processVersion]
    rw [putsOf_append]
    have h1 : putsOf (Remote.processArchives env relStore pre archs st).2.2 = [] := by
      simp only [Remote.processArchives]
      rw [Remote.foldArch_putsR]
      rfl
    rw [h1]
    rfl
  · simp only [Remote.processArchives]
    rw [Remote.foldArch_keys]
    exact foldKeys_eq_dedup (fun a => a.os ++ "_" ++ a.arch) archs

theorem Remote.foldVers_puts_abs (env : Env) (relStore : Store) (pre : String)
    (vers : List (String × List Remote.Archive)) :
    ∀ (st : Store) (evs : List Ev),
    (vers.map Prod.fst).Nodup →
    ∃ E : String → List (String × String × String),
      putsOf (vers.foldl (Remote.verStep env relStore pre) (st, evs)).2 =
        putsOf evs ++ vers.map (fun pv =>
          (pre ++ pv.1 ++ ".json", dumpVersionDoc (E pv.1))) ∧
      ∀ pv ∈ vers, dictKeys (E pv.1) =
        dedupKeys (pv.2.map (fun a => a.os ++ "_" ++ a.arch)) := by
  induction vers with
  | nil =>
    intro st evs _
    exact ⟨fun _ => [], by simp, by simp⟩
  | cons pv vers ih =>
    intro st evs hnd
    simp only [List.foldl_cons, Remote.verStep]
    have hnd' : pv.1 ∉ vers.map Prod.fst ∧ (vers.map Prod.fst).Nodup := by
      rw [List.map_cons, List.nodup_cons] at hnd
      exact hnd
    obtain ⟨es0, hp0, hk0⟩ :=
      Remote.processVersion_puts_abs env relStore pre pv.1 pv.2 st
    obtain ⟨E1, hp1, hk1⟩ := ih
      ((Remote.processVersion env relStore pre pv.1 pv.2 st).1)
      (evs ++ (Remote.processVersion env relStore pre pv.1 pv.2 st).2)
      hnd'.2
    refine ⟨fun p => if p = pv.1 then es0 else E1 p, ?_, ?_⟩
    · rw [hp1, putsOf_append, hp0]
      simp only [List.map_cons, List.append_assoc, List.singleton_append]
      congr 2
      apply List.map_congr_left
      intro qv hqv
      have hne : qv.1 ≠ pv.1 := by
        intro he
        exact hnd'.1 (he ▸ List.mem_map.mpr ⟨qv, hqv, rfl⟩)
      simp [hne]
    · intro qv hqv
      rcases List.mem_cons.mp hqv with rfl | hmem
      · simpa using hk0
      · have hne : qv.1 ≠ pv.1 := by
          intro he
          exact hnd'.1 (he ▸ List.mem_map.mpr ⟨qv, hmem, rfl⟩)
        simpa [hne] using hk1 qv hmem

theorem Remote.processProvider_puts_abs (env : Env) (relStore : Store) (pre : String)
    (vers : List (String × List Remote.Archive)) (st : Store)
    (hnd : (vers.map Prod.fst).Nodup) :
    ∃ E : String → List (String × String × String),
      putsOf (Remote.processProvider env relStore pre vers st).2 =
        vers.map (fun pv => (pre ++ pv.1 ++ ".json", dumpVersionDoc (E pv.1))) ++
          [(pre ++ "index.json", dumpIndexDoc (vers.map Prod.fst))] ∧
      ∀ pv ∈ vers, dictKeys (E pv.1) =
        dedupKeys (pv.2.map (fun a => a.os ++ "_" ++ a.arch)) := by
  obtain ⟨E, hp, hk⟩ := Remote.foldVers_puts_abs env relStore pre vers st [] hnd
  refine ⟨E, ?_, hk⟩
  simp only [Remote.processProvider]
  rw [putsOf_append, hp]
  rfl

theorem Remote.foldProv_puts_abs (env : Env) (relStore : Store) (pre : String)
    (c : List (String × List (String × List Remote.Archive))) :
    ∀ (st : Store) (evs : List Ev),
    (c.map Prod.fst).Nodup →
    (∀ pv ∈ c, (pv.2.map Prod.fst).Nodup) →
    ∃ E : String → String → List (String × String × String),
      putsOf (c.foldl (Remote.provStep env relStore pre) (st, evs)).2 =
        putsOf evs ++ c.flatMap (fun pv =>
          pv.2.map (fun vd =>
            (pre ++ vd.1 ++ ".json", dumpVersionDoc (E pv.1 vd.1))) ++
            [(pre ++ "index.json", dumpIndexDoc (pv.2.map Prod.fst))]) ∧
      ∀ pv ∈ c, ∀ vd ∈ pv.2, dictKeys (E pv.1 vd.1) =
        dedupKeys (vd.2.map (fun a => a.os ++ "_" ++ a.arch)) := by
  induction c with
  | nil =>
    intro st evs _ _
    exact ⟨fun _ _ => [], by simp, by simp⟩
  | cons pv c ih =>
    intro st evs hnd hvnd
    simp only [List.foldl_cons, Remote.provStep]
    have hnd' : pv.1 ∉ c.map Prod.fst ∧ (c.map Prod.fst).Nodup := by
      rw [List.map_cons, List.nodup_cons] at hnd
      exact hnd
    obtain ⟨E0, hp0, hk0⟩ := Remote.processProvider_puts_abs env relStore pre pv.2 st
      (hvnd pv (List.mem_cons_self pv c))
    obtain ⟨E1, hp1, hk1⟩ := ih
      ((Remote.processProvider env relStore pre pv.2 st).1)
      (evs ++ (Remote.processProvider env relStore pre pv.2 st).2)
      hnd'.2 (fun qv hqv => hvnd qv (List.mem_cons_of_mem pv hqv))
    refine ⟨fun p => if p = pv.1 then E0 else E1 p, ?_, ?_⟩
    · rw [hp1, putsOf_append, hp0]
      simp only [List.flatMap_cons, List.append_assoc]
      congr 1
      congr 1
      congr 1
      apply flatMap_congr_mem
      intro qv hqv
      have hne : qv.1 ≠ pv.1 := by
        intro he
        exact hnd'.1 (he ▸ List.mem_map.mpr ⟨qv, hqv, rfl⟩)
      simp [hne]
    · intro qv hqv vd hvd
      rcases List.mem_cons.mp hqv with rfl | hmem
      · simpa using hk0 vd hvd
      · have hne : qv.1 ≠ pv.1 := by
          intro he
          exact hnd'.1 (he ▸ List.mem_map.mpr ⟨qv, hmem, rfl⟩)
        simpa [hne] using hk1 qv hmem vd hvd

/-! ## Order properties of the Python comparison chains -/

theorem charToNat_inj {c d : Char} (h : c.toNat = d.toNat) : c = d :=
  Char.ext (UInt32.ext h)

theorem charLtB_irrefl (c : Char) : charLtB c c = false := by
  simp [charLtB]

theorem charLtB_trans {a b c : Char} (h1 : charLtB a b = true)
    (h2 : charLtB b c = true) : charLtB a c = true := by
  simp only [charLtB, decide_eq_true_eq] at h1 h2 ⊢
  omega

theorem charLtB_trichotomy (c d : Char) :
    charLtB c d = true ∨ charLtB d c = true ∨ c = d := by
  unfold charLtB
  rcases Nat.lt_trichotomy c.toNat d.toNat with h | h | h
  · exact Or.inl (by simpa using h)
  · exact Or.inr (Or.inr (charToNat_inj h))
  · exact Or.inr (Or.inl (by simpa using h))

theorem charLtB_asymm {c d : Char} (h : charLtB c d = true) : charLtB d c = false := by
  simp only [charLtB, decide_eq_true_eq] at h
  simp only [charLtB, decide_eq_false_iff_not]
  omega

theorem listLtB_irrefl : ∀ l : List Char, listLtB l l = false
  | [] => rfl
  | c :: cs => by
    simp [listLtB, charLtB_irrefl c, listLtB_irrefl cs]

theorem listLtB_asymm : ∀ {l₁ l₂ : List Char},
    listLtB l₁ l₂ = true → listLtB l₂ l₁ = false
  | _, [], h => by simp [listLtB] at h
  | [], _ :: _, _ => rfl
  | c :: cs, d :: ds, h => by
    simp only [listLtB] at h ⊢
    by_cases hcd : charLtB c d = true
    · have hdc := charLtB_asymm hcd
      rw [if_neg (by simp [hdc]), if_pos hcd]
    · rw [if_neg hcd] at h
      by_cases hdc : charLtB d c = true
      · rw [if_pos hdc] at h
        exact absurd h (by simp)
      · rw [if_neg hdc] at h
        rw [if_neg hdc, if_neg hcd]
        exact listLtB_asymm h

theorem listLtB_trans : ∀ {l₁ l₂ l₃ : List Char},
    listLtB l₁ l₂ = true → listLtB l₂ l₃ = true → listLtB l₁ l₃ = true
  | _, _, [], _, h2 => by simp [listLtB] at h2
  | _, [], _ :: _, h1, _ => by simp [listLtB] at h1
  | [], _ :: _, _ :: _, _, _ => rfl
  | a :: as, b :: bs, c :: cs, h1, h2 => by
    simp only [listLtB] at h1 h2 ⊢
    by_cases hab : charLtB a b = true
    · by_cases hbc : charLtB b c = true
      · rw [if_pos (charLtB_trans hab hbc)]
      · rw [if_neg hbc] at h2
        by_cases hcb : charLtB c b = true
        · rw [if_pos hcb] at h2
          exact absurd h2 (by simp)
        · rw [if_neg hcb] at h2
          have hbceq : b = c := by
            rcases charLtB_trichotomy b c with h | h | h
            · exact absurd h hbc
            · exact absurd h hcb
            · exact h
          rw [← hbceq, if_pos hab]
    · rw [if_neg hab] at h1
      by_cases hba : charLtB b a = true
      · rw [if_pos hba] at h1
        exact absurd h1 (by simp)
      · rw [if_neg hba] at h1
        have habeq : a = b := by
          rcases charLtB_trichotomy a b with h | h | h
          · exact absurd h hab
          · exact absurd h hba
          · exact h
        rw [habeq]
        by_cases hbc : charLtB b c = true
        · rw [if_pos hbc]
        · rw [if_neg hbc] at h2 ⊢
          by_cases hcb : charLtB c b = true
          · rw [if_pos hcb] at h2
            exact absurd h2 (by simp)
          · rw [if_neg hcb] at h2 ⊢
            exact listLtB_trans h1 h2

theorem listLtB_trichotomy : ∀ l₁ l₂ : List Char,
    listLtB l₁ l₂ = true ∨ listLtB l₂ l₁ = true ∨ l₁ = l₂
  | [], [] => Or.inr (Or.inr rfl)
  | [], _ :: _ => Or.inl rfl
  | _ :: _, [] => Or.inr (Or.inl rfl)
  | a :: as, b :: bs => by
    rcases charLtB_trichotomy a b with h | h | h
    · exact Or.inl (by simp [listLtB, h])
    · exact Or.inr (Or.inl (by simp [listLtB, h]))
    · subst h
      rcases listLtB_trichotomy as bs with h | h | h
      · exact Or.inl (by simp [listLtB, charLtB_irrefl, h])
      · exact Or.inr (Or.inl (by simp [listLtB, charLtB_irrefl, h]))
      · exact Or.inr (Or.inr (by rw [h]))

theorem strLeB_total (a b : String) : strLeB a b = true ∨ strLeB b a = true := by
  unfold strLeB
  by_cases h : listLtB b.data a.data = true
  · right
    rw [listLtB_asymm h]
    rfl
  · left
    simp only [Bool.not_eq_true] at h
    rw [h]
    rfl

theorem strLeB_trans {a b c : String} (h1 : strLeB a b = true)
    (h2 : strLeB b c = true) : strLeB a c = true := by
  unfold strLeB at h1 h2 ⊢
  simp only [Bool.not_eq_true'] at h1 h2 ⊢
  by_contra hca
  simp only [Bool.not_eq_false] at hca
  rcases listLtB_trichotomy b.data a.data with h | h | h
  · rw [h] at h1
    exact absurd h1 (by simp)
  · have := listLtB_trans hca h
    rw [this] at h2
    exact absurd h2 (by simp)
  · rw [← h] at hca
    rw [hca] at h2
    exact absurd h2 (by simp)

theorem strLeB_antisymm {a b : String} (h1 : strLeB a b = true)
    (h2 : strLeB b a = true) : a = b := by
  unfold strLeB at h1 h2
  simp only [Bool.not_eq_true'] at h1 h2
  rcases listLtB_trichotomy a.data b.data with h | h | h
  · rw [h] at h2
    exact absurd h2 (by simp)
  · rw [h] at h1
    exact absurd h1 (by simp)
  · exact String.ext h

theorem listStrLtB_irrefl : ∀ l : List String, listStrLtB l l = false
  | [] => rfl
  | s :: ss => by
    simp [listStrLtB, listLtB_irrefl, listStrLtB_irrefl ss]

theorem listStrLtB_asymm : ∀ {l₁ l₂ : List String},
    listStrLtB l₁ l₂ = true → listStrLtB l₂ l₁ = false
  | _, [], h => by simp [listStrLtB] at h
  | [], _ :: _, _ => rfl
  | a :: as, b :: bs, h => by
    simp only [listStrLtB] at h ⊢
    by_cases hab : listLtB a.data b.data = true
    · have hba2 := listLtB_asymm hab
      rw [if_neg (by simp [hba2]), if_pos hab]
    · rw [if_neg hab] at h
      by_cases hba : listLtB b.data a.data = true
      · rw [if_pos hba] at h
        exact absurd h (by simp)
      · rw [if_neg hba] at h
        rw [if_neg hba, if_neg hab]
        exact listStrLtB_asymm h

theorem listStrLtB_trichotomy : ∀ l₁ l₂ : List String,
    listStrLtB l₁ l₂ = true ∨ listStrLtB l₂ l₁ = true ∨ l₁ = l₂
  | [], [] => Or.inr (Or.inr rfl)
  | [], _ :: _ => Or.inl rfl
  | _ :: _, [] => Or.inr (Or.inl rfl)
  | a :: as, b :: bs => by
    rcases listLtB_trichotomy a.data b.data with h | h | h
    · exact Or.inl (by simp [listStrLtB, h])
    · exact Or.inr (Or.inl (by simp [listStrLtB, h]))
    · have hab : a = b := String.ext h
      subst hab
      rcases listStrLtB_trichotomy as bs with h2 | h2 | h2
      · exact Or.inl (by simp [listStrLtB, listLtB_irrefl, h2])
      · exact Or.inr (Or.inl (by simp [listStrLtB, listLtB_irrefl, h2]))
      · exact Or.inr (Or.inr (by rw [h2]))

theorem listStrLtB_trans : ∀ {l₁ l₂ l₃ : List String},
    listStrLtB l₁ l₂ = true → listStrLtB l₂ l₃ = true → listStrLtB l₁ l₃ = true
  | _, _, [], _, h2 => by simp [listStrLtB] at h2
  | _, [], _ :: _, h1, _ => by simp [listStrLtB] at h1
  | [], _ :: _, _ :: _, _, _ => rfl
  | a :: as, b :: bs, c :: cs, h1, h2 => by
    simp only [listStrLtB] at h1 h2 ⊢
    by_cases hab : listLtB a.data b.data = true
    · by_cases hbc : listLtB b.data c.data = true
      · rw [if_pos (listLtB_trans hab hbc)]
      · rw [if_neg hbc] at h2
        by_cases hcb : listLtB c.data b.data = true
        · rw [if_pos hcb] at h2
          exact absurd h2 (by simp)
        · rw [if_neg hcb] at h2
          have hbceq : b.data = c.data := by
            rcases listLtB_trichotomy b.data c.data with h | h | h
            · exact absurd h hbc
            · exact absurd h hcb
            · exact h
          rw [if_pos (by rw [← hbceq]; exact hab)]
    · rw [if_neg hab] at h1
      by_cases hba : listLtB b.data a.data = true
      · rw [if_pos hba] at h1
        exact absurd h1 (by simp)
      · rw [if_neg hba] at h1
        have habeq : a.data = b.data := by
          rcases listLtB_trichotomy a.data b.data with h | h | h
          · exact absurd h hab
          · exact absurd h hba
          · exact h
        rw [habeq]
        by_cases hbc : listLtB b.data c.data = true
        · rw [if_pos hbc]
        · rw [if_neg hbc] at h2 ⊢
          by_cases hcb : listLtB c.data b.data = true
          · rw [if_pos hcb] at h2
            exact absurd h2 (by simp)
          · rw [if_neg hcb] at h2 ⊢
            exact listStrLtB_trans h1 h2

theorem bLeB_total {α : Type} (f : α → List String) (x y : α) :
    (!listStrLtB (f y) (f x)) = true ∨ (!listStrLtB (f x) (f y)) = true := by
  by_cases h : listStrLtB (f y) (f x) = true
  · right
    rw [listStrLtB_asymm h]
    rfl
  · left
    simp only [Bool.not_eq_true] at h
    rw [h]
    rfl

theorem bLeB_trans {α : Type} (f : α → List String) {x y z : α}
    (h1 : (!listStrLtB (f y) (f x)) = true) (h2 : (!listStrLtB (f z) (f y)) = true) :
    (!listStrLtB (f z) (f x)) = true := by
  simp only [Bool.not_eq_true'] at h1 h2 ⊢
  by_contra hzx
  simp only [Bool.not_eq_false] at hzx
  rcases listStrLtB_trichotomy (f x) (f y) with h | h | h
  · have hzy := listStrLtB_trans hzx h
    rw [hzy] at h2
    exact absurd h2 (by simp)
  · rw [h] at h1
    exact absurd h1 (by simp)
  · rw [h] at hzx
    rw [hzx] at h2
    exact absurd h2 (by simp)

theorem bLeB_antisymm {α : Type} (f : α → List String)
    (hf : ∀ {x y : α}, f x = f y → x = y) {x y : α}
    (h1 : (!listStrLtB (f y) (f x)) = true) (h2 : (!listStrLtB (f x) (f y)) = true) :
    x = y := by
  simp only [Bool.not_eq_true'] at h1 h2
  rcases listStrLtB_trichotomy (f x) (f y) with h | h | h
  · rw [h] at h2
    exact absurd h2 (by simp)
  · rw [h] at h1
    exact absurd h1 (by simp)
  · exact hf h

theorem Local.Archive.key6_inj {x y : Local.Archive} (h : x.key6 = y.key6) : x = y := by
  cases x
  cases y
  simp only [Local.Archive.key6, List.cons.injEq, and_true] at h
  obtain ⟨h1, h2, h3, h4, h5, h6⟩ := h
  subst h1
  subst h2
  subst h3
  subst h4
  subst h5
  subst h6
  rfl

theorem Remote.Archive.key6_injR {x y : Remote.Archive} (h : x.key6 = y.key6) : x = y := by
  cases x
  cases y
  simp only [Remote.Archive.key6, List.cons.injEq, and_true] at h
  obtain ⟨h1, h2, h3, h4, h5, h6⟩ := h
  subst h1
  subst h2
  subst h3
  subst h4
  subst h5
  subst h6
  rfl

theorem Local.Archive.leB_total (x y : Local.Archive) :
    Local.Archive.leB x y = true ∨ Local.Archive.leB y x = true :=
  bLeB_total Local.Archive.key6 x y

theorem Local.Archive.leB_trans {x y z : Local.Archive}
    (h1 : Local.Archive.leB x y = true) (h2 : Local.Archive.leB y z = true) :
    Local.Archive.leB x z = true :=
  bLeB_trans Local.Archive.key6 h1 h2

theorem Local.Archive.leB_antisymm {x y : Local.Archive}
    (h1 : Local.Archive.leB x y = true) (h2 : Local.Archive.leB y x = true) : x = y :=
  bLeB_antisymm Local.Archive.key6 Local.Archive.key6_inj h1 h2

theorem Remote.Archive.leB_totalR (x y : Remote.Archive) :
    Remote.Archive.leB x y = true ∨ Remote.Archive.leB y x = true :=
  bLeB_total Remote.Archive.key6 x y

theorem Remote.Archive.leB_transR {x y z : Remote.Archive}
    (h1 : Remote.Archive.leB x y = true) (h2 : Remote.Archive.leB y z = true) :
    Remote.Archive.leB x z = true :=
  bLeB_trans Remote.Archive.key6 h1 h2

theorem Remote.Archive.leB_antisymmR {x y : Remote.Archive}
    (h1 : Remote.Archive.leB x y = true) (h2 : Remote.Archive.leB y x = true) : x = y :=
  bLeB_antisymm Remote.Archive.key6 Remote.Archive.key6_injR h1 h2

/-! ## Uniqueness of the sorted canonical structure -/

theorem sort_ext {α : Type} (le : α → α → Bool)
    (htot : ∀ a b, le a b = true ∨ le b a = true)
    (htrans : ∀ a b c, le a b = true → le b c = true → le a c = true)
    (hanti : ∀ a b, le a b = true → le b a = true → a = b)
    {l₁ l₂ : List α} (h₁ : l₁.Nodup) (h₂ : l₂.Nodup)
    (hm : ∀ x, x ∈ l₁ ↔ x ∈ l₂) :
    List.insertionSort (fun a b => le a b = true) l₁ =
      List.insertionSort (fun a b => le a b = true) l₂ := by
  haveI : IsTotal α (fun a b => le a b = true) := ⟨htot⟩
  haveI : IsTrans α (fun a b => le a b = true) := ⟨htrans⟩
  haveI : IsAntisymm α (fun a b => le a b = true) := ⟨hanti⟩
  have hperm : l₁.Perm l₂ := (List.perm_ext_iff_of_nodup h₁ h₂).mpr hm
  exact List.eq_of_perm_of_sorted
    (((List.perm_insertionSort _ l₁).trans hperm).trans
      (List.perm_insertionSort _ l₂).symm)
    (List.sorted_insertionSort _ l₁) (List.sorted_insertionSort _ l₂)

theorem mem_verSet_iff {α : Type} (g : Groups α) (p v : String) (x : α) :
    x ∈ (dictGet ((dictGet g p).getD []) v).getD [] ↔ memGroups g p v x := by
  unfold memGroups
  rcases hv : dictGet g p with _ | vers
  · simp [dictGet]
  · simp only [Option.getD_some]
    rcases hs : dictGet vers v with _ | s
    · simp [hs]
    · simp [hs]

theorem verSet_nodup {α : Type} {g : Groups α} (hwf : groupsWF g) (p v : String) :
    ((dictGet ((dictGet g p).getD []) v).getD []).Nodup := by
  rcases hv : dictGet g p with _ | vers
  · simp [dictGet]
  · simp only [Option.getD_some]
    rcases hs : dictGet vers v with _ | s
    · simp
    · simpa using (hwf.2 p vers hv).2 v s hs

theorem verKeys_nodup {α : Type} {g : Groups α} (hwf : groupsWF g) (p : String) :
    (dictKeys ((dictGet g p).getD [])).Nodup := by
  rcases hv : dictGet g p with _ | vers
  · simp [dictKeys]
  · simpa using (hwf.2 p vers hv).1

theorem dictKeys_buildGroups_iff {α : Type} [DecidableEq α] (parse : String → Option α)
    (provK verK : α → String) (inputs : List String) (p : String) :
    p ∈ dictKeys (buildGroups parse provK verK inputs) ↔
      ∃ i ∈ inputs, ∃ x, parse i = some x ∧ provK x = p := by
  have h := dictKeys_buildGroups parse provK verK inputs p ([] : Groups α)
  constructor
  · intro hp
    rcases h.mp hp with h0 | hr
    · simp [dictKeys] at h0
    · exact hr
  · intro hr
    exact h.mpr (Or.inr hr)

theorem verKeys_buildGroups_iff {α : Type} [DecidableEq α] (parse : String → Option α)
    (provK verK : α → String) (inputs : List String) (p v : String) :
    v ∈ verKeys (buildGroups parse provK verK inputs) p ↔
      ∃ i ∈ inputs, ∃ x, parse i = some x ∧ provK x = p ∧ verK x = v := by
  have h := verKeys_buildGroups parse provK verK inputs p v ([] : Groups α)
  constructor
  · intro hp
    rcases h.mp hp with h0 | hr
    · simp [verKeys, dictGet, dictKeys] at h0
    · exact hr
  · intro hr
    exact h.mpr (Or.inr hr)

theorem memGroups_buildGroups_iff {α : Type} [DecidableEq α] (parse : String → Option α)
    (provK verK : α → String) (inputs : List String) (p v : String) (x : α) :
    memGroups (buildGroups parse provK verK inputs) p v x ↔
      (∃ i ∈ inputs, parse i = some x) ∧ provK x = p ∧ verK x = v := by
  have h := memGroups_buildGroups parse provK verK inputs p v x ([] : Groups α)
  constructor
  · intro hp
    rcases h.mp hp with h0 | hr
    · exact absurd h0 (memGroups_nil p v x)
    · exact hr
  · intro hr
    exact h.mpr (Or.inr hr)

theorem canon_ext {α : Type} [DecidableEq α] (le : α → α → Bool)
    (htot : ∀ a b, le a b = true ∨ le b a = true)
    (htrans : ∀ a b c, le a b = true → le b c = true → le a c = true)
    (hanti : ∀ a b, le a b = true → le b a = true → a = b)
    (parse : String → Option α) (provK verK : α → String)
    (inputs₁ inputs₂ : List String) (hm : ∀ x, x ∈ inputs₁ ↔ x ∈ inputs₂) :
    canonGroups le (buildGroups parse provK verK inputs₁) =
      canonGroups le (buildGroups parse provK verK inputs₂) := by
  have hwf₁ := groupsWF_buildGroups parse provK verK inputs₁
  have hwf₂ := groupsWF_buildGroups parse provK verK inputs₂
  have hpk : sortStr (dictKeys (buildGroups parse provK verK inputs₁)) =
      sortStr (dictKeys (buildGroups parse provK verK inputs₂)) := by
    unfold sortStr
    apply sort_ext strLeB strLeB_total (fun a b c h1 h2 => strLeB_trans h1 h2)
      (fun a b h1 h2 => strLeB_antisymm h1 h2) hwf₁.1 hwf₂.1
    intro p
    rw [dictKeys_buildGroups_iff, dictKeys_buildGroups_iff]
    exact exists_congr fun j => and_congr_left fun _ => hm j
  unfold canonGroups
  rw [hpk]
  apply List.map_congr_left
  intro p hp
  have hvk : sortStr (dictKeys ((dictGet (buildGroups parse provK verK inputs₁) p).getD [])) =
      sortStr (dictKeys ((dictGet (buildGroups parse provK verK inputs₂) p).getD [])) := by
    unfold sortStr
    apply sort_ext strLeB strLeB_total (fun a b c h1 h2 => strLeB_trans h1 h2)
      (fun a b h1 h2 => strLeB_antisymm h1 h2) (verKeys_nodup hwf₁ p) (verKeys_nodup hwf₂ p)
    intro v
    have h1 := verKeys_buildGroups_iff parse provK verK inputs₁ p v
    have h2 := verKeys_buildGroups_iff parse provK verK inputs₂ p v
    unfold verKeys at h1 h2
    rw [h1, h2]
    exact exists_congr fun j => and_congr_left fun _ => hm j
  dsimp only
  rw [hvk]
  congr 1
  apply List.map_congr_left
  intro v hv
  dsimp only
  congr 1
  apply sort_ext le htot htrans hanti (verSet_nodup hwf₁ p v) (verSet_nodup hwf₂ p v)
  intro x
  rw [mem_verSet_iff, mem_verSet_iff, memGroups_buildGroups_iff,
    memGroups_buildGroups_iff]
  exact and_congr_left fun _ => exists_congr fun j => and_congr_left fun _ => hm j

/-! ## Claim C8: error handling of `object_exists` and `dirhash` -/

/-- C8: during the destination-existence check, a `'404'` store error is
the single recoverable condition — `object_exists` returns `false` and
never re-raises it — while any other store error propagates; and the
`dirhasher` procedure exiting non-zero raises a fatal `MirrorError`,
while on zero exit the trimmed stdout is returned as the fingerprint. -/
theorem claim_C8 :
    object_exists (.clientError "404") = .ok false ∧
    (∀ code : String, code ≠ "404" → object_exists (.clientError code) = .error code) ∧
    (∀ o : SObj, object_exists (.ok o) = .ok true) ∧
    (∀ p : CompletedProcess, p.returncode ≠ 0 →
      dirhashRun p = .error ("dirhasher failed with code: " ++ toString p.returncode)) ∧
    (∀ p : CompletedProcess, p.returncode = 0 → dirhashRun p = .ok (pyStrip p.stdout)) := by
  refine ⟨rfl, fun code h => ?_, fun o => rfl, fun p h => ?_, fun p h => ?_⟩
  · simp [object_exists, h]
  · simp [dirhashRun, h]
  · simp [dirhashRun, h]

/-- Witness for C8 at concrete inputs: a `'500'` error propagates, exit
code 1 is fatal, exit code 0 returns the stripped stdout. -/
theorem claim_C8_witness :
    object_exists (.clientError "500") = .error "500" ∧
    dirhashRun ⟨1, "x"⟩ = .error "dirhasher failed with code: 1" ∧
    dirhashRun ⟨0, " abc12\n"⟩ = .ok "abc12" :=
  ⟨claim_C8.2.1 "500" (by decide),
    claim_C8.2.2.2.1 ⟨1, "x"⟩ (by decide),
    claim_C8.2.2.2.2 ⟨0, " abc12\n"⟩ rfl⟩

/-! ## Claim C3: the local `copy_archive` decision -/

/-- C3: the local `copy_archive` always recomputes the fingerprint of
the local file; it skips the upload — returning the fresh fingerprint
with `copied = false` and performing zero destination mutation — if and
only if the destination object exists and its `dirhash` metadata equals
the freshly computed value; in every other case it uploads the file
with the fresh fingerprint as metadata and returns `copied = true`. -/
theorem claim_C3 (env : Env) (archive_path : String) (store : Store) (key : String) :
    (Local.copy_archive env archive_path store key).1.1 = dirhashLocal env archive_path ∧
    (Local.copy_archive env archive_path store key =
        ((dirhashLocal env archive_path, false), store, []) ↔
      ∃ o, dictGet store key = some o ∧
        dictGet o.metadata DIRHASH_METADATA = some (dirhashLocal env archive_path)) ∧
    (¬(∃ o, dictGet store key = some o ∧
        dictGet o.metadata DIRHASH_METADATA = some (dirhashLocal env archive_path)) →
      Local.copy_archive env archive_path store key =
        ((dirhashLocal env archive_path, true),
          dictSet store key ⟨env.fileContent archive_path,
            [(DIRHASH_METADATA, dirhashLocal env archive_path)]⟩,
          [.upload key archive_path [(DIRHASH_METADATA, dirhashLocal env archive_path)]])) := by
  unfold Local.copy_archive
  rcases hg : dictGet store key with _ | o
  · simp [hg]
  · by_cases hm : dictGet o.metadata DIRHASH_METADATA = some (dirhashLocal env archive_path)
    · simp [hg, hm]
    · simp [hg, hm]

/-- Witness for C3 at concrete inputs: with an empty destination the
upload happens; with a matching destination fingerprint it is skipped
with no mutation. -/
theorem claim_C3_witness :
    Local.copy_archive ⟨fun s => "H" ++ s, fun p => "C" ++ p⟩ "a.zip" [] "k" =
      (("HCa.zip", true), [("k", ⟨"Ca.zip", [("dirhash", "HCa.zip")]⟩)],
        [.upload "k" "a.zip" [("dirhash", "HCa.zip")]]) ∧
    Local.copy_archive ⟨fun s => "H" ++ s, fun p => "C" ++ p⟩ "a.zip"
        [("k", ⟨"Ca.zip", [("dirhash", "HCa.zip")]⟩)] "k" =
      (("HCa.zip", false), [("k", ⟨"Ca.zip", [("dirhash", "HCa.zip")]⟩)], []) := by
  constructor
  · exact (claim_C3 ⟨fun s => "H" ++ s, fun p => "C" ++ p⟩ "a.zip" [] "k").2.2 (by decide)
  · exact ((claim_C3 ⟨fun s => "H" ++ s, fun p => "C" ++ p⟩ "a.zip"
      [("k", ⟨"Ca.zip", [("dirhash", "HCa.zip")]⟩)] "k").2.1).mpr (by decide)

/-! ## Claim C2: the remote `copy_archive` cache trust -/

/-- C2 counterexample: the destination mirror object exists and carries
a value (the empty string) under the `dirhash` metadata key, yet the
remote `copy_archive` does not return that stored value with
`copied = false`: Python truthiness makes it fingerprint and copy,
returning `copied = true`. -/
theorem claim_C2_counterexample :
    dictGet ([("k", ⟨"X", [("dirhash", "")]⟩)] : Store) "k" = some ⟨"X", [("dirhash", "")]⟩ ∧
    dictGet (SObj.metadata ⟨"X", [("dirhash", "")]⟩) DIRHASH_METADATA = some "" ∧
    Remote.copy_archive ⟨fun s => "H" ++ s, fun p => p⟩ [("r", ⟨"B", []⟩)] "r"
        [("k", ⟨"X", [("dirhash", "")]⟩)] "k" =
      (("HB", true), [("k", ⟨"B", [("dirhash", "HB")]⟩)],
        [.copyFrom "k" "r" [("dirhash", "HB")]]) := by
  refine ⟨rfl, rfl, by decide⟩

/-- C2 (amended): in the remote variant, for every archive whose
destination mirror object exists and carries a *non-empty* value under
the `dirhash` metadata key, `copy_archive` returns that stored value
with `copied = false`, performs no store mutation and issues no writes
— independently of the fingerprint function and of the current source
content; otherwise it fingerprints the fetched source, copies it to the
destination with the fingerprint set in the replaced metadata, and
returns the fresh fingerprint with `copied = true`. -/
theorem claim_C2 (env : Env) (relStore : Store) (rel_key : String)
    (mstore : Store) (mirror_key : String) :
    (∀ o h, dictGet mstore mirror_key = some o →
      dictGet o.metadata DIRHASH_METADATA = some h → h ≠ "" →
      Remote.copy_archive env relStore rel_key mstore mirror_key = ((h, false), mstore, [])) ∧
    (¬(∃ o h, dictGet mstore mirror_key = some o ∧
        dictGet o.metadata DIRHASH_METADATA = some h ∧ h ≠ "") →
      Remote.copy_archive env relStore rel_key mstore mirror_key =
        ((env.hashContent ((dictGet relStore rel_key).getD ⟨"", []⟩).body, true),
          dictSet mstore mirror_key
            ⟨((dictGet relStore rel_key).getD ⟨"", []⟩).body,
              dictSet ((dictGet relStore rel_key).getD ⟨"", []⟩).metadata DIRHASH_METADATA
                (env.hashContent ((dictGet relStore rel_key).getD ⟨"", []⟩).body)⟩,
          [.copyFrom mirror_key rel_key
            (dictSet ((dictGet relStore rel_key).getD ⟨"", []⟩).metadata DIRHASH_METADATA
              (env.hashContent ((dictGet relStore rel_key).getD ⟨"", []⟩).body))])) := by
  constructor
  · intro o h hg hm hne
    unfold Remote.copy_archive
    simp [hg, hm, hne]
  · intro hno
    unfold Remote.copy_archive
    rcases hg : dictGet mstore mirror_key with _ | o
    · simp [hg]
    · rcases hm : dictGet o.metadata DIRHASH_METADATA with _ | h
      · simp [hg, hm]
      · have : h = "" := by
          by_contra hne
          exact hno ⟨o, h, hg, hm, hne⟩
        simp [hg, hm, this]

/-- Witness for C2 at concrete inputs: a cached non-empty fingerprint is
returned unchanged with no copy; an absent destination triggers the
fingerprint-and-copy path. -/
theorem claim_C2_witness :
    Remote.copy_archive ⟨fun s => "H" ++ s, fun p => p⟩ [("r", ⟨"B", []⟩)] "r"
        [("k", ⟨"X", [("dirhash", "old")]⟩)] "k" =
      (("old", false), [("k", ⟨"X", [("dirhash", "old")]⟩)], []) ∧
    Remote.copy_archive ⟨fun s => "H" ++ s, fun p => p⟩ [("r", ⟨"B", []⟩)] "r" [] "k" =
      (("HB", true), [("k", ⟨"B", [("dirhash", "HB")]⟩)],
        [.copyFrom "k" "r" [("dirhash", "HB")]]) := by
  constructor
  · exact (claim_C2 ⟨fun s => "H" ++ s, fun p => p⟩ [("r", ⟨"B", []⟩)] "r"
      [("k", ⟨"X", [("dirhash", "old")]⟩)] "k").1 ⟨"X", [("dirhash", "old")]⟩ "old"
      rfl rfl (by decide)
  · exact (claim_C2 ⟨fun s => "H" ++ s, fun p => p⟩ [("r", ⟨"B", []⟩)] "r" [] "k").2
      (by simp [dictGet])

/-! ## Claim C4: the file-name parser -/

/-- C4: for every file name of the form `{p}_{v}_{o}_{a}.zip` with all
four parts non-empty (well-formed: the first three parts contain no
separator, no part contains a path slash), `Archive.parse` returns
exactly `(p, v, o, a)`; and for every slash-free name of any other
shape it returns absent — every parse either fails or exhibits such a
decomposition (and it is total, hence never raises). -/
theorem claim_C4 :
    (∀ p v o a : String, p ≠ "" → v ≠ "" → o ≠ "" → a ≠ "" →
      '_' ∉ p.data → '_' ∉ v.data → '_' ∉ o.data →
      '/' ∉ p.data → '/' ∉ v.data → '/' ∉ o.data → '/' ∉ a.data →
      Local.Archive.parse (p ++ "_" ++ v ++ "_" ++ o ++ "_" ++ a ++ ".zip") =
        some ⟨p ++ "_" ++ v ++ "_" ++ o ++ "_" ++ a ++ ".zip",
          p ++ "_" ++ v ++ "_" ++ o ++ "_" ++ a ++ ".zip", p, v, o, a⟩) ∧
    (∀ s : String, '/' ∉ s.data →
      Local.Archive.parse s = none ∨
      ∃ p v o a : String, s = p ++ "_" ++ v ++ "_" ++ o ++ "_" ++ a ++ ".zip" ∧
        p ≠ "" ∧ v ≠ "" ∧ o ≠ "" ∧ a ≠ "" ∧
        '_' ∉ p.data ∧ '_' ∉ v.data ∧ '_' ∉ o.data ∧
        Local.Archive.parse s = some ⟨s, s, p, v, o, a⟩) := by
  constructor
  · intro p v o a hp hv ho ha hup huv huo hsp hsv hso hsa
    have hdata : (p ++ "_" ++ v ++ "_" ++ o ++ "_" ++ a ++ ".zip").data =
        (p.data ++ '_' :: (v.data ++ '_' :: (o.data ++ '_' :: a.data))) ++
          ['.', 'z', 'i', 'p'] := by
      simp [String.data_append]
    have hnoslash : '/' ∉ (p ++ "_" ++ v ++ "_" ++ o ++ "_" ++ a ++ ".zip").data := by
      rw [hdata]
      simp [hsp, hsv, hso, hsa]
    have hany : (p.data ++ '_' :: (v.data ++ '_' :: (o.data ++ '_' :: a.data))).any
        (· != '.') = true := by
      refine List.any_eq_true.mpr ⟨'_', ?_, rfl⟩
      simp
    have hfn : (⟨(p.data ++ '_' :: (v.data ++ '_' :: (o.data ++ '_' :: a.data))) ++
        ['.', 'z', 'i', 'p']⟩ : String) = p ++ "_" ++ v ++ "_" ++ o ++ "_" ++ a ++ ".zip" :=
      String.ext hdata.symm
    have hpe : ¬p.data = [] := ne_empty_iff_data.mp hp
    have hve : ¬v.data = [] := ne_empty_iff_data.mp hv
    have hoe : ¬o.data = [] := ne_empty_iff_data.mp ho
    have hae : ¬a.data = [] := ne_empty_iff_data.mp ha
    simp only [Local.Archive.parse]
    rw [basenameChars_of_not_mem hnoslash, hdata, endsWithDotZip_append,
      splitextRoot_append_zip_any hany, splitMax3_append hup huv huo]
    simp [hpe, hve, hoe, hae]
    exact String.ext (by simp [String.data_append])
  · intro s hs
    simp only [Local.Archive.parse]
    rw [basenameChars_of_not_mem hs]
    by_cases he : endsWithDotZip s.data = true
    · obtain ⟨xs, hxs⟩ := endsWithDotZip_iff.mp he
      by_cases hany : xs.any (· != '.') = true
      · rw [hxs, endsWithDotZip_append, splitextRoot_append_zip_any hany]
        rcases h4 : splitMax '_' 3 xs with _ | ⟨pc, _ | ⟨vc, _ | ⟨oc, _ | ⟨ac, _ | _⟩⟩⟩⟩
        · left
          rfl
        · left
          rfl
        · left
          rfl
        · left
          rfl
        · by_cases hne : pc = [] ∨ vc = [] ∨ oc = [] ∨ ac = []
          · left
            simp [hne]
          · right
            push_neg at hne
            obtain ⟨hpe, hve, hoe, hae⟩ := hne
            obtain ⟨hxseq, hnp, hnv, hno⟩ := splitMax3_eq h4
            have hfn : (⟨xs ++ ['.', 'z', 'i', 'p']⟩ : String) = s := String.ext hxs.symm
            refine ⟨⟨pc⟩, ⟨vc⟩, ⟨oc⟩, ⟨ac⟩, ?_, ?_, ?_, ?_, ?_, hnp, hnv, hno, ?_⟩
            · apply String.ext
              simp [String.data_append, hxs, hxseq]
            · exact ne_empty_iff_data.mpr hpe
            · exact ne_empty_iff_data.mpr hve
            · exact ne_empty_iff_data.mpr hoe
            · exact ne_empty_iff_data.mpr hae
            · simp [hpe, hve, hoe, hae, hfn]
        · left
          rfl
      · left
        have hnu : '_' ∉ xs ++ ['.', 'z', 'i', 'p'] := by
          intro hm
          rcases List.mem_append.mp hm with h1 | h2
          · exact all_dots_no_underscore hany h1
          · simp at h2
        rw [hxs, endsWithDotZip_append, splitextRoot_append_zip_dots hany,
          splitMax_of_not_mem hnu 3]
        rfl
    · simp only [Bool.not_eq_true] at he
      left
      simp [he]

/-- Witness for C4 at concrete inputs: a well-formed name parses to its
four components, and the malformed `pkg-1.0.0.zip` is rejected. -/
theorem claim_C4_witness :
    Local.Archive.parse ("pkg" ++ "_" ++ "1.0.0" ++ "_" ++ "linux" ++ "_" ++ "amd64" ++ ".zip") =
      some ⟨"pkg" ++ "_" ++ "1.0.0" ++ "_" ++ "linux" ++ "_" ++ "amd64" ++ ".zip",
        "pkg" ++ "_" ++ "1.0.0" ++ "_" ++ "linux" ++ "_" ++ "amd64" ++ ".zip",
        "pkg", "1.0.0", "linux", "amd64"⟩ ∧
    (Local.Archive.parse "pkg-1.0.0.zip" = none ∨
      ∃ p v o a : String, "pkg-1.0.0.zip" = p ++ "_" ++ v ++ "_" ++ o ++ "_" ++ a ++ ".zip" ∧
        p ≠ "" ∧ v ≠ "" ∧ o ≠ "" ∧ a ≠ "" ∧
        '_' ∉ p.data ∧ '_' ∉ v.data ∧ '_' ∉ o.data ∧
        Local.Archive.parse "pkg-1.0.0.zip" =
          some ⟨"pkg-1.0.0.zip", "pkg-1.0.0.zip", p, v, o, a⟩) :=
  ⟨claim_C4.1 "pkg" "1.0.0" "linux" "amd64" (by decide) (by decide) (by decide) (by decide)
      (by decide) (by decide) (by decide) (by decide) (by decide) (by decide) (by decide),
    claim_C4.2 "pkg-1.0.0.zip" (by decide)⟩

/-! ## Claim C10: the two parsers agree -/

/-- C10: for every input string, the local variant's `Archive.parse`
(`os.path.basename` + `os.path.splitext`) and the remote variant's
(`split('/')[-1]` + stripping the final four characters) agree: both
absent, or records equal on `file_name`, `provider`, `version`, `os`
and `arch` (and the source string itself). -/
theorem claim_C10 (s : String) :
    Remote.Archive.parse s = (Local.Archive.parse s).map convArchive := by
  simp only [Remote.Archive.parse, Local.Archive.parse]
  rw [lastD_eq_basename]
  by_cases he : endsWithDotZip (basenameChars s.data) = true
  · obtain ⟨xs, hxs⟩ := endsWithDotZip_iff.mp he
    have hlen : (xs ++ ['.', 'z', 'i', 'p']).length - 4 = xs.length := by
      simp
    have htake : (xs ++ ['.', 'z', 'i', 'p']).take
        ((xs ++ ['.', 'z', 'i', 'p']).length - 4) = xs := by
      rw [hlen]
      exact List.take_left xs _
    rw [hxs, endsWithDotZip_append, htake]
    by_cases hany : xs.any (· != '.') = true
    · rw [splitextRoot_append_zip_any hany]
      rcases h4 : splitMax '_' 3 xs with _ | ⟨pc, _ | ⟨vc, _ | ⟨oc, _ | ⟨ac, _ | _⟩⟩⟩⟩ <;>
        simp [convArchive]
      by_cases hne : pc = [] ∨ vc = [] ∨ oc = [] ∨ ac = [] <;> simp [hne, convArchive]
    · have hnu : '_' ∉ xs ++ ['.', 'z', 'i', 'p'] := by
        intro hm
        rcases List.mem_append.mp hm with h1 | h2
        · exact all_dots_no_underscore hany h1
        · simp at h2
      have hnuxs : '_' ∉ xs := all_dots_no_underscore hany
      rw [splitextRoot_append_zip_dots hany, splitMax_of_not_mem hnu 3,
        splitMax_of_not_mem hnuxs 3]
      rfl
  · simp only [Bool.not_eq_true] at he
    simp [he]

/-! ## Claim C7: the two-archive scenario -/

/-- C7: a local run whose inputs are exactly `pkg_1.0.0_linux_amd64.zip`
and `pkg_1.0.0_darwin_amd64.zip` writes a version document `1.0.0.json`
whose archives map has exactly the two keys `linux_amd64` and
`darwin_amd64`, and an index document `index.json` whose content is the
serialization of `{"versions": {"1.0.0": {}}}` — for every fingerprint
environment. -/
theorem claim_C7 (env : Env) :
    putsOf (Local.sync env "" ["pkg_1.0.0_linux_amd64.zip", "pkg_1.0.0_darwin_amd64.zip"] []).2 =
      [("1.0.0.json",
        dumpVersionDoc
          [("darwin_amd64", dirhashLocal env "pkg_1.0.0_darwin_amd64.zip",
            "pkg_1.0.0_darwin_amd64.zip"),
            ("linux_amd64", dirhashLocal env "pkg_1.0.0_linux_amd64.zip",
              "pkg_1.0.0_linux_amd64.zip")]),
        ("index.json", "\x7b\n  \"versions\": \x7b\n    \"1.0.0\": \x7b\x7d\n  \x7d\n\x7d")] :=
  rfl

/-! ## Claim C9: duplicate `(provider, version, os, arch)` tuples -/

/-- C9 counterexample: two zips with identical file name supplied at
different local paths parse to the same `(provider, version, os, arch)`
tuple but do *not* map to the same set member during grouping: the
local `Archive` named tuple includes the source path, so the grouping
set holds two distinct members. -/
theorem claim_C9_counterexample :
    Local.Archive.parse "a/pkg_1.0.0_linux_amd64.zip" =
      some ⟨"a/pkg_1.0.0_linux_amd64.zip", "pkg_1.0.0_linux_amd64.zip",
        "pkg", "1.0.0", "linux", "amd64"⟩ ∧
    Local.Archive.parse "b/pkg_1.0.0_linux_amd64.zip" =
      some ⟨"b/pkg_1.0.0_linux_amd64.zip", "pkg_1.0.0_linux_amd64.zip",
        "pkg", "1.0.0", "linux", "amd64"⟩ ∧
    (⟨"a/pkg_1.0.0_linux_amd64.zip", "pkg_1.0.0_linux_amd64.zip",
        "pkg", "1.0.0", "linux", "amd64"⟩ : Local.Archive) ≠
      ⟨"b/pkg_1.0.0_linux_amd64.zip", "pkg_1.0.0_linux_amd64.zip",
        "pkg", "1.0.0", "linux", "amd64"⟩ ∧
    buildGroups Local.Archive.parse (·.provider) (·.version)
        ["a/pkg_1.0.0_linux_amd64.zip", "b/pkg_1.0.0_linux_amd64.zip"] =
      [("pkg", [("1.0.0",
        [⟨"a/pkg_1.0.0_linux_amd64.zip", "pkg_1.0.0_linux_amd64.zip",
          "pkg", "1.0.0", "linux", "amd64"⟩,
          ⟨"b/pkg_1.0.0_linux_amd64.zip", "pkg_1.0.0_linux_amd64.zip",
            "pkg", "1.0.0", "linux", "amd64"⟩])])] := by
  refine ⟨rfl, rfl, by decide, rfl⟩

/-- C9 (amended): two distinct input sources parsing to the same
`(provider, version, os, arch)` tuple are distinct set members when
their paths differ (equal records are deduplicated by the set), yet the
resulting version document contains exactly one entry for that tuple —
the last occurrence in sorted archive order silently winning through
dict-key overwrite: here the two same-named archives at paths `a/…` and
`b/…` produce a single `linux_amd64` entry carrying the fingerprint of
the `b/…` archive. -/
theorem claim_C9 :
    putsOf (Local.sync ⟨fun s => s, fun p => p⟩ ""
        ["a/pkg_1.0.0_linux_amd64.zip", "b/pkg_1.0.0_linux_amd64.zip"] []).2 =
      [("1.0.0.json",
        dumpVersionDoc
          [("linux_amd64", "b/pkg_1.0.0_linux_amd64.zip", "pkg_1.0.0_linux_amd64.zip")]),
        ("index.json", "\x7b\n  \"versions\": \x7b\n    \"1.0.0\": \x7b\x7d\n  \x7d\n\x7d")] ∧
    setAdd (setAdd []
        (⟨"a/pkg_1.0.0_linux_amd64.zip", "pkg_1.0.0_linux_amd64.zip",
          "pkg", "1.0.0", "linux", "amd64"⟩ : Local.Archive))
        ⟨"a/pkg_1.0.0_linux_amd64.zip", "pkg_1.0.0_linux_amd64.zip",
          "pkg", "1.0.0", "linux", "amd64"⟩ =
      [⟨"a/pkg_1.0.0_linux_amd64.zip", "pkg_1.0.0_linux_amd64.zip",
        "pkg", "1.0.0", "linux", "amd64"⟩] := by
  exact ⟨rfl, by decide⟩

/-- C1 counterexample: with two input zips of identical file name at
different local paths (and hence different fingerprints), the local
variant's second run against the unchanged inputs and the destination
written by the first run re-uploads both archives — the destination
object can only cache one fingerprint for the shared destination key,
so the claimed zero-copy second run fails. -/
theorem claim_C1_counterexample :
    copiesOf (Local.sync ⟨fun s => s, fun p => p⟩ ""
        ["a/pkg_1.0.0_linux_amd64.zip", "b/pkg_1.0.0_linux_amd64.zip"]
        (Local.sync ⟨fun s => s, fun p => p⟩ ""
          ["a/pkg_1.0.0_linux_amd64.zip", "b/pkg_1.0.0_linux_amd64.zip"] []).1).2 =
      [.upload "pkg_1.0.0_linux_amd64.zip" "a/pkg_1.0.0_linux_amd64.zip"
          [(DIRHASH_METADATA, "a/pkg_1.0.0_linux_amd64.zip")],
        .upload "pkg_1.0.0_linux_amd64.zip" "b/pkg_1.0.0_linux_amd64.zip"
          [(DIRHASH_METADATA, "b/pkg_1.0.0_linux_amd64.zip")]] ∧
    copiesOf (Local.sync ⟨fun s => s, fun p => p⟩ ""
        ["a/pkg_1.0.0_linux_amd64.zip", "b/pkg_1.0.0_linux_amd64.zip"]
        (Local.sync ⟨fun s => s, fun p => p⟩ ""
          ["a/pkg_1.0.0_linux_amd64.zip", "b/pkg_1.0.0_linux_amd64.zip"] []).1).2 ≠
      [] := by
  exact ⟨rfl, by decide⟩

/-- C1 (amended): running the synchronization twice against the same
unchanged inputs writes byte-for-byte identical version and index
documents on the second run and performs zero artifact copies/uploads
on the second run — in the local-source variant provided input archives
mapping to the same destination file name carry equal fingerprints (in
particular whenever the destination file names are distinct), and in
the remote-source variant provided the fingerprint procedure never
returns the empty string. -/
theorem claim_C1 (env : Env) (pre : String) (relStore : Store)
    (paths listing : List String) (st stR : Store)
    (HH : ∀ a b, a ∈ allParsed Local.Archive.parse paths →
      b ∈ allParsed Local.Archive.parse paths → a.file_name = b.file_name →
      dirhashLocal env a.path = dirhashLocal env b.path)
    (HR : ∀ b, env.hashContent b ≠ "") :
    (putsOf (Local.sync env pre paths (Local.sync env pre paths st).1).2 =
        putsOf (Local.sync env pre paths st).2 ∧
      copiesOf (Local.sync env pre paths (Local.sync env pre paths st).1).2 = []) ∧
    (putsOf (Remote.sync env relStore pre listing
          (Remote.sync env relStore pre listing stR).1).2 =
        putsOf (Remote.sync env relStore pre listing stR).2 ∧
      copiesOf (Remote.sync env relStore pre listing
          (Remote.sync env relStore pre listing stR).1).2 = []) := by
  refine ⟨⟨?_, ?_⟩, ?_, ?_⟩
  · rw [Local.sync_puts, Local.sync_puts]
  · exact Local.sync_nocopy env pre paths _ (Local.sync_good env pre paths st HH)
  · rw [Remote.sync_puts_spec env relStore pre listing _ HR,
      Remote.sync_puts_spec env relStore pre listing stR HR]
    apply docsSpec_congr
    intro pv hpv vd hvd a ha
    exact metaVal_congr (Remote.sync_stable env relStore pre listing
      ((Remote.sync env relStore pre listing stR).1) _
      (Remote.mkey_shape pre (Remote.canon_zip listing hpv hvd ha))
      (Remote.sync_goodR env relStore pre listing stR HR pv hpv vd hvd a ha))
  · exact Remote.sync_nocopyR env relStore pre listing _
      (Remote.sync_goodR env relStore pre listing stR HR)

/-- C1 witness: the amended idempotence theorem applied at a concrete
single-archive input, with both provisos discharged. -/
theorem claim_C1_witness :
    ((∀ a b : Local.Archive,
        a ∈ allParsed Local.Archive.parse ["pkg_1.0.0_linux_amd64.zip"] →
        b ∈ allParsed Local.Archive.parse ["pkg_1.0.0_linux_amd64.zip"] →
        a.file_name = b.file_name →
        dirhashLocal ⟨fun s => "h" ++ s, fun p => p⟩ a.path =
          dirhashLocal ⟨fun s => "h" ++ s, fun p => p⟩ b.path) ∧
      (∀ b, (⟨fun s => "h" ++ s, fun p => p⟩ : Env).hashContent b ≠ "")) ∧
    ((putsOf (Local.sync ⟨fun s => "h" ++ s, fun p => p⟩ ""
          ["pkg_1.0.0_linux_amd64.zip"]
          (Local.sync ⟨fun s => "h" ++ s, fun p => p⟩ ""
            ["pkg_1.0.0_linux_amd64.zip"] []).1).2 =
        putsOf (Local.sync ⟨fun s => "h" ++ s, fun p => p⟩ ""
          ["pkg_1.0.0_linux_amd64.zip"] []).2 ∧
      copiesOf (Local.sync ⟨fun s => "h" ++ s, fun p => p⟩ ""
          ["pkg_1.0.0_linux_amd64.zip"]
          (Local.sync ⟨fun s => "h" ++ s, fun p => p⟩ ""
            ["pkg_1.0.0_linux_amd64.zip"] []).1).2 = []) ∧
    (putsOf (Remote.sync ⟨fun s => "h" ++ s, fun p => p⟩ [] ""
          ["pkg_1.0.0_linux_amd64.zip"]
          (Remote.sync ⟨fun s => "h" ++ s, fun p => p⟩ [] ""
            ["pkg_1.0.0_linux_amd64.zip"] []).1).2 =
        putsOf (Remote.sync ⟨fun s => "h" ++ s, fun p => p⟩ [] ""
          ["pkg_1.0.0_linux_amd64.zip"] []).2 ∧
      copiesOf (Remote.sync ⟨fun s => "h" ++ s, fun p => p⟩ [] ""
          ["pkg_1.0.0_linux_amd64.zip"]
          (Remote.sync ⟨fun s => "h" ++ s, fun p => p⟩ [] ""
            ["pkg_1.0.0_linux_amd64.zip"] []).1).2 = [])) := by
  have hhh : ∀ a b : Local.Archive,
      a ∈ allParsed Local.Archive.parse ["pkg_1.0.0_linux_amd64.zip"] →
      b ∈ allParsed Local.Archive.parse ["pkg_1.0.0_linux_amd64.zip"] →
      a.file_name = b.file_name →
      dirhashLocal ⟨fun s => "h" ++ s, fun p => p⟩ a.path =
        dirhashLocal ⟨fun s => "h" ++ s, fun p => p⟩ b.path := by
    intro a b ha hb _
    have he : allParsed Local.Archive.parse ["pkg_1.0.0_linux_amd64.zip"] =
        [⟨"pkg_1.0.0_linux_amd64.zip", "pkg_1.0.0_linux_amd64.zip",
          "pkg", "1.0.0", "linux", "amd64"⟩] := rfl
    rw [he] at ha hb
    rw [List.mem_singleton.mp ha, List.mem_singleton.mp hb]
  have hhr : ∀ b, (⟨fun s => "h" ++ s, fun p => p⟩ : Env).hashContent b ≠ "" := by
    intro b hc
    have hd := congrArg String.data hc
    simp [String.data_append] at hd
  exact ⟨⟨hhh, hhr⟩,
    claim_C1 ⟨fun s => "h" ++ s, fun p => p⟩ "" []
      ["pkg_1.0.0_linux_amd64.zip"] ["pkg_1.0.0_linux_amd64.zip"] [] [] hhh hhr⟩

/-- C6: every version and index document is written unconditionally on
every run (the put list below is exhaustive, with no existence check or
skip), and which documents exist and which entries and versions they
contain is a function only of the artifacts observed in the current
run's input — in the local variant the full document list including
fingerprint values, in the remote variant everything except the cached
fingerprint values (abstracted by `E`): each written version document's
archives dict has exactly the `{os}_{arch}` keys of the current input's
archives for that provider and version, and each index document lists
exactly the current input's versions, so entries or versions present in
a previously written destination document but absent from the current
input do not appear. -/
theorem claim_C6 (env : Env) (pre : String) :
    (∀ (paths : List String) (st : Store),
      putsOf (Local.sync env pre paths st).2 = Local.docsOf env pre paths) ∧
    (∀ (relStore : Store) (listing : List String) (st : Store),
      ∃ E : String → String → List (String × String × String),
        putsOf (Remote.sync env relStore pre listing st).2 =
          (canonGroups Remote.Archive.leB
            (buildGroups Remote.Archive.parse (·.provider) (·.version) listing)).flatMap
            (fun pv =>
              pv.2.map (fun vd =>
                (pre ++ vd.1 ++ ".json", dumpVersionDoc (E pv.1 vd.1))) ++
                [(pre ++ "index.json", dumpIndexDoc (pv.2.map Prod.fst))]) ∧
        ∀ pv ∈ canonGroups Remote.Archive.leB
            (buildGroups Remote.Archive.parse (·.provider) (·.version) listing),
          ∀ vd ∈ pv.2, dictKeys (E pv.1 vd.1) =
            dedupKeys (vd.2.map (fun a => a.os ++ "_" ++ a.arch))) := by
  refine ⟨fun paths st => Local.sync_puts env pre paths st, ?_⟩
  intro relStore listing st
  have hwf := canonGroups_wf Remote.Archive.leB
    (buildGroups Remote.Archive.parse (·.provider) (·.version) listing)
    (groupsWF_buildGroups Remote.Archive.parse (·.provider) (·.version) listing)
  obtain ⟨E, hp, hk⟩ := Remote.foldProv_puts_abs env relStore pre
    (canonGroups Remote.Archive.leB
      (buildGroups Remote.Archive.parse (·.provider) (·.version) listing))
    st [] hwf.1 (fun pv hpv => (hwf.2 pv hpv).1)
  refine ⟨E, ?_, hk⟩
  unfold Remote.sync
  rw [hp]
  rfl

/-- C5: for any two invocations given the same set of input artifacts
presented in different orders, both variants produce literally the same
result — the same final destination store and the same write sequence —
so in particular the emitted version and index JSON documents are
byte-identical and the set of store writes issued (artifact
copies/uploads and document puts) is identical. -/
theorem claim_C5 (env : Env) (relStore : Store) (pre : String) (st : Store)
    (inputs₁ inputs₂ : List String) (h : ∀ x, x ∈ inputs₁ ↔ x ∈ inputs₂) :
    Local.sync env pre inputs₁ st = Local.sync env pre inputs₂ st ∧
    Remote.sync env relStore pre inputs₁ st = Remote.sync env relStore pre inputs₂ st := by
  constructor
  · unfold Local.sync
    rw [canon_ext Local.Archive.leB Local.Archive.leB_total
      (fun a b c h1 h2 => Local.Archive.leB_trans h1 h2)
      (fun a b h1 h2 => Local.Archive.leB_antisymm h1 h2)
      Local.Archive.parse (·.provider) (·.version) inputs₁ inputs₂ h]
  · unfold Remote.sync
    rw [canon_ext Remote.Archive.leB Remote.Archive.leB_totalR
      (fun a b c h1 h2 => Remote.Archive.leB_transR h1 h2)
      (fun a b h1 h2 => Remote.Archive.leB_antisymmR h1 h2)
      Remote.Archive.parse (·.provider) (·.version) inputs₁ inputs₂ h]

/-- C5 witness: the order-independence theorem applied to the two-zip
input presented in both orders. -/
theorem claim_C5_witness :
    (∀ x : String,
      x ∈ ["pkg_1.0.0_linux_amd64.zip", "pkg_1.0.0_darwin_amd64.zip"] ↔
        x ∈ ["pkg_1.0.0_darwin_amd64.zip", "pkg_1.0.0_linux_amd64.zip"]) ∧
    (Local.sync ⟨fun s => s, fun p => p⟩ ""
        ["pkg_1.0.0_linux_amd64.zip", "pkg_1.0.0_darwin_amd64.zip"] [] =
      Local.sync ⟨fun s => s, fun p => p⟩ ""
        ["pkg_1.0.0_darwin_amd64.zip", "pkg_1.0.0_linux_amd64.zip"] [] ∧
    Remote.sync ⟨fun s => s, fun p => p⟩ [] ""
        ["pkg_1.0.0_linux_amd64.zip", "pkg_1.0.0_darwin_amd64.zip"] [] =
      Remote.sync ⟨fun s => s, fun p => p⟩ [] ""
        ["pkg_1.0.0_darwin_amd64.zip", "pkg_1.0.0_linux_amd64.zip"] []) := by
  have hmm : ∀ x : String,
      x ∈ ["pkg_1.0.0_linux_amd64.zip", "pkg_1.0.0_darwin_amd64.zip"] ↔
        x ∈ ["pkg_1.0.0_darwin_amd64.zip", "pkg_1.0.0_linux_amd64.zip"] := by
    intro x
    simp only [List.mem_cons, List.not_mem_nil, or_false]
    tauto
  exact ⟨hmm, claim_C5 ⟨fun s => s, fun p => p⟩ [] "" []
    ["pkg_1.0.0_linux_amd64.zip", "pkg_1.0.0_darwin_amd64.zip"]
    ["pkg_1.0.0_darwin_amd64.zip", "pkg_1.0.0_linux_amd64.zip"] hmm⟩

end MirrorProv
